import Mathlib

/-!
# gocsapp/asm : a two-phase assembler for a small instruction set

A shallow embedding of `asm/asm.go` and `asm/instructions.go`.

Conventions of the embedding:

* The source text is a `List Char` (the runes that `utf8.DecodeRune` yields one by one; an
  invalid byte is the rune U+FFFD, which is in none of the character classes used).
* Go's `unicode.IsSpace`, `unicode.IsLetter`, `unicode.IsDigit` and `unicode.ToLower` are fixed
  on ASCII; outside ASCII they are read from a `RuneTables` parameter, so that every theorem
  holds whatever the tables say there.
* `bufio.Scanner` is a forward-only cursor: the unread input and the last token. Its buffer
  holds at most `MaxScanTokenSize` bytes; the reader hands over whole runes.
* Go's `int` is `Int`/`Nat` without overflow, `byte` is a `Nat` reduced `% 256` where the
  code shifts, `uint32(x)` is `x % 2^32`.
* The loop of `Parse` runs on fuel (the length of the input plus one); `Parse_total` shows
  that this fuel is always enough.
-/

namespace Asm

/-! ## Character classes (package `unicode`) -/

/-- The values of `unicode.IsSpace`, `unicode.IsLetter`, `unicode.IsDigit` and
`unicode.ToLower` on the runes outside ASCII. -/
structure RuneTables where
  space : Char → Bool
  letter : Char → Bool
  digit : Char → Bool
  lower : Char → Char

/-- Tables in which no rune outside ASCII is a space, a letter or a digit. -/
def asciiTables : RuneTables :=
  { space := fun _ => false, letter := fun _ => false, digit := fun _ => false,
    lower := fun c => c }

/-- `unicode.IsSpace`: on ASCII, one of `'\t'`, `'\n'`, `'\v'`, `'\f'`, `'\r'`, `' '`. -/
def IsSpace (T : RuneTables) (r : Char) : Bool :=
  if r.toNat < 128 then (9 ≤ r.toNat && r.toNat ≤ 13) || r.toNat == 32 else T.space r

/-- `unicode.IsLetter`: on ASCII, `A`-`Z` and `a`-`z`. -/
def IsLetter (T : RuneTables) (r : Char) : Bool :=
  if r.toNat < 128 then
    (65 ≤ r.toNat && r.toNat ≤ 90) || (97 ≤ r.toNat && r.toNat ≤ 122)
  else T.letter r

/-- `unicode.IsDigit`: on ASCII, `0`-`9`. -/
def IsDigit (T : RuneTables) (r : Char) : Bool :=
  if r.toNat < 128 then 48 ≤ r.toNat && r.toNat ≤ 57 else T.digit r

/-- `unicode.ToLower`: on ASCII, `A`-`Z` are moved to `a`-`z`. -/
def ToLowerRune (T : RuneTables) (r : Char) : Char :=
  if r.toNat < 128 then
    (if 65 ≤ r.toNat && r.toNat ≤ 90 then Char.ofNat (r.toNat + 32) else r)
  else T.lower r

/-- `strings.ToLower`. -/
def ToLower (T : RuneTables) (s : String) : String :=
  String.mk (s.data.map (ToLowerRune T))

/-! ## The lexer (`splitFunc`) and the scanner -/

/-- The `case ',', '%', '$', '(', ')', '-', ':'` of `splitFunc`. -/
def isPunct (r : Char) : Bool :=
  r == ',' || r == '%' || r == '$' || r == '(' || r == ')' || r == '-' || r == ':'

/-- The first loop of `splitFunc`: the number of leading runes that are spaces. -/
def skipSpaces (T : RuneTables) : List Char → Nat
  | [] => 0
  | r :: data => if IsSpace T r then skipSpaces T data + 1 else 0

/-- The loop condition of the word scan of `splitFunc`. -/
def isWordRune (T : RuneTables) (r : Char) : Bool :=
  IsLetter T r || IsDigit T r || r == '_'

/-- The second loop of `splitFunc`: the number of leading runes that are letters, digits
or `_`. -/
def scanWord (T : RuneTables) : List Char → Nat
  | [] => 0
  | r :: data => if isWordRune T r then scanWord T data + 1 else 0

/-- `splitFunc(data, atEOF)`: the pair `(advance, token)`; `token = none` is Go's `nil`
token (a request for more data). Positions count runes. -/
def splitFunc (T : RuneTables) (data : List Char) (atEOF : Bool) :
    Nat × Option (List Char) :=
  let start := skipSpaces T data
  if start ≥ data.length then (0, none)
  else
    match data.drop start with
    | [] => (0, none)
    | r :: tail =>
      if isPunct r then (start + 1, some [r])
      else
        let end_ := start + scanWord T (r :: tail)
        if end_ < data.length then (end_, some ((data.drop start).take (end_ - start)))
        else if atEOF then (end_, some (data.drop start))
        else (0, none)

/-- The state of a `bufio.Scanner`: the input not yet consumed and the last token
(`scanner.Text()`). -/
structure Scanner where
  rest : List Char
  Text : String
deriving DecidableEq, Repr

/-- `bufio.NewScanner(src)` with `scanner.Split(splitFunc)`. -/
def NewScanner (src : List Char) : Scanner := { rest := src, Text := "" }

/-- `bufio.MaxScanTokenSize`: the size in bytes that the buffer of a scanner never
exceeds. -/
def MaxScanTokenSize : Nat := 64 * 1024

/-- `utf8.RuneLen`: the number of bytes of the UTF-8 encoding of a rune. -/
def RuneLen (r : Char) : Nat :=
  if r.toNat < 0x80 then 1 else if r.toNat < 0x800 then 2 else if r.toNat < 0x10000 then 3 else 4

/-- The number of bytes of a text. -/
def byteLen : List Char → Nat
  | [] => 0
  | r :: data => RuneLen r + byteLen data

/-- The runes at the front of `data` that a buffer with room for `room` bytes holds. -/
def buffered : Nat → List Char → List Char
  | _, [] => []
  | room, r :: data => if RuneLen r ≤ room then r :: buffered (room - RuneLen r) data else []

/-- `scanner.Scan()`: the split function is tried on the unread input that the buffer holds;
the buffer grows up to `MaxScanTokenSize` bytes, and a token found in a shorter buffer is the
token found in the full one (`splitFunc_more`). When the full buffer holds no token, the scan stops with
`ErrTooLong` if the unread input fills the buffer (`Parse` never reads `scanner.Err()`);
otherwise the split function is tried once again at end of input (the reader reports the
end of input after its last byte, as `strings.Reader` does). Returns whether a token was
produced; after a call that returned false `Parse` calls `Scan` no more. -/
@[irreducible]
def Scanner.Scan (T : RuneTables) (s : Scanner) : Bool × Scanner :=
  match splitFunc T (buffered MaxScanTokenSize s.rest) false with
  | (advance, some token) => (true, { rest := s.rest.drop advance, Text := String.mk token })
  | (_, none) =>
    if MaxScanTokenSize ≤ byteLen s.rest then (false, { rest := [], Text := "" })
    else
      match splitFunc T s.rest true with
      | (advance, some token) => (true, { rest := s.rest.drop advance, Text := String.mk token })
      | (_, none) => (false, { rest := [], Text := "" })

def nextReadToken (T : RuneTables) (scanner : Scanner) (token : String) : Bool × Scanner :=
  match scanner.Scan T with
  | (true, sc) => (sc.Text == token, sc)
  | (false, sc) => (false, sc)

def nextReadRegExp (T : RuneTables) (scanner : Scanner) (reg : String → Bool) :
    Bool × Scanner :=
  match scanner.Scan T with
  | (true, sc) => (reg sc.Text, sc)
  | (false, sc) => (false, sc)

/-! ## Errors, regular expressions, the register map -/

/-- The errors of the package: a `*MismatchError` or an error made by `fmt.Errorf`, given by
its message. -/
inductive Error where
  | MismatchError (Expect : String) (Actual : String)
  | Errorf (msg : String)
deriving DecidableEq, Repr

deriving instance DecidableEq for Except

/-- `regRegister = ^(eax|ecx|edx|ebx|esi|edi|esp|ebp)$`, as a matcher. -/
def regRegister (s : String) : Bool :=
  s == "eax" || s == "ecx" || s == "edx" || s == "ebx" ||
  s == "esi" || s == "edi" || s == "esp" || s == "ebp"

/-- The class `[a-fA-F0-9]`. -/
def isHexRune (r : Char) : Bool :=
  (97 ≤ r.toNat && r.toNat ≤ 102) || (65 ≤ r.toNat && r.toNat ≤ 70) ||
  (48 ≤ r.toNat && r.toNat ≤ 57)

/-- The part `[a-fA-F0-9]+$` of `regNumber`. -/
def isHexRun (s : List Char) : Bool := !s.isEmpty && s.all isHexRune

/-- `regNumber = ^(0x|0b|0o)?[a-fA-F0-9]+$`, as a matcher. -/
def regNumber (s : String) : Bool :=
  isHexRun s.data ||
  match s.data with
  | '0' :: p :: digits => (p == 'x' || p == 'b' || p == 'o') && isHexRun digits
  | _ => false

/-- The class `[_a-zA-Z]`. -/
def isLabelStart (r : Char) : Bool :=
  r == '_' || (97 ≤ r.toNat && r.toNat ≤ 122) || (65 ≤ r.toNat && r.toNat ≤ 90)

/-- The class `[_a-zA-Z0-9]`. -/
def isLabelRune (r : Char) : Bool :=
  isLabelStart r || (48 ≤ r.toNat && r.toNat ≤ 57)

/-- `regLabel = ^[_a-zA-Z][_a-zA-Z0-9]*$`, as a matcher. -/
def regLabel (s : String) : Bool :=
  match s.data with
  | [] => false
  | r :: tail => isLabelStart r && tail.all isLabelRune

/-- The map `registerCode`; a name that is not a key has the zero value. -/
def registerCode (name : String) : Nat :=
  match name with
  | "eax" => 0
  | "ecx" => 1
  | "edx" => 2
  | "ebx" => 3
  | "esp" => 4
  | "ebp" => 5
  | "esi" => 6
  | "edi" => 7
  | "no_reg" => 8
  | _ => 0

def nextReadRegister (T : RuneTables) (scanner : Scanner) : Except Error Nat × Scanner :=
  match nextReadToken T scanner "%" with
  | (false, sc) =>
    (.error (.Errorf ("expect a register name, but found '" ++ sc.Text ++ "'")), sc)
  | (true, sc) =>
    match nextReadRegExp T sc regRegister with
    | (false, sc) =>
      (.error (.Errorf ("expect a register name, but found '" ++ sc.Text ++ "'")), sc)
    | (true, sc) => (.ok (registerCode sc.Text), sc)

/-! ## Number literals (`strconv.ParseInt` with base 0) -/

/-- The two causes of a `*strconv.NumError`. -/
inductive NumError where
  | ErrSyntax
  | ErrRange
deriving DecidableEq, Repr

/-- The function `lower(c)` of package `strconv`: `c | ('x' - 'X')`. -/
def lower (c : Nat) : Nat := c ||| 32

/-- The function `underscoreOK` of package `strconv`, after the optional sign and base
prefix: `saw` is the kind of the last byte seen (`'0'`, `'_'`, `'^'` or `'!'`). -/
def underscoreOK.loop (hex : Bool) : List Char → Char → Bool
  | [], saw => saw != '_'
  | c :: s, saw =>
    if (48 ≤ c.toNat && c.toNat ≤ 57) ||
        (hex && 97 ≤ lower c.toNat && lower c.toNat ≤ 102) then
      underscoreOK.loop hex s '0'
    else if c == '_' then
      (if saw != '0' then false else underscoreOK.loop hex s '_')
    else if saw == '_' then false
    else underscoreOK.loop hex s '!'

/-- The function `underscoreOK(s)` of package `strconv`. -/
def underscoreOK (s : List Char) : Bool :=
  let s1 := match s with
    | '-' :: t => t
    | '+' :: t => t
    | _ => s
  match s1 with
  | '0' :: p :: t =>
    if lower p.toNat == 98 || lower p.toNat == 111 || lower p.toNat == 120 then
      underscoreOK.loop (lower p.toNat == 120) t '0'
    else underscoreOK.loop false s1 '^'
  | _ => underscoreOK.loop false s1 '^'

/-- The digit loop of `strconv.ParseUint` on 64-bit words: `n` is the value so far and
`underscores` records whether a `_` was skipped. An error carries the value returned
with it. -/
def ParseUint.loop (base cutoff maxVal : Nat) :
    List Char → Nat → Bool → Except (Nat × NumError) (Nat × Bool)
  | [], n, underscores => .ok (n, underscores)
  | c :: s, n, underscores =>
    if c == '_' then ParseUint.loop base cutoff maxVal s n true
    else
      let d : Option Nat :=
        if 48 ≤ c.toNat && c.toNat ≤ 57 then some (c.toNat - 48)
        else if 97 ≤ lower c.toNat && lower c.toNat ≤ 122 then
          some ((lower c.toNat - 97 + 10) % 256)
        else none
      match d with
      | none => .error (0, .ErrSyntax)
      | some d =>
        if d ≥ base then .error (0, .ErrSyntax)
        else if n ≥ cutoff then .error (maxVal, .ErrRange)
        else
          let n0 := (n * base) % 2 ^ 64
          let n1 := (n0 + d) % 2 ^ 64
          if n1 < n0 || n1 > maxVal then .error (maxVal, .ErrRange)
          else ParseUint.loop base cutoff maxVal s n1 underscores

/-- `strconv.ParseUint(s, 0, bitSize)` for `1 ≤ bitSize ≤ 64`, on a string of ASCII bytes:
the value and the error (`none` is `nil`). -/
def ParseUint (s : List Char) (bitSize : Nat) : Nat × Option NumError :=
  if s.isEmpty then (0, some .ErrSyntax)
  else
    let (base, digits) : Nat × List Char :=
      match s with
      | '0' :: p :: t =>
        if !t.isEmpty && lower p.toNat == 98 then (2, t)
        else if !t.isEmpty && lower p.toNat == 111 then (8, t)
        else if !t.isEmpty && lower p.toNat == 120 then (16, t)
        else (8, p :: t)
      | '0' :: t => (8, t)
      | _ => (10, s)
    let cutoff := (2 ^ 64 - 1) / base + 1
    let maxVal := 2 ^ bitSize - 1
    match ParseUint.loop base cutoff maxVal digits 0 false with
    | .error (n, err) => (n, some err)
    | .ok (n, underscores) =>
      if underscores && !underscoreOK s then (0, some .ErrSyntax) else (n, none)

/-- `strconv.ParseInt(s, 0, bitSize)` for `1 ≤ bitSize ≤ 64`, on a string of ASCII
bytes. -/
def ParseInt (s : List Char) (bitSize : Nat) : Int × Option NumError :=
  if s.isEmpty then (0, some .ErrSyntax)
  else
    let (neg, s1) : Bool × List Char :=
      match s with
      | '+' :: t => (false, t)
      | '-' :: t => (true, t)
      | _ => (false, s)
    match ParseUint s1 bitSize with
    | (_, some .ErrSyntax) => (0, some .ErrSyntax)
    | (un, _) =>
      let cutoff := 2 ^ (bitSize - 1)
      if !neg && un ≥ cutoff then (((cutoff - 1 : Nat) : Int), some .ErrRange)
      else if neg && un > cutoff then (-(cutoff : Int), some .ErrRange)
      else (if neg then -(un : Int) else (un : Int), none)

def nextReadNumber (T : RuneTables) (scanner : Scanner) : Except Error Int × Scanner :=
  match scanner.Scan T with
  | (false, sc) => (.error (.MismatchError "immediate number" sc.Text), sc)
  | (true, sc) =>
    let isNeg := sc.Text == "-"
    match (if isNeg then sc.Scan T else (true, sc)) with
    | (false, sc) => (.error (.MismatchError "immediate number" sc.Text), sc)
    | (true, sc) =>
      if !regNumber sc.Text then (.error (.MismatchError "immediate number" sc.Text), sc)
      else
        let numStr := if isNeg then "-" ++ sc.Text else sc.Text
        match ParseInt numStr.data 32 with
        | (_, some _) => (.error (.MismatchError "immediate number" sc.Text), sc)
        | (num, none) => (.ok num, sc)

def nextReadImmediateNumber (T : RuneTables) (scanner : Scanner) :
    Except Error Int × Scanner :=
  match nextReadToken T scanner "$" with
  | (false, sc) => (.error (.MismatchError "immediate number" sc.Text), sc)
  | (true, sc) => nextReadNumber T sc

/-! ## The opcode model and the encoders (`instructions.go`) -/

/-- The type `labelTable = map[string]*int`: the first pair with a given key is the entry
of the map; the value `none` is a `nil` pointer. -/
abbrev labelTable := List (String × Option Nat)

/-- The pointer `labels[name]`: `none` when the entry is absent or `nil`. -/
def labelTable.addr (labels : labelTable) (name : String) : Option Nat :=
  (labels.lookup name).join

/-- The four values that the field `EncodeFunc` takes. -/
inductive encodeFunc where
  | Simple
  | Register
  | RegisterImmediate
  | Branching
deriving DecidableEq, Repr

structure opcode where
  Address : Nat
  Code : Nat
  Size : Nat
  Ra : Nat
  Rb : Nat
  Var : Int
  Label : String
  EncodeFunc : encodeFunc
deriving DecidableEq, Repr

/-- The conversion `uint32(x)` of an `int`. -/
def uint32 (x : Int) : Nat := (x % 2 ^ 32).toNat

/-- `binary.LittleEndian.PutUint32` into a fresh slice of four bytes. -/
def PutUint32 (v : Nat) : List Nat :=
  [v % 256, (v >>> 8) % 256, (v >>> 16) % 256, (v >>> 24) % 256]

def encodeSimpleOpCode (op : opcode) (_labels : labelTable) : Except Error (List Nat) :=
  .ok [op.Code]

def encodeRegisterOpCode (op : opcode) (_labels : labelTable) : Except Error (List Nat) :=
  .ok [op.Code, ((op.Ra <<< 4) % 256) ||| op.Rb]

def encodeRegisterImmediateOpCode (op : opcode) (_labels : labelTable) :
    Except Error (List Nat) :=
  let result := [op.Code, ((op.Ra <<< 4) % 256) ||| op.Rb]
  let numBytes := PutUint32 (uint32 op.Var)
  .ok (result ++ numBytes)

def encodeBranchingOpCode (op : opcode) (labels : labelTable) : Except Error (List Nat) :=
  match labelTable.addr labels op.Label with
  | none => .error (.Errorf ("unsolved reference: " ++ op.Label))
  | some addr =>
    let numBytes := PutUint32 (uint32 (addr : Int))
    .ok ([op.Code] ++ numBytes)

/-- The call `op.EncodeFunc(op, labels)`. -/
def encodeFunc.call : encodeFunc → opcode → labelTable → Except Error (List Nat)
  | .Simple => encodeSimpleOpCode
  | .Register => encodeRegisterOpCode
  | .RegisterImmediate => encodeRegisterImmediateOpCode
  | .Branching => encodeBranchingOpCode

/-! ## The instruction parsers -/

/-- The result of an `instFunc`: the opcode or the error, and the label table and the
scanner as the call leaves them. -/
abbrev instResult := Except Error opcode × labelTable × Scanner

/-- The type `instFunc`. -/
abbrev instFunc := RuneTables → Nat → labelTable → Scanner → instResult

/-- The zero value of `opcode` with the fields that every parser sets. -/
def opcode.new (address code size : Nat) (f : encodeFunc) : opcode :=
  { Address := address, Code := code, Size := size, Ra := 0, Rb := 0, Var := 0, Label := "",
    EncodeFunc := f }

def nop : instFunc := fun _ address labels scanner =>
  (.ok (opcode.new address 0x00 1 .Simple), labels, scanner)

def halt : instFunc := fun _ address labels scanner =>
  (.ok (opcode.new address 0x10 1 .Simple), labels, scanner)

def rrmovl : instFunc := fun T address labels scanner =>
  let op := opcode.new address 0x20 2 .Register
  match nextReadRegister T scanner with
  | (.error err, sc) => (.error err, labels, sc)
  | (.ok ra, sc) =>
    match nextReadToken T sc "," with
    | (false, sc) => (.error (.MismatchError "','" sc.Text), labels, sc)
    | (true, sc) =>
      match nextReadRegister T sc with
      | (.error err, sc) => (.error err, labels, sc)
      | (.ok rb, sc) => (.ok { op with Ra := ra, Rb := rb }, labels, sc)

def irmovl : instFunc := fun T addr labels scanner =>
  let op := { opcode.new addr 0x30 6 .RegisterImmediate with Ra := registerCode "no_reg" }
  match nextReadImmediateNumber T scanner with
  | (.error err, sc) => (.error err, labels, sc)
  | (.ok v, sc) =>
    match nextReadToken T sc "," with
    | (false, sc) => (.error (.MismatchError "','" sc.Text), labels, sc)
    | (true, sc) =>
      match nextReadRegister T sc with
      | (.error err, sc) => (.error err, labels, sc)
      | (.ok rb, sc) => (.ok { op with Var := v, Rb := rb }, labels, sc)

def rmmvol : instFunc := fun T addr labels scanner =>
  let op := opcode.new addr 0x40 6 .RegisterImmediate
  match nextReadRegister T scanner with
  | (.error err, sc) => (.error err, labels, sc)
  | (.ok ra, sc) =>
    match nextReadToken T sc "," with
    | (false, sc) => (.error (.MismatchError "','" sc.Text), labels, sc)
    | (true, sc) =>
      match nextReadNumber T sc with
      | (.error err, sc) => (.error err, labels, sc)
      | (.ok v, sc) =>
        match nextReadToken T sc "(" with
        | (false, sc) => (.error (.MismatchError "'('" sc.Text), labels, sc)
        | (true, sc) =>
          match nextReadRegister T sc with
          | (.error err, sc) => (.error err, labels, sc)
          | (.ok rb, sc) =>
            match nextReadToken T sc ")" with
            | (false, sc) => (.error (.MismatchError "')'" sc.Text), labels, sc)
            | (true, sc) => (.ok { op with Ra := ra, Var := v, Rb := rb }, labels, sc)

def mrmovl : instFunc := fun T addr labels scanner =>
  let op := opcode.new addr 0x50 6 .RegisterImmediate
  match nextReadNumber T scanner with
  | (.error err, sc) => (.error err, labels, sc)
  | (.ok v, sc) =>
    match nextReadToken T sc "(" with
    | (false, sc) => (.error (.MismatchError "'('" sc.Text), labels, sc)
    | (true, sc) =>
      match nextReadRegister T sc with
      | (.error err, sc) => (.error err, labels, sc)
      | (.ok rb, sc) =>
        match nextReadToken T sc ")" with
        | (false, sc) => (.error (.MismatchError "')'" sc.Text), labels, sc)
        | (true, sc) =>
          match nextReadToken T sc "," with
          | (false, sc) => (.error (.MismatchError "','" sc.Text), labels, sc)
          | (true, sc) =>
            match nextReadRegister T sc with
            | (.error err, sc) => (.error err, labels, sc)
            | (.ok ra, sc) => (.ok { op with Var := v, Rb := rb, Ra := ra }, labels, sc)

def opl : instFunc := fun T addr labels scanner =>
  let op := opcode.new addr 0 2 .Register
  let code :=
    match ToLower T scanner.Text with
    | "addl" => 0x60
    | "subl" => 0x61
    | "andl" => 0x62
    | "xorl" => 0x63
    | _ => op.Code
  match nextReadRegister T scanner with
  | (.error err, sc) => (.error err, labels, sc)
  | (.ok ra, sc) =>
    match nextReadToken T sc "," with
    | (false, sc) => (.error (.MismatchError "','" sc.Text), labels, sc)
    | (true, sc) =>
      match nextReadRegister T sc with
      | (.error err, sc) => (.error err, labels, sc)
      | (.ok rb, sc) => (.ok { op with Code := code, Ra := ra, Rb := rb }, labels, sc)

def branch : instFunc := fun T addr labels scanner =>
  let op := opcode.new addr 0 5 .Branching
  let code :=
    match ToLower T scanner.Text with
    | "jmp" => 0x70
    | "jle" => 0x71
    | "jl" => 0x72
    | "je" => 0x73
    | "jne" => 0x74
    | "jge" => 0x75
    | "jg" => 0x76
    | "call" => 0x80
    | _ => op.Code
  match nextReadRegExp T scanner regLabel with
  | (false, sc) => (.error (.MismatchError "label" sc.Text), labels, sc)
  | (true, sc) =>
    let op := { op with Code := code, Label := sc.Text }
    let labels := if (labels.lookup op.Label).isSome then labels else (op.Label, none) :: labels
    (.ok op, labels, sc)

def ret : instFunc := fun _ addr labels scanner =>
  (.ok (opcode.new addr 0x90 1 .Simple), labels, scanner)

def stack : instFunc := fun T addr labels scanner =>
  let op := { opcode.new addr 0 2 .Register with Rb := registerCode "no_reg" }
  let code :=
    match ToLower T scanner.Text with
    | "pushl" => 0xa0
    | "popl" => 0xb0
    | _ => op.Code
  match nextReadRegister T scanner with
  | (.error err, sc) => (.error err, labels, sc)
  | (.ok ra, sc) => (.ok { op with Code := code, Ra := ra }, labels, sc)

def instructionsMap (name : String) : Option instFunc :=
  match name with
  | "nop" => some nop
  | "halt" => some halt
  | "rrmovl" => some rrmovl
  | "irmovl" => some irmovl
  | "rmmvol" => some rmmvol
  | "mrmovl" => some mrmovl
  | "addl" => some opl
  | "subl" => some opl
  | "andl" => some opl
  | "xorl" => some opl
  | "jmp" => some branch
  | "jle" => some branch
  | "jl" => some branch
  | "je" => some branch
  | "jne" => some branch
  | "jge" => some branch
  | "jg" => some branch
  | "call" => some branch
  | "ret" => some ret
  | "pushl" => some stack
  | "popl" => some stack
  | _ => none

/-! ## The driver (`Parse`) -/

/-- The first loop of `Parse` (`for scanner.Scan()`), on fuel: `none` when the fuel runs
out, otherwise the error returned from inside the loop or the values of `opCodes`,
`labelTable` and `address` when the loop ends. -/
def Parse.phase1 (T : RuneTables) :
    Nat → List opcode → labelTable → Nat → Scanner →
      Option (Except Error (List opcode × labelTable × Nat))
  | 0, _, _, _, _ => none
  | fuel + 1, opCodes, labels, address, scanner =>
    match scanner.Scan T with
    | (false, _) => some (.ok (opCodes, labels, address))
    | (true, sc) =>
      match instructionsMap (ToLower T sc.Text) with
      | some handleFunc =>
        match handleFunc T address labels sc with
        | (.error err, _, _) => some (.error err)
        | (.ok op, labels, sc) =>
          Parse.phase1 T fuel (opCodes ++ [op]) labels (address + op.Size) sc
      | none =>
        if regLabel sc.Text then
          let label := sc.Text
          match nextReadToken T sc ":" with
          | (false, sc) => some (.error (.MismatchError "label define" sc.Text))
          | (true, sc) =>
            let addr := address
            Parse.phase1 T fuel opCodes ((label, some addr) :: labels) address sc
        else some (.error (.Errorf ("unexpect token '" ++ sc.Text ++ "'")))

/-- The second loop of `Parse` (`for _, op := range opCodes`): the pair returned. -/
def Parse.phase2 (labels : labelTable) : List opcode → List Nat → List Nat × Option Error
  | [], result => (result, none)
  | op :: opCodes, result =>
    match op.EncodeFunc.call op labels with
    | .error err => ([], some err)
    | .ok code => Parse.phase2 labels opCodes (result ++ code)

/-- `Parse(src)`: the pair `(bytes, err)` that the function returns, `err = none` being
`nil`; `none` when the fuel of the first loop runs out (see `Parse_total`). -/
def Parse (T : RuneTables) (src : List Char) : Option (List Nat × Option Error) :=
  match Parse.phase1 T (src.length + 1) [] [] 0 (NewScanner src) with
  | none => none
  | some (.error err) => some ([], some err)
  | some (.ok (opCodes, labels, _)) => some (Parse.phase2 labels opCodes [])

/-! ## What the first loop read: instructions and label definitions, in source order -/

/-- One iteration of the first loop of `Parse` that did not fail: an instruction (its
mnemonic token and the opcode that its parser returned) or a label definition `name:`. -/
inductive Item where
  | inst (mnemonic : String) (op : opcode)
  | label (name : String)
deriving DecidableEq, Repr

/-- The items that the first loop of `Parse` reads before it stops, in the order of the
source. Same recursion as `Parse.phase1`. -/
def Parse.items (T : RuneTables) : Nat → labelTable → Nat → Scanner → List Item
  | 0, _, _, _ => []
  | fuel + 1, labels, address, scanner =>
    match scanner.Scan T with
    | (false, _) => []
    | (true, sc) =>
      match instructionsMap (ToLower T sc.Text) with
      | some handleFunc =>
        match handleFunc T address labels sc with
        | (.error _, _, _) => []
        | (.ok op, labels, sc1) =>
          .inst sc.Text op :: Parse.items T fuel labels (address + op.Size) sc1
      | none =>
        if regLabel sc.Text then
          match nextReadToken T sc ":" with
          | (false, _) => []
          | (true, sc1) =>
            .label sc.Text :: Parse.items T fuel ((sc.Text, some address) :: labels) address sc1
        else []

/-- The instructions and label definitions of a source text. -/
def sourceItems (T : RuneTables) (src : List Char) : List Item :=
  Parse.items T (src.length + 1) [] 0 (NewScanner src)

/-- The size of an item in the output: the `Size` of an instruction, nothing for a label
definition. -/
def Item.size : Item → Nat
  | .inst _ op => op.Size
  | .label _ => 0

/-- The sum of the sizes of the instructions among the items. -/
def itemsSize (items : List Item) : Nat := (items.map Item.size).sum

/-- The opcodes of the instructions among the items. -/
def itemsOps : List Item → List opcode
  | [] => []
  | .inst _ op :: items => op :: itemsOps items
  | .label _ :: items => itemsOps items

/-- The opcode byte of each branch-shaped mnemonic (table of the instruction set). -/
def branchOpcode : List (String × Nat) :=
  [("jmp", 0x70), ("jle", 0x71), ("jl", 0x72), ("je", 0x73), ("jne", 0x74), ("jge", 0x75),
   ("jg", 0x76), ("call", 0x80)]

/-- The number of bytes that each encoder emits. -/
def encodeFunc.size : encodeFunc → Nat
  | .Simple => 1
  | .Register => 2
  | .RegisterImmediate => 6
  | .Branching => 5

/-- The mnemonic token is one of `jmp`, `jle`, `jl`, `je`, `jne`, `jge`, `jg`, `call`, in any
case of letters. -/
def isBranch (T : RuneTables) (mnemonic : String) : Bool :=
  (branchOpcode.lookup (ToLower T mnemonic)).isSome

/-! ## Source texts written token by token -/

/-- An ASCII white-space character. -/
def isAsciiSpace (c : Char) : Bool := (9 ≤ c.toNat && c.toNat ≤ 13) || c.toNat == 32

/-- An ASCII letter, digit or underscore. -/
def isAsciiWord (c : Char) : Bool :=
  (65 ≤ c.toNat && c.toNat ≤ 90) || (97 ≤ c.toNat && c.toNat ≤ 122) ||
  (48 ≤ c.toNat && c.toNat ≤ 57) || c == '_'

/-- The text `rest` does not go on with a letter, digit or underscore: it is empty or
starts with an ASCII character that is none of these. -/
def wordEnds (rest : List Char) : Bool :=
  match rest with
  | [] => true
  | c :: _ => decide (c.toNat < 128) && !isAsciiWord c

/-- The text `w` followed by `rest` is one token: a punctuation character, or a run of
ASCII letters, digits and underscores that ends where `rest` starts. -/
def isToken (w rest : List Char) : Prop :=
  (∃ c, w = [c] ∧ isPunct c = true) ∨
  (w ≠ [] ∧ (∀ c ∈ w, isAsciiWord c = true) ∧ wordEnds rest = true)

/-! ## Number literals as the specification reads them -/

/-- The value of a digit character, for the digits of bases up to sixteen. -/
def digitOf (c : Char) : Option Nat :=
  match c with
  | '0' => some 0
  | '1' => some 1
  | '2' => some 2
  | '3' => some 3
  | '4' => some 4
  | '5' => some 5
  | '6' => some 6
  | '7' => some 7
  | '8' => some 8
  | '9' => some 9
  | 'a' => some 10
  | 'b' => some 11
  | 'c' => some 12
  | 'd' => some 13
  | 'e' => some 14
  | 'f' => some 15
  | 'A' => some 10
  | 'B' => some 11
  | 'C' => some 12
  | 'D' => some 13
  | 'E' => some 14
  | 'F' => some 15
  | _ => none

/-- The number that the digits `ds` write in `base` after the number `n` already read;
`none` when some character is not a digit of the base. -/
def digitsWrite (base : Nat) : List Char → Nat → Option Nat
  | [], n => some n
  | c :: ds, n =>
    match digitOf c with
    | some d => if d < base then digitsWrite base ds (n * base + d) else none
    | none => none

/-- The literal `lit` writes the number `v`: as a decimal number (without leading zeros), or
as `0x`, `0b` or `0o` followed by at least one digit of base 16, 2 or 8 (leading zeros
allowed). -/
def isLiteral (lit : List Char) (v : Nat) : Prop :=
  (lit ≠ [] ∧ (lit = ['0'] ∨ lit.head? ≠ some '0') ∧ digitsWrite 10 lit 0 = some v) ∨
  (∃ ds, lit = '0' :: 'x' :: ds ∧ ds ≠ [] ∧ digitsWrite 16 ds 0 = some v) ∨
  (∃ ds, lit = '0' :: 'b' :: ds ∧ ds ≠ [] ∧ digitsWrite 2 ds 0 = some v) ∨
  (∃ ds, lit = '0' :: 'o' :: ds ∧ ds ≠ [] ∧ digitsWrite 8 ds 0 = some v)

/-- The text `txt` is a number operand that denotes `d` in the signed 32-bit range: a
literal of at most `2^31 - 1`, or a minus sign followed by a literal of at most `2^31`. -/
def isNumber (txt : List Char) (d : Int) : Prop :=
  (∃ v, isLiteral txt v ∧ v < 2 ^ 31 ∧ d = (v : Int)) ∨
  (∃ lit v, txt = '-' :: lit ∧ isLiteral lit v ∧ v ≤ 2 ^ 31 ∧ d = -(v : Int))

/-- The register names of the instruction set. -/
def registerNames : List String :=
  ["eax", "ecx", "edx", "ebx", "esp", "ebp", "esi", "edi"]

/-- The opcode byte of each mnemonic that takes two registers (table of the instruction
set). -/
def pairOpcode : List (String × Nat) :=
  [("rrmovl", 0x20), ("addl", 0x60), ("subl", 0x61), ("andl", 0x62), ("xorl", 0x63)]

/-- The opcode byte of each mnemonic that takes one register (table of the instruction
set). -/
def stackOpcode : List (String × Nat) := [("pushl", 0xa0), ("popl", 0xb0)]

/-- The size in bytes of the instruction of each mnemonic (table of the instruction set). -/
def mnemonicSize : List (String × Nat) :=
  [("nop", 1), ("halt", 1), ("rrmovl", 2), ("irmovl", 6), ("rmmvol", 6), ("mrmovl", 6),
   ("addl", 2), ("subl", 2), ("andl", 2), ("xorl", 2), ("jmp", 5), ("jle", 5), ("jl", 5),
   ("je", 5), ("jne", 5), ("jge", 5), ("jg", 5), ("call", 5), ("ret", 1), ("pushl", 2),
   ("popl", 2)]

/-- The rule of the specification for one token: skip the leading white space; if no
character remains, the stream ends (`none`); if the next character is one of the punctuation
characters, it is the token, alone; otherwise the token is the maximal run of letters, digits
and underscores that starts there. The result is the token and the text after it. -/
def nextToken (T : RuneTables) (data : List Char) : Option (List Char × List Char) :=
  match data.drop (skipSpaces T data) with
  | [] => none
  | r :: tail =>
    if isPunct r then some ([r], tail)
    else some ((r :: tail).take (scanWord T (r :: tail)),
      (r :: tail).drop (scanWord T (r :: tail)))

/-- The buffer of the scanner holds, wherever a call of `Scan` starts in `data`, the white
space, the word after it and one character more: the white space and the word take fewer
than `MaxScanTokenSize` bytes, and at most that many with the next character. -/
def Fits (T : RuneTables) (data : List Char) : Prop :=
  ∀ n, byteLen ((data.drop n).take (skipSpaces T (data.drop n) +
      scanWord T ((data.drop n).drop (skipSpaces T (data.drop n))))) < MaxScanTokenSize ∧
    byteLen ((data.drop n).take (skipSpaces T (data.drop n) +
      scanWord T ((data.drop n).drop (skipSpaces T (data.drop n))) + 1)) ≤ MaxScanTokenSize

/-- The runes `c` and `d` take the same number of bytes and are in the same classes of the
lexer. -/
def sameClass (T : RuneTables) (c d : Char) : Prop :=
  RuneLen c = RuneLen d ∧ IsSpace T c = IsSpace T d ∧ isPunct c = isPunct d ∧
    isWordRune T c = isWordRune T d

/-- The cursors `s` and `s1` read two texts that differ in one word only, `v1` in the one and
`v2` in the other, before the text `post`: they are equal (the word is behind them and its
token is replaced), or they hold the same token and stand before the word in the same text,
or they stand right after the word and hold it as their token. -/
def Scanner.Variant (T : RuneTables) (v1 v2 post : List Char) (s s1 : Scanner) : Prop :=
  s = s1 ∨
  (s.Text = s1.Text ∧ ∃ a, s.rest = a ++ (v1 ++ post) ∧ s1.rest = a ++ (v2 ++ post) ∧
    ∀ c ∈ a.getLast?, isWordRune T c = false) ∨
  (s.rest = post ∧ s1.rest = post ∧ s.Text = String.mk v1 ∧ s1.Text = String.mk v2)

/-- The words `v1` and `v2` are two spellings of one mnemonic that differ in the case of
their letters only, and the text `post` after them starts with no letter, digit or
underscore: what the lexer and the token readers see of them. -/
structure CaseVariants (T : RuneTables) (v1 v2 post : List Char) : Prop where
  same : List.Forall₂ (sameClass T) v1 v2
  word1 : ∀ c ∈ v1, isWordRune T c = true ∧ IsSpace T c = false ∧ isPunct c = false
  word2 : ∀ c ∈ v2, isWordRune T c = true ∧ IsSpace T c = false ∧ isPunct c = false
  post : ∀ c ∈ post.head?, isWordRune T c = false
  lower : ToLower T (String.mk v1) = ToLower T (String.mk v2)
  inst : (instructionsMap (ToLower T (String.mk v1))).isSome = true
  len : 2 ≤ v1.length ∧ 2 ≤ v2.length
  register : regRegister (String.mk v1) = false ∧ regRegister (String.mk v2) = false
  number : regNumber (String.mk v1) = false ∧ regNumber (String.mk v2) = false
  label : regLabel (String.mk v1) = true ∧ regLabel (String.mk v2) = true

/-- The cursor `s1` is the cursor `s` after some calls of `Scan` (or `s` itself): the
unread input has not grown, it holds only runes of the unread input of `s`, and the runes
of the token are runes of the unread input of `s` or of its token. -/
def Scanner.Later (s s1 : Scanner) : Prop :=
  s1.rest.length ≤ s.rest.length ∧ (∀ c ∈ s1.rest, c ∈ s.rest) ∧
  (∀ c ∈ s1.Text.data, c ∈ s.rest ∨ c ∈ s.Text.data)

end Asm

/-! ## The scanner moves forward -/

namespace Asm

theorem skipSpaces_le (T : RuneTables) (data : List Char) : skipSpaces T data ≤ data.length := by
  induction data with
  | nil => simp [skipSpaces]
  | cons r data ih => simp only [skipSpaces]; split <;> simp; omega

theorem scanWord_le (T : RuneTables) (data : List Char) : scanWord T data ≤ data.length := by
  induction data with
  | nil => simp [scanWord]
  | cons r data ih => simp only [scanWord]; split <;> simp; omega

/-- A token returned by `splitFunc`: the advance stays inside the data, a token that is not
empty makes progress, and the runes of the token are runes of the data. -/
theorem splitFunc_some (T : RuneTables) (data : List Char) (atEOF : Bool) (advance : Nat)
    (token : List Char) (h : splitFunc T data atEOF = (advance, some token)) :
    advance ≤ data.length ∧ (token ≠ [] → 0 < advance) ∧ ∀ c ∈ token, c ∈ data := by
  unfold splitFunc at h
  have hs := skipSpaces_le T data
  simp only at h
  split at h
  · simp at h
  · rename_i hlt
    split at h
    · simp at h
    · rename_i r tail hd
      have hw := scanWord_le T (r :: tail)
      have hlen : (r :: tail).length = data.length - skipSpaces T data := by
        rw [← hd]; simp
      have hsub : ∀ c ∈ List.drop (skipSpaces T data) data, c ∈ data :=
        fun c hc => List.mem_of_mem_drop hc
      split at h
      · simp only [Prod.mk.injEq, Option.some.injEq] at h
        obtain ⟨h1, h2⟩ := h
        subst h1 h2
        refine ⟨by omega, fun _ => by omega, ?_⟩
        intro c hc
        simp only [List.mem_singleton] at hc
        subst hc
        apply hsub; rw [hd]; simp
      · split at h
        · simp only [Prod.mk.injEq, Option.some.injEq] at h
          obtain ⟨h1, h2⟩ := h
          subst h1 h2
          refine ⟨by omega, ?_, ?_⟩
          · intro hne
            by_contra h0
            apply hne
            have : skipSpaces T data + scanWord T (r :: tail) - skipSpaces T data = 0 := by omega
            rw [this]; simp
          · intro c hc
            rw [← hd] at hc
            exact hsub c (List.mem_of_mem_take hc)
        · split at h
          · simp only [Prod.mk.injEq, Option.some.injEq] at h
            obtain ⟨h1, h2⟩ := h
            subst h1 h2
            refine ⟨by omega, fun _ => by omega, ?_⟩
            intro c hc
            exact hsub c hc
          · simp at h

theorem byteLen_append (a b : List Char) : byteLen (a ++ b) = byteLen a + byteLen b := by
  induction a with
  | nil => simp [byteLen]
  | cons r a ih =>
    rw [List.cons_append]
    simp only [byteLen, ih]
    omega

/-- A text of ASCII runes has one byte for each rune. -/
theorem byteLen_ascii (data : List Char) (h : ∀ c ∈ data, c.toNat < 128) :
    byteLen data = data.length := by
  induction data with
  | nil => rfl
  | cons r data ih =>
    have h1 : RuneLen r = 1 := by
      unfold RuneLen
      rw [if_pos (h r (List.mem_cons_self _ _))]
    simp only [byteLen, h1, ih (fun c hc => h c (List.mem_cons_of_mem _ hc)), List.length_cons]
    omega

theorem byteLen_length (data : List Char) : data.length ≤ byteLen data := by
  induction data with
  | nil => simp [byteLen]
  | cons r data ih =>
    have h1 : 1 ≤ RuneLen r := by
      unfold RuneLen
      split
      · omega
      · split
        · omega
        · split <;> omega
    simp only [byteLen, List.length_cons]
    omega

theorem RuneLen_pos (r : Char) : 1 ≤ RuneLen r := by
  unfold RuneLen
  split
  · omega
  · split
    · omega
    · split <;> omega

/-- A buffer without room holds nothing. -/
theorem buffered_zero (data : List Char) : buffered 0 data = [] := by
  cases data with
  | nil => rfl
  | cons r data =>
    have := RuneLen_pos r
    simp only [buffered]
    rw [if_neg (by omega)]

/-- The buffer holds a part of the unread input that starts where the unread input does. -/
theorem buffered_append_drop (room : Nat) (data : List Char) :
    buffered room data ++ data.drop (buffered room data).length = data := by
  induction data generalizing room with
  | nil => simp [buffered]
  | cons r data ih =>
    simp only [buffered]
    split
    · simp only [List.cons_append, List.length_cons, List.drop_succ_cons, ih]
    · simp

theorem buffered_length_le (room : Nat) (data : List Char) :
    (buffered room data).length ≤ data.length := by
  have h := congrArg List.length (buffered_append_drop room data)
  simp only [List.length_append] at h
  omega

theorem mem_of_mem_buffered (room : Nat) (data : List Char) (c : Char)
    (h : c ∈ buffered room data) : c ∈ data := by
  rw [← buffered_append_drop room data]
  exact List.mem_append_left _ h

/-- A buffer with room for the text `a` holds `a` and what fits of the text after it. -/
theorem buffered_append (room : Nat) (a b : List Char) (h : byteLen a ≤ room) :
    buffered room (a ++ b) = a ++ buffered (room - byteLen a) b := by
  induction a generalizing room with
  | nil => simp [byteLen]
  | cons r a ih =>
    simp only [byteLen] at h
    have h1 : RuneLen r ≤ room := by omega
    rw [List.cons_append]
    simp only [buffered, if_pos h1, byteLen]
    rw [ih (room - RuneLen r) (by omega), Nat.sub_sub]
    rfl

/-- A buffer with room for the whole text holds it. -/
theorem buffered_fits (room : Nat) (data : List Char) (h : byteLen data ≤ room) :
    buffered room data = data := by
  have := buffered_append room data [] h
  simpa [buffered] using this

/-- What one call of `Scan` does to the cursor. -/
theorem Scan_spec (T : RuneTables) (s : Scanner) :
    ((s.Scan T).2.rest.length ≤ s.rest.length) ∧
    ((s.Scan T).1 = true → (s.Scan T).2.Text ≠ "" →
      (s.Scan T).2.rest.length < s.rest.length) ∧
    ((s.Scan T).1 = false → (s.Scan T).2.Text = "") ∧
    (∀ c ∈ (s.Scan T).2.rest, c ∈ s.rest) ∧
    (∀ c ∈ (s.Scan T).2.Text.data, c ∈ s.rest) := by
  have key : ∀ (data : List Char) (b : Bool) (advance : Nat) (token : List Char),
      data.length ≤ s.rest.length → (∀ c ∈ data, c ∈ s.rest) →
      splitFunc T data b = (advance, some token) →
      ((s.rest.drop advance).length ≤ s.rest.length) ∧
      (String.mk token ≠ "" → (s.rest.drop advance).length < s.rest.length) ∧
      (∀ c ∈ s.rest.drop advance, c ∈ s.rest) ∧ (∀ c ∈ token, c ∈ s.rest) := by
    intro data b advance token hlen hmem h
    obtain ⟨h1, h2, h3⟩ := splitFunc_some T data b advance token h
    refine ⟨by simp, ?_, fun c hc => List.mem_of_mem_drop hc, fun c hc => hmem c (h3 c hc)⟩
    intro hne
    have : token ≠ [] := by
      intro h0; apply hne; rw [h0]
    have := h2 this
    simp only [List.length_drop]
    omega
  unfold Scanner.Scan
  split
  · rename_i advance token h
    obtain ⟨k1, k2, k3, k4⟩ := key _ _ _ _ (buffered_length_le _ _)
      (mem_of_mem_buffered _ _) h
    exact ⟨k1, fun _ => k2, by simp, k3, k4⟩
  · split
    · simp
    · split
      · rename_i advance token h
        obtain ⟨k1, k2, k3, k4⟩ := key _ _ _ _ (Nat.le_refl _) (fun _ hc => hc) h
        exact ⟨k1, fun _ => k2, by simp, k3, k4⟩
      · simp

end Asm

/-! ## The buffer of the scanner grows: a token found early is the token found later -/

namespace Asm

theorem skipSpaces_more (T : RuneTables) (data more : List Char)
    (h : skipSpaces T data < data.length) :
    skipSpaces T (data ++ more) = skipSpaces T data := by
  induction data with
  | nil => simp [skipSpaces] at h
  | cons r data ih =>
    rw [List.cons_append]
    simp only [skipSpaces] at h ⊢
    split
    · rename_i hr
      rw [if_pos hr] at h
      simp only [List.length_cons] at h
      rw [ih (by omega)]
    · rfl

theorem scanWord_more (T : RuneTables) (data more : List Char)
    (h : scanWord T data < data.length) :
    scanWord T (data ++ more) = scanWord T data := by
  induction data with
  | nil => simp [scanWord] at h
  | cons r data ih =>
    rw [List.cons_append]
    simp only [scanWord] at h ⊢
    split
    · rename_i hr
      rw [if_pos hr] at h
      simp only [List.length_cons] at h
      rw [ih (by omega)]
    · rfl

/-- A token that the split function finds in the data buffered so far is the token that it
finds, with the same advance, when more data has been read. -/
theorem splitFunc_more (T : RuneTables) (data more : List Char) (advance : Nat)
    (token : List Char) (h : splitFunc T data false = (advance, some token)) :
    splitFunc T (data ++ more) false = (advance, some token) := by
  unfold splitFunc at h ⊢
  simp only at h ⊢
  split at h
  · simp at h
  · rename_i hlt
    have hlt1 : skipSpaces T data < data.length := by omega
    have hs := skipSpaces_more T data more hlt1
    have hd : (data ++ more).drop (skipSpaces T data) =
        data.drop (skipSpaces T data) ++ more := by
      rw [List.drop_append_of_le_length (by omega)]
    rw [hs, hd]
    have hlt2 : ¬ skipSpaces T data ≥ (data ++ more).length := by
      simp only [List.length_append]; omega
    rw [if_neg hlt2]
    split at h
    · simp at h
    · rename_i r tail hdr
      rw [hdr, List.cons_append]
      simp only
      have hlen : (r :: tail).length = data.length - skipSpaces T data := by
        rw [← hdr]; simp
      split at h
      · rename_i hp
        rw [if_pos hp]
        exact h
      · rename_i hp
        rw [if_neg hp]
        split at h
        · rename_i hend
          have hw : scanWord T (r :: tail) < (r :: tail).length := by omega
          have hw2 := scanWord_more T (r :: tail) more hw
          rw [List.cons_append] at hw2
          rw [hw2]
          have hend2 : skipSpaces T data + scanWord T (r :: tail) < (data ++ more).length := by
            simp only [List.length_append]; omega
          rw [if_pos hend2]
          simp only [Prod.mk.injEq, Option.some.injEq] at h ⊢
          refine ⟨h.1, ?_⟩
          rw [← h.2, hdr, ← List.cons_append, List.take_append_of_le_length (by omega)]
        · simp at h

end Asm

namespace Asm

theorem Scanner.Later.refl (s : Scanner) : s.Later s :=
  ⟨Nat.le_refl _, fun _ h => h, fun _ h => Or.inr h⟩

theorem Scanner.Later.trans {s s1 s2 : Scanner} (h1 : s.Later s1) (h2 : s1.Later s2) :
    s.Later s2 := by
  obtain ⟨a1, b1, c1⟩ := h1
  obtain ⟨a2, b2, c2⟩ := h2
  refine ⟨Nat.le_trans a2 a1, fun c hc => b1 c (b2 c hc), fun c hc => ?_⟩
  rcases c2 c hc with h | h
  · exact Or.inl (b1 c h)
  · exact c1 c h

theorem Scan_later {T : RuneTables} {s s1 : Scanner} {b : Bool} (h : s.Scan T = (b, s1)) :
    s.Later s1 := by
  obtain ⟨k1, _, _, k4, k5⟩ := Scan_spec T s
  rw [h] at k1 k4 k5
  exact ⟨k1, k4, fun c hc => Or.inl (k5 c hc)⟩

theorem nextReadToken_later {T : RuneTables} {s s1 : Scanner} {token : String} {b : Bool}
    (h : nextReadToken T s token = (b, s1)) : s.Later s1 := by
  unfold nextReadToken at h
  split at h <;> rename_i heq <;> simp only [Prod.mk.injEq] at h <;>
    (obtain ⟨_, h2⟩ := h; subst h2; exact Scan_later heq)

theorem nextReadRegExp_later {T : RuneTables} {s s1 : Scanner} {reg : String → Bool}
    {b : Bool} (h : nextReadRegExp T s reg = (b, s1)) : s.Later s1 := by
  unfold nextReadRegExp at h
  split at h <;> rename_i heq <;> simp only [Prod.mk.injEq] at h <;>
    (obtain ⟨_, h2⟩ := h; subst h2; exact Scan_later heq)

theorem nextReadRegister_later {T : RuneTables} {s s1 : Scanner} {r : Except Error Nat}
    (h : nextReadRegister T s = (r, s1)) : s.Later s1 := by
  unfold nextReadRegister at h
  split at h
  · rename_i heq
    simp only [Prod.mk.injEq] at h
    obtain ⟨_, h2⟩ := h; subst h2
    exact nextReadToken_later heq
  · rename_i heq
    split at h <;> rename_i heq2 <;> simp only [Prod.mk.injEq] at h <;>
      (obtain ⟨_, h2⟩ := h; subst h2
       exact (nextReadToken_later heq).trans (nextReadRegExp_later heq2))

theorem nextReadNumber_later {T : RuneTables} {s s1 : Scanner} {r : Except Error Int}
    (h : nextReadNumber T s = (r, s1)) : s.Later s1 := by
  unfold nextReadNumber at h
  split at h
  · rename_i heq
    simp only [Prod.mk.injEq] at h
    obtain ⟨_, h2⟩ := h; subst h2
    exact Scan_later heq
  · rename_i sc heq
    simp only at h
    have h2 : ∀ b sc2, (if (sc.Text == "-") = true then sc.Scan T else (true, sc)) = (b, sc2) →
        sc.Later sc2 := by
      intro b sc2 hh
      split at hh
      · exact Scan_later hh
      · simp only [Prod.mk.injEq] at hh
        rw [← hh.2]; exact Scanner.Later.refl _
    split at h
    · rename_i heq2
      simp only [Prod.mk.injEq] at h
      obtain ⟨_, h3⟩ := h; subst h3
      exact (Scan_later heq).trans (h2 _ _ heq2)
    · rename_i heq2
      have hl := (Scan_later heq).trans (h2 _ _ heq2)
      split at h
      · simp only [Prod.mk.injEq] at h
        obtain ⟨_, h3⟩ := h; subst h3; exact hl
      · split at h <;> simp only [Prod.mk.injEq] at h <;>
          (obtain ⟨_, h3⟩ := h; subst h3; exact hl)

theorem nextReadImmediateNumber_later {T : RuneTables} {s s1 : Scanner}
    {r : Except Error Int} (h : nextReadImmediateNumber T s = (r, s1)) : s.Later s1 := by
  unfold nextReadImmediateNumber at h
  split at h
  · rename_i heq
    simp only [Prod.mk.injEq] at h
    obtain ⟨_, h2⟩ := h; subst h2
    exact nextReadToken_later heq
  · rename_i heq
    exact (nextReadToken_later heq).trans (nextReadNumber_later h)

end Asm

/-! ## What every instruction parser guarantees -/

namespace Asm

theorem labelTable.addr_cons (labels : labelTable) (k : String) (v : Option Nat)
    (name : String) :
    labelTable.addr ((k, v) :: labels) name = if name = k then v else labelTable.addr labels name := by
  unfold labelTable.addr
  by_cases h : name = k
  · subst h; simp [List.lookup]
  · have : (name == k) = false := by simpa using h
    simp [List.lookup, this, h]

theorem labelTable.addr_declare (labels : labelTable) (k name : String) :
    labelTable.addr (if (labels.lookup k).isSome then labels else (k, none) :: labels) name =
      labelTable.addr labels name := by
  split
  · rfl
  · rename_i h
    rw [labelTable.addr_cons]
    split
    · rename_i hk
      subst hk
      unfold labelTable.addr
      cases hl : List.lookup name labels with
      | none => rfl
      | some v => simp [hl] at h
    · rfl

theorem labelTable.addr_cons_none (labels : labelTable) (k : String)
    (h : ¬(List.lookup k labels).isSome = true) (name : String) :
    labelTable.addr ((k, none) :: labels) name = labelTable.addr labels name := by
  have h2 := labelTable.addr_declare labels k name
  rw [if_neg h] at h2
  exact h2

/-- Every parser of `instructionsMap` leaves the cursor further on, keeps the address of
every label, and returns an opcode whose `Size` is the number of bytes of its encoder; the
encoder is the branching one exactly for the branch-shaped mnemonics, with the opcode byte
of the mnemonic. -/
theorem instFunc_spec (T : RuneTables) (name : String) (handleFunc : instFunc)
    (hmap : instructionsMap name = some handleFunc) (address : Nat) (labels : labelTable)
    (sc : Scanner) (hname : ToLower T sc.Text = name)
    (r : Except Error opcode) (labels1 : labelTable) (sc1 : Scanner)
    (h : handleFunc T address labels sc = (r, labels1, sc1)) :
    sc.Later sc1 ∧ (∀ L, labelTable.addr labels1 L = labelTable.addr labels L) ∧
    ∀ op, r = .ok op →
      op.Size = op.EncodeFunc.size ∧
      (op.EncodeFunc = .Branching ↔ (branchOpcode.lookup name).isSome) ∧
      (op.EncodeFunc = .Branching → branchOpcode.lookup name = some op.Code) := by
  unfold instructionsMap at hmap
  split at hmap <;> cases hmap
  all_goals
    simp only [nop, halt, rrmovl, irmovl, rmmvol, mrmovl, opl, branch, ret, stack, hname] at h
  all_goals repeat' split at h
  all_goals
    simp only [Prod.mk.injEq] at h
    obtain ⟨rfl, rfl, rfl⟩ := h
  all_goals
    refine ⟨?_, ?_, ?_⟩
  all_goals
    first
    | (repeat (first
        | exact Scanner.Later.refl _
        | refine Scanner.Later.trans ?_ (nextReadRegister_later (by assumption))
        | refine Scanner.Later.trans ?_ (nextReadToken_later (by assumption))
        | refine Scanner.Later.trans ?_ (nextReadRegExp_later (by assumption))
        | refine Scanner.Later.trans ?_ (nextReadNumber_later (by assumption))
        | refine Scanner.Later.trans ?_ (nextReadImmediateNumber_later (by assumption)))
       done)
    | (intro L; rfl)
    | (intro L; exact labelTable.addr_cons_none _ _ (by assumption) L)
    | (intro op hop
       simp only [Except.ok.injEq, reduceCtorEq] at hop
       done)
    | (intro op hop
       simp only [Except.ok.injEq] at hop
       subst hop
       simp [opcode.new, encodeFunc.size, branchOpcode, List.lookup])

end Asm

namespace Asm

theorem Scan_progress {T : RuneTables} {s sc : Scanner} (h : s.Scan T = (true, sc))
    (hne : sc.Text ≠ "") : sc.rest.length < s.rest.length := by
  obtain ⟨_, k2, _⟩ := Scan_spec T s
  rw [h] at k2
  exact k2 rfl hne

theorem instructionsMap_ne_empty {T : RuneTables} {text : String} {handleFunc : instFunc}
    (h : instructionsMap (ToLower T text) = some handleFunc) : text ≠ "" := by
  intro h0
  subst h0
  have : ToLower T "" = "" := rfl
  rw [this] at h
  simp [instructionsMap] at h

theorem regLabel_ne_empty {text : String} (h : regLabel text = true) : text ≠ "" := by
  intro h0
  subst h0
  simp [regLabel] at h

/-- With more fuel than unread runes the first loop of `Parse` comes to an end. -/
theorem Parse.phase1_total (T : RuneTables) (fuel : Nat) (opCodes : List opcode)
    (labels : labelTable) (address : Nat) (scanner : Scanner)
    (hfuel : scanner.rest.length < fuel) :
    ∃ r, Parse.phase1 T fuel opCodes labels address scanner = some r := by
  induction fuel generalizing opCodes labels address scanner with
  | zero => omega
  | succ fuel ih =>
    unfold Parse.phase1
    split
    · exact ⟨_, rfl⟩
    · rename_i sc hscan
      split
      · rename_i handleFunc hmap
        have hp := Scan_progress hscan (instructionsMap_ne_empty hmap)
        split
        · exact ⟨_, rfl⟩
        · rename_i op labels1 sc1 hh
          have hl := (instFunc_spec T _ handleFunc hmap address labels sc rfl _ _ _ hh).1
          apply ih
          have := hl.1
          omega
      · split
        · rename_i hreg
          have hp := Scan_progress hscan (regLabel_ne_empty hreg)
          simp only
          split
          · exact ⟨_, rfl⟩
          · rename_i sc1 hh
            apply ih
            have := (nextReadToken_later hh).1
            omega
        · exact ⟨_, rfl⟩

/-- `Parse` returns on every source: the fuel of its first loop never runs out. -/
theorem Parse_total (T : RuneTables) (src : List Char) : ∃ r, Parse T src = some r := by
  unfold Parse
  obtain ⟨r, hr⟩ := Parse.phase1_total T (src.length + 1) [] [] 0 (NewScanner src)
    (by simp [NewScanner])
  rw [hr]
  rcases r with err | ⟨opCodes, labels, address⟩
  · exact ⟨_, rfl⟩
  · exact ⟨_, rfl⟩

end Asm

/-! ## The first loop and the items it read -/

namespace Asm

theorem itemsSize_cons (i : Item) (items : List Item) :
    itemsSize (i :: items) = i.size + itemsSize items := by
  simp [itemsSize]

/-- The result of the first loop of `Parse` in terms of the items read: the opcodes are the
instructions in order, the address counter is the sum of their sizes, and the label table
holds for every name the address of its last definition (the sum of the sizes of the
instructions read before it), or what it held before when the name is not defined. -/
theorem Parse.phase1_items (T : RuneTables) (fuel : Nat) (opCodes : List opcode)
    (labels : labelTable) (address : Nat) (scanner : Scanner)
    (opCodes1 : List opcode) (labels1 : labelTable) (address1 : Nat)
    (h : Parse.phase1 T fuel opCodes labels address scanner =
      some (.ok (opCodes1, labels1, address1))) :
    opCodes1 = opCodes ++ itemsOps (Parse.items T fuel labels address scanner) ∧
    address1 = address + itemsSize (Parse.items T fuel labels address scanner) ∧
    (∀ L, (∃ pre post, Parse.items T fuel labels address scanner = pre ++ .label L :: post ∧
              Item.label L ∉ post ∧ labelTable.addr labels1 L = some (address + itemsSize pre)) ∨
          (Item.label L ∉ Parse.items T fuel labels address scanner ∧
              labelTable.addr labels1 L = labelTable.addr labels L)) ∧
    (∀ m op, Item.inst m op ∈ Parse.items T fuel labels address scanner →
      op.Size = op.EncodeFunc.size ∧
      (op.EncodeFunc = .Branching ↔ (branchOpcode.lookup (ToLower T m)).isSome) ∧
      (op.EncodeFunc = .Branching → branchOpcode.lookup (ToLower T m) = some op.Code)) := by
  induction fuel generalizing opCodes labels address scanner with
  | zero => simp [Parse.phase1] at h
  | succ fuel ih =>
    unfold Parse.phase1 at h
    unfold Parse.items
    split at h
    · rename_i hscan
      simp only [Option.some.injEq, Except.ok.injEq, Prod.mk.injEq] at h
      obtain ⟨rfl, rfl, rfl⟩ := h
      simp [hscan, itemsOps, itemsSize]
    · rename_i sc hscan
      split at h
      · rename_i handleFunc hmap
        split at h
        · simp at h
        · rename_i op labels2 sc1 hh
          obtain ⟨s1, s2, s3⟩ := instFunc_spec T _ handleFunc hmap address labels sc rfl _ _ _ hh
          obtain ⟨i1, i2, i3, i4⟩ := ih _ _ _ _ h
          refine ⟨?_, ?_, ?_, ?_⟩
          · rw [i1]; simp [itemsOps]
          · rw [i2, itemsSize_cons]; simp [Item.size]; omega
          · intro L
            rcases i3 L with ⟨pre, post, e1, e2, e3⟩ | ⟨e1, e2⟩
            · left
              refine ⟨.inst sc.Text op :: pre, post, by rw [e1]; rfl, e2, ?_⟩
              rw [e3, itemsSize_cons]; simp [Item.size]; omega
            · right
              refine ⟨?_, by rw [e2, s2]⟩
              simp only [List.mem_cons, reduceCtorEq, false_or]
              exact e1
          · intro m op1 hmem
            simp only [List.mem_cons, Item.inst.injEq] at hmem
            rcases hmem with ⟨rfl, rfl⟩ | hmem
            · exact s3 _ rfl
            · exact i4 _ _ hmem
      · rename_i hmap
        split at h
        · rename_i hreg
          simp only at h
          split at h
          · simp at h
          · rename_i sc1 hh
            simp only [hreg, if_true]
            obtain ⟨i1, i2, i3, i4⟩ := ih _ _ _ _ h
            refine ⟨by rw [i1]; simp [itemsOps], ?_, ?_, ?_⟩
            · rw [i2, itemsSize_cons]; simp [Item.size]
            · intro L
              rcases i3 L with ⟨pre, post, e1, e2, e3⟩ | ⟨e1, e2⟩
              · left
                refine ⟨.label sc.Text :: pre, post, by rw [e1]; rfl, e2, ?_⟩
                rw [e3, itemsSize_cons]; simp [Item.size]
              · rw [labelTable.addr_cons] at e2
                by_cases hL : L = sc.Text
                · left
                  subst hL
                  refine ⟨[], _, rfl, e1, ?_⟩
                  simpa [itemsSize] using e2
                · right
                  rw [if_neg hL] at e2
                  refine ⟨?_, e2⟩
                  simp only [List.mem_cons, Item.label.injEq]
                  rintro (h1 | h1)
                  · exact hL h1
                  · exact e1 h1
            · intro m op1 hmem
              simp only [List.mem_cons, reduceCtorEq, false_or] at hmem
              exact i4 _ _ hmem
        · simp at h

end Asm

/-! ## The encoders and the second loop -/

namespace Asm

/-- Every encoder that succeeds emits the number of bytes that belongs to it. -/
theorem encodeFunc.call_length (op : opcode) (labels : labelTable) (code : List Nat)
    (h : op.EncodeFunc.call op labels = .ok code) : code.length = op.EncodeFunc.size := by
  cases hf : op.EncodeFunc <;> rw [hf] at h <;>
    simp only [encodeFunc.call, encodeSimpleOpCode, encodeRegisterOpCode,
      encodeRegisterImmediateOpCode, encodeBranchingOpCode, Except.ok.injEq] at h
  · subst h; rfl
  · subst h; rfl
  · subst h; simp [PutUint32, encodeFunc.size]
  · split at h
    · simp at h
    · simp only [Except.ok.injEq] at h
      subst h; simp [PutUint32, encodeFunc.size]

/-- An encoder fails only on a branch whose label has no address, with the error that
names the label. -/
theorem encodeFunc.call_error (op : opcode) (labels : labelTable) (err : Error)
    (h : op.EncodeFunc.call op labels = .error err) :
    op.EncodeFunc = .Branching ∧ labelTable.addr labels op.Label = none ∧
      err = .Errorf ("unsolved reference: " ++ op.Label) := by
  cases hf : op.EncodeFunc <;> rw [hf] at h <;>
    simp only [encodeFunc.call, encodeSimpleOpCode, encodeRegisterOpCode,
      encodeRegisterImmediateOpCode, encodeBranchingOpCode, reduceCtorEq] at h
  split at h
  · rename_i hnone
    simp only [Except.error.injEq] at h
    exact ⟨rfl, hnone, h.symm⟩
  · simp at h

/-- The encoding of a branch whose label has an address. -/
theorem encodeFunc.call_branching (op : opcode) (labels : labelTable) (addr : Nat)
    (hf : op.EncodeFunc = .Branching) (ha : labelTable.addr labels op.Label = some addr) :
    op.EncodeFunc.call op labels = .ok (op.Code :: PutUint32 (uint32 (addr : Int))) := by
  rw [hf]
  simp [encodeFunc.call, encodeBranchingOpCode, ha]

/-- The second loop when it ends without error: the result is extended by the encodings of
the opcodes, in order. -/
theorem Parse.phase2_ok (labels : labelTable) (opCodes : List opcode) (result bytes : List Nat)
    (h : Parse.phase2 labels opCodes result = (bytes, none)) :
    ∃ codes : List (List Nat),
      List.Forall₂ (fun op code => op.EncodeFunc.call op labels = .ok code) opCodes codes ∧
      bytes = result ++ codes.flatten := by
  induction opCodes generalizing result with
  | nil =>
    simp only [Parse.phase2, Prod.mk.injEq, and_true] at h
    exact ⟨[], List.Forall₂.nil, by simp [h]⟩
  | cons op opCodes ih =>
    unfold Parse.phase2 at h
    split at h
    · simp at h
    · rename_i code hcode
      obtain ⟨codes, h1, h2⟩ := ih _ h
      exact ⟨code :: codes, List.Forall₂.cons hcode h1, by simp [h2]⟩

/-- The second loop when some encoder fails: no bytes, and the error of the first opcode
that fails. -/
theorem Parse.phase2_error (labels : labelTable) (opCodes : List opcode) (result bytes : List Nat)
    (err : Error) (h : Parse.phase2 labels opCodes result = (bytes, some err)) :
    bytes = [] ∧ ∃ pre op post, opCodes = pre ++ op :: post ∧
      (∀ op1 ∈ pre, ∃ code, op1.EncodeFunc.call op1 labels = .ok code) ∧
      op.EncodeFunc.call op labels = .error err := by
  induction opCodes generalizing result with
  | nil => simp [Parse.phase2] at h
  | cons op opCodes ih =>
    unfold Parse.phase2 at h
    split at h
    · rename_i err1 hcode
      simp only [Prod.mk.injEq, Option.some.injEq] at h
      obtain ⟨rfl, rfl⟩ := h
      exact ⟨rfl, [], op, opCodes, rfl, by simp, hcode⟩
    · rename_i code hcode
      obtain ⟨h1, pre, op1, post, e1, e2, e3⟩ := ih _ h
      refine ⟨h1, op :: pre, op1, post, by rw [e1]; rfl, ?_, e3⟩
      intro op2 hmem
      simp only [List.mem_cons] at hmem
      rcases hmem with rfl | hmem
      · exact ⟨code, hcode⟩
      · exact e2 _ hmem

/-- The second loop returns an error as soon as one opcode cannot be encoded. -/
theorem Parse.phase2_fails (labels : labelTable) (opCodes : List opcode) (result : List Nat)
    (op : opcode) (hmem : op ∈ opCodes) (err : Error)
    (hop : op.EncodeFunc.call op labels = .error err) :
    ∃ err1, Parse.phase2 labels opCodes result = ([], some err1) := by
  induction opCodes generalizing result with
  | nil => simp at hmem
  | cons op1 opCodes ih =>
    unfold Parse.phase2
    split
    · exact ⟨_, rfl⟩
    · rename_i code hcode
      simp only [List.mem_cons] at hmem
      rcases hmem with rfl | hmem
      · rw [hop] at hcode; simp at hcode
      · exact ih _ hmem

end Asm

/-! ## Items, opcodes and output offsets -/

namespace Asm

theorem itemsOps_append (a b : List Item) : itemsOps (a ++ b) = itemsOps a ++ itemsOps b := by
  induction a with
  | nil => rfl
  | cons i a ih => cases i <;> simp [itemsOps, ih]

theorem mem_itemsOps (items : List Item) (op : opcode) :
    op ∈ itemsOps items ↔ ∃ m, Item.inst m op ∈ items := by
  induction items with
  | nil => simp [itemsOps]
  | cons i items ih =>
    cases i with
    | inst m1 op1 =>
      simp only [itemsOps, List.mem_cons, ih, Item.inst.injEq]
      constructor
      · rintro (rfl | ⟨m, hm⟩)
        · exact ⟨m1, Or.inl ⟨rfl, rfl⟩⟩
        · exact ⟨m, Or.inr hm⟩
      · rintro ⟨m, ⟨_, rfl⟩ | hm⟩
        · exact Or.inl rfl
        · exact Or.inr ⟨m, hm⟩
    | label l => simp [itemsOps, ih]

theorem itemsSize_eq_sum (items : List Item) :
    itemsSize items = ((itemsOps items).map (fun op => op.Size)).sum := by
  induction items with
  | nil => rfl
  | cons i items ih =>
    cases i <;> simp [itemsSize_cons, itemsOps, Item.size, ih]

theorem itemsSize_append (a b : List Item) : itemsSize (a ++ b) = itemsSize a + itemsSize b := by
  simp [itemsSize]

/-- A decomposition of the opcodes comes from a decomposition of the items. -/
theorem itemsOps_split (items : List Item) (pre : List opcode) (op : opcode)
    (post : List opcode) (h : itemsOps items = pre ++ op :: post) :
    ∃ ipre m ipost, items = ipre ++ Item.inst m op :: ipost ∧ itemsOps ipre = pre ∧
      itemsOps ipost = post := by
  induction items generalizing pre with
  | nil => simp [itemsOps] at h
  | cons i items ih =>
    cases i with
    | label l =>
      simp only [itemsOps] at h
      obtain ⟨ipre, m, ipost, e1, e2, e3⟩ := ih pre h
      exact ⟨.label l :: ipre, m, ipost, by rw [e1]; rfl, by simpa [itemsOps] using e2, e3⟩
    | inst m1 op1 =>
      simp only [itemsOps] at h
      cases pre with
      | nil =>
        simp only [List.nil_append, List.cons.injEq] at h
        obtain ⟨rfl, h2⟩ := h
        exact ⟨[], m1, items, rfl, rfl, h2⟩
      | cons p pre =>
        simp only [List.cons_append, List.cons.injEq] at h
        obtain ⟨rfl, h2⟩ := h
        obtain ⟨ipre, m, ipost, e1, e2, e3⟩ := ih pre h2
        exact ⟨.inst m1 op1 :: ipre, m, ipost, by rw [e1]; rfl, by simp [itemsOps, e2], e3⟩

theorem forall₂_split {α β : Type} (R : α → β → Prop) (l1 : List α) (a : α) (l2 : List α)
    (codes : List β) (h : List.Forall₂ R (l1 ++ a :: l2) codes) :
    ∃ c1 c c2, codes = c1 ++ c :: c2 ∧ List.Forall₂ R l1 c1 ∧ R a c ∧ List.Forall₂ R l2 c2 := by
  induction l1 generalizing codes with
  | nil =>
    cases h with
    | cons hh ht => exact ⟨[], _, _, rfl, List.Forall₂.nil, hh, ht⟩
  | cons x l1 ih =>
    cases h with
    | cons hh ht =>
      obtain ⟨c1, c, c2, e1, e2, e3, e4⟩ := ih _ ht
      exact ⟨_ :: c1, c, c2, by rw [e1]; rfl, List.Forall₂.cons hh e2, e3, e4⟩

/-- The encodings of opcodes whose sizes fit their encoders take as many bytes as the sum
of the sizes. -/
theorem flatten_length_codes (labels : labelTable) (opCodes : List opcode)
    (codes : List (List Nat))
    (h : List.Forall₂ (fun op code => op.EncodeFunc.call op labels = .ok code) opCodes codes)
    (hsize : ∀ op ∈ opCodes, op.Size = op.EncodeFunc.size) :
    codes.flatten.length = (opCodes.map (fun op => op.Size)).sum := by
  induction h with
  | nil => rfl
  | @cons op code ops cs hh _ ih =>
    simp only [List.flatten_cons, List.length_append, List.map_cons, List.sum_cons]
    rw [ih (fun op1 h1 => hsize op1 (List.mem_cons_of_mem _ h1)),
      encodeFunc.call_length _ _ _ hh, hsize op (List.mem_cons_self _ _)]

/-- The two results of `Parse` in terms of its two loops. -/
theorem Parse_eq (T : RuneTables) (src : List Char) (bytes : List Nat) (err : Option Error)
    (h : Parse T src = some (bytes, err)) :
    (∃ e, Parse.phase1 T (src.length + 1) [] [] 0 (NewScanner src) = some (.error e) ∧
      bytes = [] ∧ err = some e) ∨
    (∃ opCodes labels address,
      Parse.phase1 T (src.length + 1) [] [] 0 (NewScanner src) =
        some (.ok (opCodes, labels, address)) ∧
      Parse.phase2 labels opCodes [] = (bytes, err)) := by
  unfold Parse at h
  split at h
  · simp at h
  · rename_i e he
    simp only [Option.some.injEq, Prod.mk.injEq] at h
    exact Or.inl ⟨e, he, h.1.symm, h.2.symm⟩
  · rename_i opCodes labels address he
    simp only [Option.some.injEq] at h
    exact Or.inr ⟨opCodes, labels, address, he, h⟩

end Asm

/-! ## Claims on the driver: labels, output layout, errors -/

namespace Asm

/-- The bytes of a branch-shaped instruction in the output of a `Parse` that succeeds: at the
offset of the instruction, the opcode byte and the address of the last definition of its
label. -/
theorem branch_bytes_at_offset (T : RuneTables) (src : List Char) (bytes : List Nat)
    (h : Parse T src = some (bytes, none))
    (pre post : List Item) (m : String) (op : opcode) (code : Nat)
    (hitems : sourceItems T src = pre ++ Item.inst m op :: post)
    (hm : branchOpcode.lookup (ToLower T m) = some code) :
    ∃ pre1 post1, sourceItems T src = pre1 ++ Item.label op.Label :: post1 ∧
      Item.label op.Label ∉ post1 ∧
      ∃ before after,
        bytes = before ++ (code :: PutUint32 (uint32 (itemsSize pre1 : Int))) ++ after ∧
        before.length = itemsSize pre := by
  rcases Parse_eq T src bytes none h with ⟨e, _, _, he⟩ | ⟨opCodes, labels, address, h1, h2⟩
  · simp at he
  · obtain ⟨i1, _, i3, i4⟩ := Parse.phase1_items T _ _ _ _ _ _ _ _ h1
    change _ = _ ++ itemsOps (sourceItems T src) at i1
    change ∀ L, (∃ pre post, sourceItems T src = _ ∧ _) ∨ (_ ∉ sourceItems T src ∧ _) at i3
    change ∀ m op, _ ∈ sourceItems T src → _ at i4
    have hmem : Item.inst m op ∈ sourceItems T src := by rw [hitems]; simp
    obtain ⟨_, j2, j3⟩ := i4 m op hmem
    have hbr : op.EncodeFunc = .Branching := j2.2 (by rw [hm]; rfl)
    have hcode : op.Code = code := by
      have := j3 hbr
      rw [hm] at this
      exact (Option.some.inj this).symm
    obtain ⟨codes, k1, k2⟩ := Parse.phase2_ok _ _ _ _ h2
    rw [i1, hitems, List.nil_append, itemsOps_append] at k1
    simp only [itemsOps] at k1
    obtain ⟨c1, c, c2, e1, e2, e3, e4⟩ := forall₂_split _ _ _ _ _ k1
    have hlen : c1.flatten.length = itemsSize pre := by
      rw [itemsSize_eq_sum]
      apply flatten_length_codes labels _ _ e2
      intro op1 hop1
      obtain ⟨m1, hm1⟩ := (mem_itemsOps _ _).1 hop1
      exact (i4 m1 op1 (by rw [hitems]; simp [hm1])).1
    rcases i3 op.Label with ⟨pre1, post1, d1, d2, d3⟩ | ⟨d1, d2⟩
    · refine ⟨pre1, post1, d1, d2, c1.flatten, c2.flatten, ?_, hlen⟩
      rw [Nat.zero_add] at d3
      rw [encodeFunc.call_branching op labels _ hbr d3] at e3
      simp only [Except.ok.injEq] at e3
      rw [k2, e1, ← e3, hcode]
      simp
    · have hnone : labelTable.addr labels op.Label = none := by rw [d2]; rfl
      rw [hbr] at e3
      simp [encodeFunc.call, encodeBranchingOpCode, hnone] at e3

/-- C1 (amended): when `Parse` succeeds, every branch-shaped instruction (`jmp`, `jle`, `jl`,
`je`, `jne`, `jge`, `jg`, `call`) that `Parse` reads from the source and that names a label
`L` stands in the output, at the offset of the instruction, as its opcode byte followed by
the four little-endian bytes of the address of `L`; that address is the sum of the sizes of
the instructions read before the (last) definition `L:` read, wherever the definition
stands relative to the branch. What `Parse` reads (`sourceItems`) ends with the source, or
where white space, or white space and a word, fill the buffer of the scanner. -/
theorem branch_encodes_label_address (T : RuneTables) (src : List Char) (bytes : List Nat)
    (h : Parse T src = some (bytes, none))
    (pre post : List Item) (m : String) (op : opcode) (code : Nat)
    (hitems : sourceItems T src = pre ++ Item.inst m op :: post)
    (hm : branchOpcode.lookup (ToLower T m) = some code) :
    ∃ pre1 post1, sourceItems T src = pre1 ++ Item.label op.Label :: post1 ∧
      Item.label op.Label ∉ post1 ∧
      ∃ before after,
        bytes = before ++ (code :: PutUint32 (uint32 (itemsSize pre1 : Int))) ++ after ∧
        before.length = itemsSize pre :=
  branch_bytes_at_offset T src bytes h pre post m op code hitems hm

/-- The forward reference `jmp end` / `end:` and the backward reference `loop: jmp loop`. -/
theorem branch_encodes_label_address_witness :
    (Parse asciiTables "jmp end\nend:".toList = some ([0x70, 5, 0, 0, 0], none) ∧
      sourceItems asciiTables "jmp end\nend:".toList =
        [] ++ Item.inst "jmp" ⟨0, 0x70, 5, 0, 0, 0, "end", .Branching⟩ :: [Item.label "end"] ∧
      branchOpcode.lookup (ToLower asciiTables "jmp") = some 0x70) ∧
    (∃ pre1 post1, sourceItems asciiTables "jmp end\nend:".toList =
        pre1 ++ Item.label "end" :: post1 ∧ Item.label "end" ∉ post1 ∧
      ∃ before after,
        [0x70, 5, 0, 0, 0] = before ++ (0x70 :: PutUint32 (uint32 (itemsSize pre1 : Int))) ++ after ∧
        before.length = itemsSize []) ∧
    Parse asciiTables "loop: jmp loop".toList = some ([0x70, 0, 0, 0, 0], none) :=
  ⟨⟨by decide!, by decide!, by decide!⟩,
   branch_encodes_label_address asciiTables "jmp end\nend:".toList [0x70, 5, 0, 0, 0]
     (by decide!) [] [Item.label "end"] "jmp" ⟨0, 0x70, 5, 0, 0, 0, "end", .Branching⟩ 0x70
     (by decide!) (by decide!),
   by decide!⟩

/-- C2: when `Parse` succeeds, the bytes returned are the encodings of the parsed
instructions concatenated in source order, every encoder emits exactly `Size` bytes, and
the length of the output is the final value of the address counter of the first loop, the
sum of the `Size` fields. -/
theorem output_is_concatenation (T : RuneTables) (src : List Char) (bytes : List Nat)
    (h : Parse T src = some (bytes, none)) :
    ∃ opCodes labels address codes,
      Parse.phase1 T (src.length + 1) [] [] 0 (NewScanner src) =
        some (.ok (opCodes, labels, address)) ∧
      List.Forall₂ (fun op code => op.EncodeFunc.call op labels = .ok code ∧
        code.length = op.Size) opCodes codes ∧
      bytes = codes.flatten ∧ bytes.length = address ∧
      address = (opCodes.map (fun op => op.Size)).sum := by
  rcases Parse_eq T src bytes none h with ⟨e, _, _, he⟩ | ⟨opCodes, labels, address, h1, h2⟩
  · simp at he
  · obtain ⟨i1, i2, _, i4⟩ := Parse.phase1_items T _ _ _ _ _ _ _ _ h1
    obtain ⟨codes, k1, k2⟩ := Parse.phase2_ok _ _ _ _ h2
    have hsize : ∀ op ∈ opCodes, op.Size = op.EncodeFunc.size := by
      intro op hop
      rw [i1, List.nil_append] at hop
      obtain ⟨m, hm⟩ := (mem_itemsOps _ _).1 hop
      exact (i4 m op hm).1
    have hsum : address = (opCodes.map (fun op => op.Size)).sum := by
      rw [i2, i1, Nat.zero_add, List.nil_append, itemsSize_eq_sum]
    refine ⟨opCodes, labels, address, codes, h1, ?_, by simpa using k2, ?_, hsum⟩
    · clear h2 k2 i1 hsum h1
      induction k1 with
      | nil => exact List.Forall₂.nil
      | @cons op code ops cs hh _ ih =>
        refine List.Forall₂.cons ⟨hh, ?_⟩ (ih (fun op1 h1 => hsize op1 (List.mem_cons_of_mem _ h1)))
        rw [encodeFunc.call_length _ _ _ hh, hsize op (List.mem_cons_self _ _)]
    · rw [k2, List.nil_append, flatten_length_codes labels opCodes codes k1 hsize, hsum]

/-- A register move, a label and a backward branch: 7 bytes for sizes 2 and 5. -/
theorem output_is_concatenation_witness :
    Parse asciiTables "rrmovl %eax, %ebx\nloop: jne loop".toList =
        some ([0x20, 0x03, 0x74, 2, 0, 0, 0], none) ∧
    ∃ opCodes labels address codes,
      Parse.phase1 asciiTables ("rrmovl %eax, %ebx\nloop: jne loop".toList.length + 1) [] [] 0
          (NewScanner "rrmovl %eax, %ebx\nloop: jne loop".toList) =
        some (.ok (opCodes, labels, address)) ∧
      List.Forall₂ (fun op code => op.EncodeFunc.call op labels = .ok code ∧
        code.length = op.Size) opCodes codes ∧
      [0x20, 0x03, 0x74, 2, 0, 0, 0] = codes.flatten ∧
      [0x20, 0x03, 0x74, 2, 0, 0, 0].length = address ∧
      address = (opCodes.map (fun op => op.Size)).sum :=
  ⟨by decide!, output_is_concatenation asciiTables _ _ (by decide!)⟩

end Asm

namespace Asm

set_option synthInstance.maxSize 1024

/-- C7 (amended): on a source whose first loop succeeds, `Parse` returns an error exactly
when some branch or call instruction that `Parse` reads names a label that no definition
`name:` read from the source defines; the error then names the label of the first such
instruction. What `Parse` reads (`sourceItems`) ends with the source, or where white space,
or white space and a word, fill the buffer of the scanner. -/
theorem unresolved_reference_fails (T : RuneTables) (src : List Char)
    (opCodes : List opcode) (labels : labelTable) (address : Nat)
    (h1 : Parse.phase1 T (src.length + 1) [] [] 0 (NewScanner src) =
      some (.ok (opCodes, labels, address))) :
    ((∃ bytes err, Parse T src = some (bytes, some err)) ↔
      ∃ m op, Item.inst m op ∈ sourceItems T src ∧ isBranch T m = true ∧
        Item.label op.Label ∉ sourceItems T src) ∧
    (∀ bytes err, Parse T src = some (bytes, some err) →
      ∃ pre m op post, sourceItems T src = pre ++ Item.inst m op :: post ∧
        isBranch T m = true ∧ Item.label op.Label ∉ sourceItems T src ∧
        (∀ m1 op1, Item.inst m1 op1 ∈ pre → isBranch T m1 = true →
          Item.label op1.Label ∈ sourceItems T src) ∧
        err = .Errorf ("unsolved reference: " ++ op.Label)) := by
  have hP : Parse T src = some (Parse.phase2 labels opCodes []) := by
    unfold Parse; rw [h1]
  obtain ⟨i1, _, i3, i4⟩ := Parse.phase1_items T _ _ _ _ _ _ _ _ h1
  change _ = _ ++ itemsOps (sourceItems T src) at i1
  change ∀ L, (∃ pre post, sourceItems T src = _ ∧ _) ∨ (_ ∉ sourceItems T src ∧ _) at i3
  change ∀ m op, _ ∈ sourceItems T src → _ at i4
  rw [List.nil_append] at i1
  -- a label has an address exactly when the source defines it
  have haddr : ∀ L, labelTable.addr labels L = none ↔ Item.label L ∉ sourceItems T src := by
    intro L
    rcases i3 L with ⟨pre1, post1, d1, _, d3⟩ | ⟨d1, d2⟩
    · rw [d3, d1]; simp
    · rw [d2]; simp [d1, labelTable.addr]
  have hbranch : ∀ m op, Item.inst m op ∈ sourceItems T src →
      (op.EncodeFunc = .Branching ↔ isBranch T m = true) := fun m op hm => (i4 m op hm).2.1
  have hlast : ∀ bytes err, Parse T src = some (bytes, some err) →
      ∃ pre m op post, sourceItems T src = pre ++ Item.inst m op :: post ∧
        isBranch T m = true ∧ Item.label op.Label ∉ sourceItems T src ∧
        (∀ m1 op1, Item.inst m1 op1 ∈ pre → isBranch T m1 = true →
          Item.label op1.Label ∈ sourceItems T src) ∧
        err = .Errorf ("unsolved reference: " ++ op.Label) := by
    intro bytes err hE
    rw [hP] at hE
    obtain ⟨_, pre, op, post, e1, e2, e3⟩ := Parse.phase2_error _ _ _ _ _ (Option.some.inj hE)
    obtain ⟨f1, f2, f3⟩ := encodeFunc.call_error _ _ _ e3
    rw [i1] at e1
    obtain ⟨ipre, m, ipost, g1, g2, _⟩ := itemsOps_split _ _ _ _ e1
    have hmem : Item.inst m op ∈ sourceItems T src := by rw [g1]; simp
    refine ⟨ipre, m, op, ipost, g1, (hbranch m op hmem).1 f1, (haddr _).1 f2, ?_, f3⟩
    intro m1 op1 hm1 hb1
    have hmem1 : Item.inst m1 op1 ∈ sourceItems T src := by rw [g1]; simp [hm1]
    have hB := (hbranch m1 op1 hmem1).2 hb1
    obtain ⟨code, hcode⟩ := e2 op1 (by rw [← g2]; exact (mem_itemsOps _ _).2 ⟨m1, hm1⟩)
    by_contra hnot
    have hnone := (haddr _).2 hnot
    rw [hB] at hcode
    simp [encodeFunc.call, encodeBranchingOpCode, hnone] at hcode
  refine ⟨⟨?_, ?_⟩, hlast⟩
  · rintro ⟨bytes, err, hE⟩
    obtain ⟨pre, m, op, post, g1, g2, g3, _, _⟩ := hlast bytes err hE
    exact ⟨m, op, by rw [g1]; simp, g2, g3⟩
  · rintro ⟨m, op, hmem, hb, hnot⟩
    have hB := (hbranch m op hmem).2 hb
    have hnone := (haddr _).2 hnot
    have hfail : op.EncodeFunc.call op labels =
        .error (.Errorf ("unsolved reference: " ++ op.Label)) := by
      rw [hB]; simp [encodeFunc.call, encodeBranchingOpCode, hnone]
    obtain ⟨err1, herr1⟩ := Parse.phase2_fails labels opCodes [] op
      (by rw [i1]; exact (mem_itemsOps _ _).2 ⟨m, hmem⟩) _ hfail
    exact ⟨[], err1, by rw [hP, herr1]⟩

/-- The source `jmp undefined_label` alone: the first loop succeeds and `Parse` fails. -/
theorem unresolved_reference_fails_witness :
    Parse.phase1 asciiTables ("jmp undefined_label".toList.length + 1) [] [] 0
        (NewScanner "jmp undefined_label".toList) =
      some (.ok ([⟨0, 0x70, 5, 0, 0, 0, "undefined_label", .Branching⟩],
        [("undefined_label", none)], 5)) ∧
    Parse asciiTables "jmp undefined_label".toList =
      some ([], some (.Errorf "unsolved reference: undefined_label")) ∧
    ((∃ bytes err, Parse asciiTables "jmp undefined_label".toList = some (bytes, some err)) ↔
      ∃ m op, Item.inst m op ∈ sourceItems asciiTables "jmp undefined_label".toList ∧
        isBranch asciiTables m = true ∧
        Item.label op.Label ∉ sourceItems asciiTables "jmp undefined_label".toList) :=
  ⟨by decide!, by decide!,
   (unresolved_reference_fails asciiTables "jmp undefined_label".toList
     [⟨0, 0x70, 5, 0, 0, 0, "undefined_label", .Branching⟩] [("undefined_label", none)] 5
     (by decide!)).1⟩

/-- C8: whenever `Parse` returns an error, in either loop, the byte sequence returned with
it is empty, whatever was parsed or encoded before the error. -/
theorem error_returns_no_bytes (T : RuneTables) (src : List Char) (bytes : List Nat)
    (err : Error) (h : Parse T src = some (bytes, some err)) : bytes = [] := by
  rcases Parse_eq T src bytes _ h with ⟨e, _, hb, _⟩ | ⟨opCodes, labels, address, _, h2⟩
  · exact hb
  · exact (Parse.phase2_error _ _ _ _ _ h2).1

/-- A program whose last branch is unresolved returns none of the bytes encoded before. -/
theorem error_returns_no_bytes_witness :
    Parse asciiTables "nop\nrrmovl %eax, %ebx\njmp missing".toList =
        some ([], some (.Errorf "unsolved reference: missing")) ∧
    ([] : List Nat) = [] :=
  ⟨by decide!, error_returns_no_bytes asciiTables "nop\nrrmovl %eax, %ebx\njmp missing".toList
    [] (.Errorf "unsolved reference: missing") (by decide!)⟩

end Asm

/-! ## Scanning a source text written token by token -/

namespace Asm

theorem isAsciiSpace_spec (T : RuneTables) (c : Char) (h : isAsciiSpace c = true) :
    IsSpace T c = true := by
  unfold isAsciiSpace at h
  unfold IsSpace
  simp only [Bool.or_eq_true, Bool.and_eq_true, decide_eq_true_eq, beq_iff_eq] at h
  have : c.toNat < 128 := by omega
  simp only [this, if_true]
  simpa using h

theorem isAsciiWord_lt (c : Char) (h : isAsciiWord c = true) : c.toNat < 128 := by
  unfold isAsciiWord at h
  simp only [Bool.or_eq_true, Bool.and_eq_true, decide_eq_true_eq, beq_iff_eq] at h
  rcases h with ((h | h) | h) | h
  · omega
  · omega
  · omega
  · subst h; decide

theorem isAsciiWord_spec (T : RuneTables) (c : Char) (h : isAsciiWord c = true) :
    isWordRune T c = true ∧ IsSpace T c = false ∧ isPunct c = false := by
  have hlt := isAsciiWord_lt c h
  unfold isAsciiWord at h
  simp only [Bool.or_eq_true, Bool.and_eq_true, decide_eq_true_eq, beq_iff_eq] at h
  have hp : isPunct c = false := by
    by_contra hp
    simp only [Bool.not_eq_false] at hp
    unfold isPunct at hp
    simp only [Bool.or_eq_true, beq_iff_eq] at hp
    rcases hp with (((((hp | hp) | hp) | hp) | hp) | hp) | hp <;> subst hp <;> simp at h
  refine ⟨?_, ?_, hp⟩
  · unfold isWordRune IsLetter IsDigit
    simp only [hlt, if_true, Bool.or_eq_true, Bool.and_eq_true, decide_eq_true_eq, beq_iff_eq]
    tauto
  · unfold IsSpace
    simp only [hlt, if_true]
    rcases h with ((h | h) | h) | h
    · simp; omega
    · simp; omega
    · simp; omega
    · subst h; decide

theorem isPunct_spec (T : RuneTables) (c : Char) (h : isPunct c = true) :
    IsSpace T c = false := by
  unfold isPunct at h
  simp only [Bool.or_eq_true, beq_iff_eq] at h
  rcases h with (((((h | h) | h) | h) | h) | h) | h <;> subst h <;> rfl

theorem wordEnds_spec (T : RuneTables) (c : Char) (rest : List Char)
    (h : wordEnds (c :: rest) = true) : isWordRune T c = false := by
  unfold wordEnds at h
  simp only [Bool.and_eq_true, decide_eq_true_eq, Bool.not_eq_true'] at h
  obtain ⟨hlt, hw⟩ := h
  unfold isAsciiWord at hw
  unfold isWordRune IsLetter IsDigit
  simp only [hlt, if_true]
  simpa [Bool.or_assoc] using hw

theorem skipSpaces_append (T : RuneTables) (sp rest : List Char)
    (hsp : ∀ c ∈ sp, isAsciiSpace c = true)
    (hrest : ∀ c tail, rest = c :: tail → IsSpace T c = false) :
    skipSpaces T (sp ++ rest) = sp.length := by
  induction sp with
  | nil =>
    cases rest with
    | nil => rfl
    | cons c tail => simp [skipSpaces, hrest c tail rfl]
  | cons s sp ih =>
    have h1 := isAsciiSpace_spec T s (hsp s (List.mem_cons_self _ _))
    have h2 := ih (fun c hc => hsp c (List.mem_cons_of_mem _ hc))
    simp only [List.cons_append, skipSpaces, h1, if_true, List.length_cons]
    exact congrArg (· + 1) h2

theorem scanWord_append (T : RuneTables) (w rest : List Char)
    (hw : ∀ c ∈ w, isAsciiWord c = true) (hrest : wordEnds rest = true) :
    scanWord T (w ++ rest) = w.length := by
  induction w with
  | nil =>
    cases rest with
    | nil => rfl
    | cons c tail => simp [scanWord, wordEnds_spec T c tail hrest]
  | cons s w ih =>
    have h1 := (isAsciiWord_spec T s (hw s (List.mem_cons_self _ _))).1
    have h2 := ih (fun c hc => hw c (List.mem_cons_of_mem _ hc))
    simp only [List.cons_append, scanWord, h1, if_true, List.length_cons]
    exact congrArg (· + 1) h2

theorem isAsciiSpace_lt (c : Char) (h : isAsciiSpace c = true) : c.toNat < 128 := by
  unfold isAsciiSpace at h
  simp only [Bool.or_eq_true, Bool.and_eq_true, decide_eq_true_eq, beq_iff_eq] at h
  omega

theorem isPunct_lt (c : Char) (h : isPunct c = true) : c.toNat < 128 := by
  unfold isPunct at h
  simp only [Bool.or_eq_true, beq_iff_eq] at h
  rcases h with (((((h | h) | h) | h) | h) | h) | h <;> subst h <;> decide

/-- The split function on a text that starts with white space and a punctuation
character. -/
theorem splitFunc_punct (T : RuneTables) (sp : List Char) (c : Char) (rest : List Char)
    (hsp : ∀ c ∈ sp, isAsciiSpace c = true) (hc : isPunct c = true) (b : Bool) :
    splitFunc T (sp ++ ([c] ++ rest)) b = (sp.length + 1, some [c]) := by
  have hdrop : (sp ++ ([c] ++ rest)).drop sp.length = [c] ++ rest := by simp
  have hskip : skipSpaces T (sp ++ ([c] ++ rest)) = sp.length :=
    skipSpaces_append T sp _ hsp (by
      intro c1 tail h1
      simp only [List.singleton_append, List.cons.injEq] at h1
      rw [← h1.1]; exact isPunct_spec T c hc)
  unfold splitFunc
  simp only [hskip, hdrop]
  simp [hc]

/-- The split function on a text that starts with white space and a word: at end of input
the word is the token; before, it is the token when the text goes on after it. -/
theorem splitFunc_word (T : RuneTables) (sp w rest : List Char)
    (hsp : ∀ c ∈ sp, isAsciiSpace c = true) (hne : w ≠ [])
    (hw : ∀ c ∈ w, isAsciiWord c = true) (hend : wordEnds rest = true) :
    splitFunc T (sp ++ (w ++ rest)) true = (sp.length + w.length, some w) ∧
    (rest ≠ [] → splitFunc T (sp ++ (w ++ rest)) false = (sp.length + w.length, some w)) ∧
    (rest = [] → splitFunc T (sp ++ (w ++ rest)) false = (0, none)) := by
  have hdrop : (sp ++ (w ++ rest)).drop sp.length = w ++ rest := by simp
  obtain ⟨c, w1, rfl⟩ := List.exists_cons_of_ne_nil hne
  have hc := isAsciiWord_spec T c (hw c (List.mem_cons_self _ _))
  have hskip : skipSpaces T (sp ++ (c :: w1 ++ rest)) = sp.length :=
    skipSpaces_append T sp _ hsp (by
      intro c1 tail h1
      simp only [List.cons_append, List.cons.injEq] at h1
      rw [← h1.1]; exact hc.2.1)
  have hscan := scanWord_append T (c :: w1) rest hw hend
  unfold splitFunc
  simp only [hskip, hdrop]
  simp only [List.cons_append] at hscan ⊢
  simp only [hc.2.2, hscan]
  cases rest with
  | nil => simp
  | cons r rest => simp

/-- `Scan` on a text that starts with white space and one token, which the buffer holds:
the token is returned and the cursor stands right after it. -/
theorem Scan_token (T : RuneTables) (sp w rest : List Char) (t : String)
    (hsp : ∀ c ∈ sp, isAsciiSpace c = true) (hw : isToken w rest)
    (hfit : sp.length + w.length < MaxScanTokenSize) :
    Scanner.Scan T ⟨sp ++ (w ++ rest), t⟩ = (true, ⟨rest, String.mk w⟩) := by
  have hasc : ∀ c ∈ sp ++ w, c.toNat < 128 := by
    intro c hc
    rcases List.mem_append.1 hc with h | h
    · exact isAsciiSpace_lt c (hsp c h)
    · rcases hw with ⟨p, rfl, hp⟩ | ⟨_, hw, _⟩
      · simp only [List.mem_singleton] at h
        subst h
        exact isPunct_lt c hp
      · exact isAsciiWord_lt c (hw c h)
  have hlen : byteLen (sp ++ w) = sp.length + w.length := by
    rw [byteLen_ascii _ hasc, List.length_append]
  have hbuf : buffered MaxScanTokenSize (sp ++ (w ++ rest)) =
      sp ++ (w ++ buffered (MaxScanTokenSize - (sp.length + w.length)) rest) := by
    rw [← List.append_assoc, buffered_append _ _ _ (by omega), hlen, List.append_assoc]
  have hd : (sp ++ (w ++ rest)).drop (sp.length + w.length) = rest := by
    rw [← List.append_assoc, ← List.length_append]; simp
  unfold Scanner.Scan
  simp only [hbuf]
  rcases hw with ⟨c, rfl, hc⟩ | ⟨hne, hw, hend⟩
  · simp only [splitFunc_punct T sp c _ hsp hc, List.length_singleton] at hd ⊢
    simp only [hd]
  · cases rest with
    | nil =>
      have h1 := splitFunc_word T sp w [] hsp hne hw hend
      have h2 : ¬ MaxScanTokenSize ≤ byteLen (sp ++ (w ++ [])) := by
        rw [List.append_nil, hlen]
        omega
      simp only [buffered, h1.2.2 rfl, h1.1, if_neg h2, hd]
    | cons c tail =>
      have hc : c.toNat < 128 := by
        simp only [wordEnds, Bool.and_eq_true, decide_eq_true_eq] at hend
        exact hend.1
      have h0 : RuneLen c = 1 := by
        unfold RuneLen
        rw [if_pos hc]
      have h2 : RuneLen c ≤ MaxScanTokenSize - (sp.length + w.length) := by omega
      simp only [buffered, if_pos h2]
      have h1 := splitFunc_word T sp w (c :: buffered
        (MaxScanTokenSize - (sp.length + w.length) - RuneLen c) tail) hsp hne hw
        (by simpa [wordEnds] using hend)
      simp only [h1.2.1 (by simp), hd]

/-- `Scan` on a text that holds nothing but white space, less than the buffer holds: no
token. -/
theorem Scan_eof (T : RuneTables) (sp : List Char) (t : String)
    (hsp : ∀ c ∈ sp, isAsciiSpace c = true) (hfit : sp.length < MaxScanTokenSize) :
    Scanner.Scan T ⟨sp, t⟩ = (false, ⟨[], ""⟩) := by
  have hskip : skipSpaces T sp = sp.length := by
    have := skipSpaces_append T sp [] hsp (by simp)
    simpa using this
  have hsplit : ∀ b, splitFunc T sp b = (0, none) := by
    intro b
    unfold splitFunc
    simp [hskip]
  have hlen : byteLen sp = sp.length :=
    byteLen_ascii sp (fun c hc => isAsciiSpace_lt c (hsp c hc))
  have h2 : ¬ MaxScanTokenSize ≤ byteLen sp := by omega
  unfold Scanner.Scan
  simp only [buffered_fits _ _ (by omega : byteLen sp ≤ MaxScanTokenSize), hsplit, if_neg h2]

/-- `Scan` on a text in which white space, or white space and a word, fill the buffer: the
scan stops (`ErrTooLong`) and no token is returned, whatever follows. -/
theorem Scan_too_long (T : RuneTables) (sp w rest : List Char) (t : String)
    (hsp : ∀ c ∈ sp, isAsciiSpace c = true) (hw : ∀ c ∈ w, isAsciiWord c = true)
    (hfull : MaxScanTokenSize ≤ sp.length + w.length) :
    Scanner.Scan T ⟨sp ++ (w ++ rest), t⟩ = (false, ⟨[], ""⟩) := by
  have hasc : ∀ c ∈ sp ++ w, c.toNat < 128 := by
    intro c hc
    rcases List.mem_append.1 hc with h | h
    · exact isAsciiSpace_lt c (hsp c h)
    · exact isAsciiWord_lt c (hw c h)
  have ha : byteLen (List.take MaxScanTokenSize (sp ++ w)) = MaxScanTokenSize := by
    rw [byteLen_ascii _ (fun c hc => hasc c (List.mem_of_mem_take hc)), List.length_take,
      List.length_append]
    omega
  have hbuf : buffered MaxScanTokenSize (sp ++ (w ++ rest)) =
      List.take MaxScanTokenSize (sp ++ w) := by
    have h1 : sp ++ (w ++ rest) = List.take MaxScanTokenSize (sp ++ w) ++
        (List.drop MaxScanTokenSize (sp ++ w) ++ rest) := by
      rw [← List.append_assoc (List.take MaxScanTokenSize (sp ++ w)), List.take_append_drop,
        List.append_assoc]
    rw [h1, buffered_append _ _ _ (by omega), ha, Nat.sub_self, buffered_zero, List.append_nil]
  have hsplit : splitFunc T (List.take MaxScanTokenSize (sp ++ w)) false = (0, none) := by
    rw [List.take_append_eq_append_take]
    have hsp1 : ∀ c ∈ List.take MaxScanTokenSize sp, isAsciiSpace c = true :=
      fun c hc => hsp c (List.mem_of_mem_take hc)
    by_cases hw0 : List.take (MaxScanTokenSize - sp.length) w = []
    · rw [hw0, List.append_nil]
      have hskip : skipSpaces T (List.take MaxScanTokenSize sp) =
          (List.take MaxScanTokenSize sp).length := by
        have := skipSpaces_append T (List.take MaxScanTokenSize sp) [] hsp1 (by simp)
        simpa using this
      unfold splitFunc
      simp [hskip]
    · have h1 := (splitFunc_word T (List.take MaxScanTokenSize sp)
        (List.take (MaxScanTokenSize - sp.length) w) [] hsp1 hw0
        (fun c hc => hw c (List.mem_of_mem_take hc)) rfl).2.2 rfl
      rw [List.append_nil] at h1
      exact h1
  have hlong : MaxScanTokenSize ≤ byteLen (sp ++ (w ++ rest)) := by
    rw [← List.append_assoc, byteLen_append, byteLen_ascii _ hasc, List.length_append]
    omega
  unfold Scanner.Scan
  simp only [hbuf, hsplit, if_pos hlong]

end Asm

/-! ## `strconv.ParseInt` on the literals of the specification -/

namespace Asm

/-- A digit character is read by the digit loop of `ParseUint` with its value, is a
hexadecimal character of `regNumber`, and is an ASCII word character. -/
theorem digitOf_spec (c : Char) (d : Nat) (h : digitOf c = some d) :
    c ≠ '_' ∧ d < 16 ∧ isHexRune c = true ∧ isAsciiWord c = true ∧ (c ≠ '-' ∧ c ≠ '+') ∧
    (if 48 ≤ c.toNat && c.toNat ≤ 57 then some (c.toNat - 48)
      else if 97 ≤ lower c.toNat && lower c.toNat ≤ 122 then
        some ((lower c.toNat - 97 + 10) % 256)
      else none) = some d := by
  unfold digitOf at h
  split at h <;> simp only [Option.some.injEq, reduceCtorEq] at h <;> subst h <;> decide

theorem digitsWrite_le (base : Nat) (hbase : 0 < base) (ds : List Char) (n v : Nat)
    (h : digitsWrite base ds n = some v) : n ≤ v := by
  induction ds generalizing n with
  | nil => simp only [digitsWrite, Option.some.injEq] at h; omega
  | cons c ds ih =>
    unfold digitsWrite at h
    split at h
    · split at h
      · have := ih _ h
        have : n ≤ n * base := Nat.le_mul_of_pos_right n hbase
        omega
      · simp at h
    · simp at h

theorem digitsWrite_chars (base : Nat) (ds : List Char) (n v : Nat)
    (h : digitsWrite base ds n = some v) :
    ∀ c ∈ ds, (c ≠ '-' ∧ c ≠ '+') ∧ isHexRune c = true ∧ isAsciiWord c = true := by
  induction ds generalizing n with
  | nil => simp
  | cons c ds ih =>
    unfold digitsWrite at h
    split at h
    · rename_i d hd
      split at h
      · intro c1 hc1
        simp only [List.mem_cons] at hc1
        rcases hc1 with rfl | hc1
        · obtain ⟨_, _, h3, h4, h5, _⟩ := digitOf_spec _ d hd
          exact ⟨h5, h3, h4⟩
        · exact ih _ h c1 hc1
      · simp at h
    · simp at h

/-- The digit loop of `ParseUint` on digits of the base: the number written when it fits
in 32 bits, a range error otherwise. -/
theorem ParseUint.loop_digits (base : Nat) (hbase : base = 2 ∨ base = 8 ∨ base = 10 ∨ base = 16)
    (ds : List Char) (n v : Nat) (hn : n < 2 ^ 32) (h : digitsWrite base ds n = some v) :
    ParseUint.loop base ((2 ^ 64 - 1) / base + 1) (2 ^ 32 - 1) ds n false =
      if v < 2 ^ 32 then .ok (v, false) else .error (2 ^ 32 - 1, .ErrRange) := by
  induction ds generalizing n with
  | nil =>
    simp only [digitsWrite, Option.some.injEq] at h
    subst h
    simp only [ParseUint.loop]
    rw [if_pos hn]
  | cons c ds ih =>
    unfold digitsWrite at h
    split at h
    · rename_i d hd
      split at h
      · rename_i hdb
        obtain ⟨h1, _, _, _, _, h6⟩ := digitOf_spec c d hd
        have hle := digitsWrite_le base (by omega) ds _ v h
        unfold ParseUint.loop
        have hc : (c == '_') = false := by simpa using h1
        simp only [hc, Bool.false_eq_true, if_false, h6]
        have hnb : ¬ d ≥ base := by omega
        simp only [hnb, if_false]
        by_cases hcut : n * base + d < 2 ^ 32
        · have hih := ih _ hcut h
          rcases hbase with rfl | rfl | rfl | rfl
          all_goals
            norm_num only at hle hcut hih hn ⊢
            rw [if_neg (by omega)]
            rw [Nat.mod_eq_of_lt (by omega), Nat.mod_eq_of_lt (by omega)]
            rw [if_neg (by simp; omega)]
            exact hih
        · rcases hbase with rfl | rfl | rfl | rfl
          all_goals
            norm_num only at hle hcut hn ⊢
            have hv : ¬ v < 4294967296 := by omega
            rw [if_neg hv]
            split
            · rfl
            · rw [if_pos]
              simp only [Bool.or_eq_true, decide_eq_true_eq]
              right
              omega
      · simp at h
    · simp at h

end Asm

namespace Asm

/-- The shape of a literal: a first character that is a digit, and only characters that
`regNumber` and the lexer take as part of one word. -/
theorem isLiteral_chars (lit : List Char) (v : Nat) (h : isLiteral lit v) :
    (∃ c t, lit = c :: t ∧ c ≠ '-' ∧ c ≠ '+') ∧ (∀ c ∈ lit, isAsciiWord c = true) ∧
    regNumber (String.mk lit) = true := by
  rcases h with ⟨hne, _, hw⟩ | ⟨ds, rfl, hne, hw⟩ | ⟨ds, rfl, hne, hw⟩ | ⟨ds, rfl, hne, hw⟩
  · have hc := digitsWrite_chars 10 lit 0 v hw
    obtain ⟨c, t, rfl⟩ := List.exists_cons_of_ne_nil hne
    refine ⟨⟨c, t, rfl, (hc c (List.mem_cons_self _ _)).1⟩, fun c1 h1 => (hc c1 h1).2.2, ?_⟩
    have : isHexRun (c :: t) = true := by
      unfold isHexRun
      simp only [List.isEmpty_cons, Bool.not_false, Bool.true_and, List.all_eq_true]
      exact fun c1 h1 => (hc c1 h1).2.1
    simp [regNumber, this]
  all_goals
    have hc := digitsWrite_chars _ ds 0 v hw
    refine ⟨⟨_, _, rfl, by decide, by decide⟩, ?_, ?_⟩
    · intro c1 h1
      simp only [List.mem_cons] at h1
      rcases h1 with rfl | rfl | h1
      · decide
      · decide
      · exact (hc c1 h1).2.2
    · have : isHexRun ds = true := by
        unfold isHexRun
        obtain ⟨c, t, rfl⟩ := List.exists_cons_of_ne_nil hne
        simp only [List.isEmpty_cons, Bool.not_false, Bool.true_and, List.all_eq_true]
        exact fun c1 h1 => (hc c1 h1).2.1
      simp [regNumber, this]

/-- `strconv.ParseUint(lit, 0, 32)` on a literal: the number written when it fits in 32
bits, a range error otherwise. -/
theorem ParseUint_literal (lit : List Char) (v : Nat) (h : isLiteral lit v) :
    ParseUint lit 32 =
      if v < 2 ^ 32 then (v, none) else (2 ^ 32 - 1, some .ErrRange) := by
  have key : ∀ base ds, (base = 2 ∨ base = 8 ∨ base = 10 ∨ base = 16) →
      digitsWrite base ds 0 = some v →
      (match ParseUint.loop base ((2 ^ 64 - 1) / base + 1) (2 ^ 32 - 1) ds 0 false with
        | .error (n, err) => (n, some err)
        | .ok (n, underscores) =>
          if underscores && !underscoreOK lit then (0, some NumError.ErrSyntax) else (n, none)) =
      if v < 2 ^ 32 then (v, none) else (2 ^ 32 - 1, some .ErrRange) := by
    intro base ds hb hw
    rw [ParseUint.loop_digits base hb ds 0 v (by norm_num) hw]
    by_cases hv : v < 2 ^ 32
    · simp only [hv, if_true]
      simp
    · simp only [hv, if_false]
  rcases h with ⟨hne, hz, hw⟩ | ⟨ds, rfl, hne, hw⟩ | ⟨ds, rfl, hne, hw⟩ | ⟨ds, rfl, hne, hw⟩
  · rcases hz with rfl | hz
    · simp only [digitsWrite, digitOf] at hw
      simp only [Nat.zero_mul, Nat.zero_add, Nat.lt_irrefl, Option.some.injEq] at hw
      norm_num at hw
      subst hw
      decide
    · obtain ⟨c, t, rfl⟩ := List.exists_cons_of_ne_nil hne
      have hc : c ≠ '0' := by simpa using hz
      unfold ParseUint
      simp only [List.isEmpty_cons, Bool.false_eq_true, if_false]
      have hm : (match c :: t with
          | '0' :: p :: t =>
            if (!t.isEmpty && lower p.toNat == 98) = true then (2, t)
            else if (!t.isEmpty && lower p.toNat == 111) = true then (8, t)
            else if (!t.isEmpty && lower p.toNat == 120) = true then (16, t)
            else (8, p :: t)
          | '0' :: t => (8, t)
          | _ => (10, c :: t)) = ((10 : Nat), c :: t) := by
        split
        · rename_i heq; simp only [List.cons.injEq] at heq; exact absurd heq.1 hc
        · rename_i heq; simp only [List.cons.injEq] at heq; exact absurd heq.1 hc
        · rfl
      rw [hm]
      exact key 10 _ (by simp) hw
  · obtain ⟨c, t, rfl⟩ := List.exists_cons_of_ne_nil hne
    unfold ParseUint
    simp only [List.isEmpty_cons, Bool.false_eq_true, if_false]
    exact key 16 _ (by simp) hw
  · obtain ⟨c, t, rfl⟩ := List.exists_cons_of_ne_nil hne
    unfold ParseUint
    simp only [List.isEmpty_cons, Bool.false_eq_true, if_false]
    exact key 2 _ (by simp) hw
  · obtain ⟨c, t, rfl⟩ := List.exists_cons_of_ne_nil hne
    unfold ParseUint
    simp only [List.isEmpty_cons, Bool.false_eq_true, if_false]
    exact key 8 _ (by simp) hw

end Asm

namespace Asm

/-- `strconv.ParseInt(lit, 0, 32)` on a literal and on the literal after a minus sign: the
number when it is in the signed 32-bit range, a range error otherwise. -/
theorem ParseInt_literal (lit : List Char) (v : Nat) (h : isLiteral lit v) :
    ParseInt lit 32 =
      (if v < 2 ^ 31 then ((v : Int), none) else (2 ^ 31 - 1, some .ErrRange)) ∧
    ParseInt ('-' :: lit) 32 =
      (if v ≤ 2 ^ 31 then (-(v : Int), none) else (-2 ^ 31, some .ErrRange)) := by
  obtain ⟨⟨c, t, rfl, hc1, hc2⟩, _, _⟩ := isLiteral_chars lit v h
  have hU := ParseUint_literal _ v h
  constructor
  · unfold ParseInt
    simp only [List.isEmpty_cons, Bool.false_eq_true, if_false]
    have hm : (match c :: t with
        | '+' :: t => (false, t)
        | '-' :: t => (true, t)
        | _ => (false, c :: t)) = (false, c :: t) := by
      split
      · rename_i heq; simp only [List.cons.injEq] at heq; exact absurd heq.1 hc2
      · rename_i heq; simp only [List.cons.injEq] at heq; exact absurd heq.1 hc1
      · rfl
    rw [hm]
    simp only [hU]
    by_cases hv : v < 2 ^ 31
    · have hv2 : v < 2 ^ 32 := by omega
      simp only [hv2, hv, if_true]
      norm_num
      omega
    · by_cases hv2 : v < 2 ^ 32
      · simp only [hv2, hv, if_true, if_false]
        norm_num
        omega
      · simp only [hv2, hv, if_false]
        norm_num
  · unfold ParseInt
    simp only [List.isEmpty_cons, Bool.false_eq_true, if_false]
    simp only [hU]
    by_cases hv : v ≤ 2 ^ 31
    · have hv2 : v < 2 ^ 32 := by omega
      simp only [hv2, hv, if_true]
      norm_num
      omega
    · by_cases hv2 : v < 2 ^ 32
      · simp only [hv2, hv, if_true, if_false]
        norm_num
        omega
      · simp only [hv2, hv, if_false]
        norm_num

end Asm

/-! ## The token readers on a text written token by token -/

namespace Asm

theorem Scan_punct (T : RuneTables) (sp : List Char) (c : Char) (rest : List Char) (t : String)
    (hsp : ∀ c ∈ sp, isAsciiSpace c = true) (hc : isPunct c = true)
    (hfit : sp.length + 1 < MaxScanTokenSize) :
    Scanner.Scan T ⟨sp ++ (c :: rest), t⟩ = (true, ⟨rest, String.mk [c]⟩) :=
  Scan_token T sp [c] rest t hsp (Or.inl ⟨c, rfl, hc⟩) hfit

theorem nextReadToken_token (T : RuneTables) (sp w rest : List Char) (t tok : String)
    (hsp : ∀ c ∈ sp, isAsciiSpace c = true) (hw : isToken w rest)
    (hfit : sp.length + w.length < MaxScanTokenSize) :
    nextReadToken T ⟨sp ++ (w ++ rest), t⟩ tok = (String.mk w == tok, ⟨rest, String.mk w⟩) := by
  unfold nextReadToken
  rw [Scan_token T sp w rest t hsp hw hfit]

theorem nextReadToken_punct (T : RuneTables) (sp : List Char) (c : Char) (rest : List Char)
    (t tok : String) (hsp : ∀ c ∈ sp, isAsciiSpace c = true) (hc : isPunct c = true)
    (hfit : sp.length + 1 < MaxScanTokenSize) :
    nextReadToken T ⟨sp ++ (c :: rest), t⟩ tok =
      (String.mk [c] == tok, ⟨rest, String.mk [c]⟩) :=
  nextReadToken_token T sp [c] rest t tok hsp (Or.inl ⟨c, rfl, hc⟩) hfit

theorem nextReadToken_eof (T : RuneTables) (sp : List Char) (t tok : String)
    (hsp : ∀ c ∈ sp, isAsciiSpace c = true) (hfit : sp.length < MaxScanTokenSize) :
    nextReadToken T ⟨sp, t⟩ tok = (false, ⟨[], ""⟩) := by
  unfold nextReadToken
  rw [Scan_eof T sp t hsp hfit]

theorem nextReadRegExp_token (T : RuneTables) (sp w rest : List Char) (t : String)
    (reg : String → Bool) (hsp : ∀ c ∈ sp, isAsciiSpace c = true) (hw : isToken w rest)
    (hfit : sp.length + w.length < MaxScanTokenSize) :
    nextReadRegExp T ⟨sp ++ (w ++ rest), t⟩ reg = (reg (String.mk w), ⟨rest, String.mk w⟩) := by
  unfold nextReadRegExp
  rw [Scan_token T sp w rest t hsp hw hfit]

/-- A register name is a word of the lexer that `regRegister` matches. -/
theorem registerNames_spec (r : String) (hr : r ∈ registerNames) :
    regRegister r = true ∧ r.data ≠ [] ∧ (∀ c ∈ r.data, isAsciiWord c = true) ∧
    registerCode r < 8 := by
  simp only [registerNames, List.mem_cons, List.mem_singleton, List.not_mem_nil, or_false] at hr
  rcases hr with rfl | rfl | rfl | rfl | rfl | rfl | rfl | rfl <;> decide

/-- A register name has three letters. -/
theorem registerNames_length (r : String) (hr : r ∈ registerNames) : r.data.length = 3 := by
  simp only [registerNames, List.mem_cons, List.mem_singleton, List.not_mem_nil, or_false] at hr
  rcases hr with rfl | rfl | rfl | rfl | rfl | rfl | rfl | rfl <;> rfl

/-- A text of at most a thousand runes is shorter than the buffer of the scanner. -/
theorem fits_of_le (n : Nat) (h : n ≤ 1000) : n < MaxScanTokenSize := by
  unfold MaxScanTokenSize
  omega

/-- `nextReadRegister` on `%name`: the code of the register. -/
theorem nextReadRegister_ok (T : RuneTables) (sp1 sp2 : List Char) (r : String)
    (rest : List Char) (t : String) (hsp1 : ∀ c ∈ sp1, isAsciiSpace c = true)
    (hsp2 : ∀ c ∈ sp2, isAsciiSpace c = true) (hr : r ∈ registerNames)
    (hend : wordEnds rest = true) (hfit1 : sp1.length + 1 < MaxScanTokenSize)
    (hfit2 : sp2.length + 3 < MaxScanTokenSize) :
    nextReadRegister T ⟨sp1 ++ ('%' :: (sp2 ++ (r.data ++ rest))), t⟩ =
      (.ok (registerCode r), ⟨rest, r⟩) := by
  obtain ⟨h1, h2, h3, _⟩ := registerNames_spec r hr
  unfold nextReadRegister
  rw [nextReadToken_punct T sp1 '%' _ t "%" hsp1 (by decide) hfit1]
  have : (String.mk ['%'] == "%") = true := by decide
  simp only [this]
  rw [nextReadRegExp_token T sp2 r.data rest _ regRegister hsp2 (Or.inr ⟨h2, h3, hend⟩)
    (by rw [registerNames_length r hr]; exact hfit2)]
  simp only [h1]

theorem String_mk_ne_minus (lit : List Char) (h : ∃ c t, lit = c :: t ∧ c ≠ '-' ∧ c ≠ '+') :
    (String.mk lit == "-") = false := by
  obtain ⟨c, t, rfl, hc, _⟩ := h
  simp only [beq_eq_false_iff_ne, ne_eq]
  intro h0
  have := congrArg String.data h0
  simp only [String.data, List.cons.injEq] at this
  exact hc this.1

/-- `nextReadNumber` on a literal: its value when it is at most `2^31 - 1`, the mismatch
error otherwise. -/
theorem nextReadNumber_literal (T : RuneTables) (sp lit rest : List Char) (t : String)
    (v : Nat) (hsp : ∀ c ∈ sp, isAsciiSpace c = true) (hlit : isLiteral lit v)
    (hend : wordEnds rest = true) (hfit : sp.length + lit.length < MaxScanTokenSize) :
    nextReadNumber T ⟨sp ++ (lit ++ rest), t⟩ =
      (if v < 2 ^ 31 then .ok (v : Int)
        else .error (.MismatchError "immediate number" (String.mk lit)),
       ⟨rest, String.mk lit⟩) := by
  obtain ⟨h1, h2, h3⟩ := isLiteral_chars lit v hlit
  have hne : lit ≠ [] := by
    obtain ⟨c, t1, rfl, _⟩ := h1
    simp
  unfold nextReadNumber
  rw [Scan_token T sp lit rest t hsp (Or.inr ⟨hne, h2, hend⟩) hfit]
  simp only [String_mk_ne_minus lit h1, Bool.false_eq_true, if_false, h3, Bool.not_true]
  rw [(ParseInt_literal lit v hlit).1]
  by_cases hv : v < 2 ^ 31
  · simp only [hv, if_true]
  · simp only [hv, if_false]

/-- `nextReadNumber` on a minus sign and a literal: the negated value when the literal is
at most `2^31`, the mismatch error otherwise. -/
theorem nextReadNumber_neg_literal (T : RuneTables) (sp sp2 lit rest : List Char) (t : String)
    (v : Nat) (hsp : ∀ c ∈ sp, isAsciiSpace c = true)
    (hsp2 : ∀ c ∈ sp2, isAsciiSpace c = true) (hlit : isLiteral lit v)
    (hend : wordEnds rest = true) (hfit1 : sp.length + 1 < MaxScanTokenSize)
    (hfit2 : sp2.length + lit.length < MaxScanTokenSize) :
    nextReadNumber T ⟨sp ++ ('-' :: (sp2 ++ (lit ++ rest))), t⟩ =
      (if v ≤ 2 ^ 31 then .ok (-(v : Int))
        else .error (.MismatchError "immediate number" (String.mk lit)),
       ⟨rest, String.mk lit⟩) := by
  obtain ⟨h1, h2, h3⟩ := isLiteral_chars lit v hlit
  have hne : lit ≠ [] := by
    obtain ⟨c, t1, rfl, _⟩ := h1
    simp
  unfold nextReadNumber
  rw [Scan_punct T sp '-' _ t hsp (by decide) hfit1]
  have hm : (String.mk ['-'] == "-") = true := by decide
  simp only [hm, if_true]
  rw [Scan_token T sp2 lit rest _ hsp2 (Or.inr ⟨hne, h2, hend⟩) hfit2]
  simp only [h3, Bool.not_true, Bool.false_eq_true, if_false]
  have hd : ("-" ++ String.mk lit).data = '-' :: lit := by
    simp [String.data_append]
  rw [hd, (ParseInt_literal lit v hlit).2]
  by_cases hv : v ≤ 2 ^ 31
  · simp only [hv, if_true]
  · simp only [hv, if_false]

end Asm

/-! ## Sources that hold one instruction -/

namespace Asm

/-- `Parse` on a source whose first token is a mnemonic and which holds nothing after the
operands of that instruction: the error of the instruction parser, or the encoding of the
one opcode. -/
theorem Parse_one (T : RuneTables) (src : List Char) (sc : Scanner) (handleFunc : instFunc)
    (hscan : Scanner.Scan T (NewScanner src) = (true, sc))
    (hmap : instructionsMap (ToLower T sc.Text) = some handleFunc) :
    (∀ err, (handleFunc T 0 [] sc).1 = .error err → Parse T src = some ([], some err)) ∧
    (∀ op, (handleFunc T 0 [] sc).1 = .ok op →
      (Scanner.Scan T (handleFunc T 0 [] sc).2.2).1 = false →
      Parse T src = some (Parse.phase2 (handleFunc T 0 [] sc).2.1 [op] [])) := by
  have hlen : src.length + 1 = (src.length - 1 + 1) + 1 := by
    cases src with
    | nil =>
      have := Scan_eof T [] "" (by simp) (by decide)
      simp only [NewScanner] at hscan
      rw [this] at hscan
      simp at hscan
    | cons c tl => simp
  constructor
  · intro err herr
    unfold Parse
    rw [hlen]
    unfold Parse.phase1
    simp only [hscan, hmap]
    rcases hh : handleFunc T 0 [] sc with ⟨r, labels1, sc1⟩
    rw [hh] at herr
    simp only at herr
    subst herr
    rfl
  · intro op hop hend
    unfold Parse
    rw [hlen]
    unfold Parse.phase1
    simp only [hscan, hmap]
    rcases hh : handleFunc T 0 [] sc with ⟨r, labels1, sc1⟩
    rw [hh] at hop hend
    simp only at hop hend
    subst hop
    simp only
    unfold Parse.phase1
    rcases hs : Scanner.Scan T sc1 with ⟨b, sc2⟩
    rw [hs] at hend
    simp only at hend
    subst hend
    simp

end Asm

namespace Asm

/-- `irmovl` on ` $LIT, %r`: the opcode with the value of the literal, or the mismatch error
when the literal is above `2^31 - 1`. -/
theorem irmovl_literal (T : RuneTables) (addr : Nat) (labels : labelTable) (t : String)
    (lit : List Char) (v : Nat) (r : String) (hlit : isLiteral lit v) (hr : r ∈ registerNames)
    (hfit : lit.length < MaxScanTokenSize) :
    irmovl T addr labels ⟨' ' :: '$' :: (lit ++ (',' :: ' ' :: '%' :: r.data)), t⟩ =
      if v < 2 ^ 31 then
        (.ok { opcode.new addr 0x30 6 .RegisterImmediate with
                Ra := 8, Var := (v : Int), Rb := registerCode r }, labels, ⟨[], r⟩)
      else
        (.error (.MismatchError "immediate number" (String.mk lit)), labels,
          ⟨',' :: ' ' :: '%' :: r.data, String.mk lit⟩) := by
  have h1 : nextReadToken T ⟨' ' :: '$' :: (lit ++ (',' :: ' ' :: '%' :: r.data)), t⟩ "$" =
      (true, ⟨lit ++ (',' :: ' ' :: '%' :: r.data), "$"⟩) :=
    nextReadToken_punct T [' '] '$' _ t "$" (by decide) (by decide) (by decide)
  have h2 := nextReadNumber_literal T [] lit (',' :: ' ' :: '%' :: r.data) "$" v (by simp) hlit rfl
    (by simpa using hfit)
  have h3 : nextReadToken T ⟨',' :: ' ' :: '%' :: r.data, String.mk lit⟩ "," =
      (true, ⟨' ' :: '%' :: r.data, ","⟩) :=
    nextReadToken_punct T [] ',' _ _ "," (by simp) (by decide) (by decide)
  have h4 : nextReadRegister T ⟨' ' :: '%' :: r.data, ","⟩ = (.ok (registerCode r), ⟨[], r⟩) := by
    have := nextReadRegister_ok T [' '] [] r [] "," (by decide) (by simp) hr rfl (by decide) (by decide)
    simpa using this
  simp only [List.nil_append] at h2
  unfold irmovl nextReadImmediateNumber
  simp only [h1, h2]
  by_cases hv : v < 2 ^ 31
  · simp only [hv, if_true, h3, h4]
    rfl
  · simp only [hv, if_false]

end Asm

namespace Asm

theorem irmovl_neg_literal (T : RuneTables) (addr : Nat) (labels : labelTable) (t : String)
    (lit : List Char) (v : Nat) (r : String) (hlit : isLiteral lit v) (hr : r ∈ registerNames)
    (hfit : lit.length < MaxScanTokenSize) :
    irmovl T addr labels ⟨' ' :: '$' :: '-' :: (lit ++ (',' :: ' ' :: '%' :: r.data)), t⟩ =
      if v ≤ 2 ^ 31 then
        (.ok { opcode.new addr 0x30 6 .RegisterImmediate with
                Ra := 8, Var := -(v : Int), Rb := registerCode r }, labels, ⟨[], r⟩)
      else
        (.error (.MismatchError "immediate number" (String.mk lit)), labels,
          ⟨',' :: ' ' :: '%' :: r.data, String.mk lit⟩) := by
  have h1 : nextReadToken T
      ⟨' ' :: '$' :: '-' :: (lit ++ (',' :: ' ' :: '%' :: r.data)), t⟩ "$" =
      (true, ⟨'-' :: (lit ++ (',' :: ' ' :: '%' :: r.data)), "$"⟩) :=
    nextReadToken_punct T [' '] '$' _ t "$" (by decide) (by decide) (by decide)
  have h2 := nextReadNumber_neg_literal T [] [] lit (',' :: ' ' :: '%' :: r.data) "$" v
    (by simp) (by simp) hlit rfl (by decide) (by simpa using hfit)
  have h3 : nextReadToken T ⟨',' :: ' ' :: '%' :: r.data, String.mk lit⟩ "," =
      (true, ⟨' ' :: '%' :: r.data, ","⟩) :=
    nextReadToken_punct T [] ',' _ _ "," (by simp) (by decide) (by decide)
  have h4 : nextReadRegister T ⟨' ' :: '%' :: r.data, ","⟩ = (.ok (registerCode r), ⟨[], r⟩) := by
    have := nextReadRegister_ok T [' '] [] r [] "," (by decide) (by simp) hr rfl (by decide) (by decide)
    simpa using this
  simp only [List.nil_append] at h2
  unfold irmovl nextReadImmediateNumber
  simp only [h1, h2]
  by_cases hv : v ≤ 2 ^ 31
  · simp only [hv, if_true, h3, h4]
    rfl
  · simp only [hv, if_false]

theorem PutUint32_eq (n : Nat) :
    PutUint32 n = [n % 256, n / 256 % 256, n / 65536 % 256, n / 16777216 % 256] := by
  simp [PutUint32, Nat.shiftRight_eq_div_pow]

theorem uint32_ofNat (v : Nat) (h : v < 2 ^ 32) : uint32 (v : Int) = v := by
  unfold uint32
  omega

theorem uint32_neg (v : Nat) (h : v ≤ 2 ^ 31) : uint32 (-(v : Int)) = (2 ^ 32 - v) % 2 ^ 32 := by
  unfold uint32
  omega

/-- The first token of a source that starts with a mnemonic of lower-case letters. -/
theorem Scan_mnemonic (T : RuneTables) (m rest : List Char)
    (hm : m ≠ [] ∧ ∀ c ∈ m, isAsciiWord c = true) (hrest : wordEnds rest = true)
    (hfit : m.length < MaxScanTokenSize) :
    Scanner.Scan T (NewScanner (m ++ rest)) = (true, ⟨rest, String.mk m⟩) :=
  Scan_token T [] m rest "" (by simp) (Or.inr ⟨hm.1, hm.2, hrest⟩) (by simpa using hfit)

/-- `Parse` of `irmovl $LIT, %r`. -/
theorem Parse_irmovl (T : RuneTables) (lit : List Char) (v : Nat) (r : String)
    (hlit : isLiteral lit v) (hr : r ∈ registerNames) (hfit : lit.length < MaxScanTokenSize) :
    Parse T ("irmovl $".toList ++ lit ++ ", %".toList ++ r.data) =
      if v < 2 ^ 31 then
        some ([0x30, 0x80 ||| registerCode r, v % 256, v / 256 % 256, v / 65536 % 256,
          v / 16777216 % 256], none)
      else some ([], some (.MismatchError "immediate number" (String.mk lit))) := by
  have hsrc : "irmovl $".toList ++ lit ++ ", %".toList ++ r.data =
      "irmovl".toList ++ (' ' :: '$' :: (lit ++ (',' :: ' ' :: '%' :: r.data))) := by
    simp [String.toList]
  rw [hsrc]
  have hscan := Scan_mnemonic T "irmovl".toList
    (' ' :: '$' :: (lit ++ (',' :: ' ' :: '%' :: r.data))) (by decide) rfl (by decide)
  have hmap : instructionsMap (ToLower T (String.mk "irmovl".toList)) = some irmovl := rfl
  obtain ⟨p1, p2⟩ := Parse_one T _ _ irmovl hscan hmap
  have hi := irmovl_literal T 0 [] (String.mk "irmovl".toList) lit v r hlit hr hfit
  by_cases hv : v < 2 ^ 31
  · simp only [hv, if_true] at hi ⊢
    rw [p2 _ (by rw [hi]) (by rw [hi]; simp only; rw [Scan_eof T [] r (by simp) (by decide)])]
    rw [hi]
    simp only [Parse.phase2, encodeFunc.call, encodeRegisterImmediateOpCode, opcode.new,
      List.nil_append]
    rw [uint32_ofNat v (by omega), PutUint32_eq]
    rfl
  · simp only [hv, if_false] at hi ⊢
    exact p1 _ (by rw [hi])

end Asm

namespace Asm

/-- `Parse` of `irmovl $-LIT, %r`. -/
theorem Parse_irmovl_neg (T : RuneTables) (lit : List Char) (v : Nat) (r : String)
    (hlit : isLiteral lit v) (hr : r ∈ registerNames) (hfit : lit.length < MaxScanTokenSize) :
    Parse T ("irmovl $-".toList ++ lit ++ ", %".toList ++ r.data) =
      if v ≤ 2 ^ 31 then
        some ([0x30, 0x80 ||| registerCode r, (2 ^ 32 - v) % 2 ^ 32 % 256,
          (2 ^ 32 - v) % 2 ^ 32 / 256 % 256, (2 ^ 32 - v) % 2 ^ 32 / 65536 % 256,
          (2 ^ 32 - v) % 2 ^ 32 / 16777216 % 256], none)
      else some ([], some (.MismatchError "immediate number" (String.mk lit))) := by
  have hsrc : "irmovl $-".toList ++ lit ++ ", %".toList ++ r.data =
      "irmovl".toList ++ (' ' :: '$' :: '-' :: (lit ++ (',' :: ' ' :: '%' :: r.data))) := by
    simp [String.toList]
  rw [hsrc]
  have hscan := Scan_mnemonic T "irmovl".toList
    (' ' :: '$' :: '-' :: (lit ++ (',' :: ' ' :: '%' :: r.data))) (by decide) rfl (by decide)
  have hmap : instructionsMap (ToLower T (String.mk "irmovl".toList)) = some irmovl := rfl
  obtain ⟨p1, p2⟩ := Parse_one T _ _ irmovl hscan hmap
  have hi := irmovl_neg_literal T 0 [] (String.mk "irmovl".toList) lit v r hlit hr hfit
  by_cases hv : v ≤ 2 ^ 31
  · simp only [hv, if_true] at hi ⊢
    rw [p2 _ (by rw [hi]) (by rw [hi]; simp only; rw [Scan_eof T [] r (by simp) (by decide)])]
    rw [hi]
    simp only [Parse.phase2, encodeFunc.call, encodeRegisterImmediateOpCode, opcode.new,
      List.nil_append]
    rw [uint32_neg v hv, PutUint32_eq]
    rfl
  · simp only [hv, if_false] at hi ⊢
    exact p1 _ (by rw [hi])

end Asm

/-! ## Numbers that the buffer of the scanner does not hold -/

namespace Asm

/-- Leading zeros do not change the number that digits write. -/
theorem digitsWrite_zeros (base : Nat) (hbase : 0 < base) (n : Nat) (ds : List Char) :
    digitsWrite base (List.replicate n '0' ++ ds) 0 = digitsWrite base ds 0 := by
  have h0 : digitOf '0' = some 0 := rfl
  induction n with
  | zero => rfl
  | succ n ih =>
    rw [List.replicate_succ, List.cons_append]
    simp only [digitsWrite, h0, if_pos hbase, Nat.zero_mul, Nat.add_zero]
    exact ih

/-- A hexadecimal literal with any number of leading zeros writes the number of its last
digits. -/
theorem isLiteral_zeros (n : Nat) (ds : List Char) (v : Nat) (hne : ds ≠ [])
    (h : digitsWrite 16 ds 0 = some v) :
    isLiteral ('0' :: 'x' :: (List.replicate n '0' ++ ds)) v :=
  Or.inr (Or.inl ⟨List.replicate n '0' ++ ds, rfl, by simp [hne],
    by rw [digitsWrite_zeros 16 (by decide) n ds]; exact h⟩)

/-- `Parse` of `irmovl $` and a number, with or without a minus sign, that fills the buffer
of the scanner: the scan of the number fails and the mismatch error names no token. -/
theorem Parse_irmovl_long (T : RuneTables) (sign lit rest : List Char)
    (hs : sign = [] ∨ sign = ['-']) (hw : ∀ c ∈ lit, isAsciiWord c = true)
    (hfull : MaxScanTokenSize ≤ lit.length) :
    Parse T ("irmovl $".toList ++ sign ++ lit ++ rest) =
      some ([], some (.MismatchError "immediate number" "")) := by
  have hsrc : "irmovl $".toList ++ sign ++ lit ++ rest =
      "irmovl".toList ++ (' ' :: '$' :: (sign ++ (lit ++ rest))) := by
    simp [String.toList]
  rw [hsrc]
  have hscan := Scan_mnemonic T "irmovl".toList
    (' ' :: '$' :: (sign ++ (lit ++ rest))) (by decide) rfl (by decide)
  have hmap : instructionsMap (ToLower T (String.mk "irmovl".toList)) = some irmovl := rfl
  obtain ⟨p1, _⟩ := Parse_one T _ _ irmovl hscan hmap
  apply p1
  have h1 : nextReadToken T ⟨' ' :: '$' :: (sign ++ (lit ++ rest)), String.mk "irmovl".toList⟩
      "$" = (true, ⟨sign ++ (lit ++ rest), "$"⟩) :=
    nextReadToken_punct T [' '] '$' _ _ "$" (by decide) (by decide) (by decide)
  have h2 := Scan_too_long T [] lit rest
  simp only [List.nil_append, List.length_nil, Nat.zero_add] at h2
  unfold irmovl nextReadImmediateNumber
  simp only [h1]
  unfold nextReadNumber
  rcases hs with rfl | rfl
  · simp only [List.nil_append, h2 _ (by simp) hw hfull]
  · have h3 : Scanner.Scan T ⟨['-'] ++ (lit ++ rest), "$"⟩ = (true, ⟨lit ++ rest, "-"⟩) :=
      Scan_punct T [] '-' _ _ (by simp) (by decide) (by decide)
    have hm : (("-" : String) == "-") = true := by decide
    simp only [h3, hm, if_true, h2 _ (by simp) hw hfull]

/-- The literal `0x0…0` and digits, with `n` zeros, has more than `n` characters. -/
theorem zeros_length (n : Nat) (ds : List Char) :
    n ≤ ('0' :: 'x' :: (List.replicate n '0' ++ ds)).length := by
  simp only [List.length_cons, List.length_append, List.length_replicate]
  omega

end Asm

/-! ## Claims on immediates -/

namespace Asm

/-- C3 (amended): immediate parsing is base-agnostic for the literals that the buffer of the
scanner holds. For every value `v` with `0 ≤ v ≤ 2^31 - 1`, every register `r` and every
literal of fewer than `MaxScanTokenSize` (65536) characters that writes `v` (decimal, or
`0x`, `0b`, `0o` followed by digits, leading zeros allowed after the prefix), `Parse` of
`irmovl $LIT, %r` returns the six bytes `0x30`, `0x80 | code(r)` and the four little-endian
bytes of `v`. -/
theorem immediate_base_agnostic (T : RuneTables) (lit : List Char) (v : Nat) (r : String)
    (hlit : isLiteral lit v) (hv : v ≤ 2 ^ 31 - 1) (hr : r ∈ registerNames)
    (hfit : lit.length < MaxScanTokenSize) :
    Parse T ("irmovl $".toList ++ lit ++ ", %".toList ++ r.data) =
      some ([0x30, 0x80 ||| registerCode r, v % 256, v / 256 % 256, v / 65536 % 256,
        v / 16777216 % 256], none) := by
  rw [Parse_irmovl T lit v r hlit hr hfit, if_pos (by omega)]

/-- The four spellings of `0x12345678` with `%ebx` all give `30 83 78 56 34 12`. -/
theorem immediate_base_agnostic_witness :
    (isLiteral "0x12345678".toList 0x12345678 ∧ isLiteral "305419896".toList 0x12345678 ∧
      isLiteral "0b00010010001101000101011001111000".toList 0x12345678 ∧
      isLiteral "0o2215053170".toList 0x12345678 ∧ 0x12345678 ≤ 2 ^ 31 - 1 ∧
      "ebx" ∈ registerNames ∧
      "0b00010010001101000101011001111000".toList.length < MaxScanTokenSize) ∧
    Parse asciiTables "irmovl $0x12345678, %ebx".toList =
      some ([0x30, 0x83, 0x78, 0x56, 0x34, 0x12], none) ∧
    Parse asciiTables "irmovl $305419896, %ebx".toList =
      some ([0x30, 0x83, 0x78, 0x56, 0x34, 0x12], none) ∧
    Parse asciiTables "irmovl $0b00010010001101000101011001111000, %ebx".toList =
      some ([0x30, 0x83, 0x78, 0x56, 0x34, 0x12], none) ∧
    Parse asciiTables "irmovl $0o2215053170, %ebx".toList =
      some ([0x30, 0x83, 0x78, 0x56, 0x34, 0x12], none) :=
  have h1 : isLiteral "0x12345678".toList 0x12345678 :=
    Or.inr (Or.inl ⟨"12345678".toList, rfl, by decide, by decide⟩)
  have h2 : isLiteral "305419896".toList 0x12345678 :=
    Or.inl ⟨by decide, Or.inr (by decide), by decide⟩
  have h3 : isLiteral "0b00010010001101000101011001111000".toList 0x12345678 :=
    Or.inr (Or.inr (Or.inl ⟨"00010010001101000101011001111000".toList, rfl, by decide,
      by decide⟩))
  have h4 : isLiteral "0o2215053170".toList 0x12345678 :=
    Or.inr (Or.inr (Or.inr ⟨"2215053170".toList, rfl, by decide, by decide⟩))
  ⟨⟨h1, h2, h3, h4, by decide, by decide, by decide⟩,
   immediate_base_agnostic asciiTables _ _ "ebx" h1 (by decide) (by decide) (by decide),
   immediate_base_agnostic asciiTables _ _ "ebx" h2 (by decide) (by decide) (by decide),
   immediate_base_agnostic asciiTables _ _ "ebx" h3 (by decide) (by decide) (by decide),
   immediate_base_agnostic asciiTables _ _ "ebx" h4 (by decide) (by decide) (by decide)⟩

/-- C3 as stated fails: the literal `0x0…01` with 65536 zeros writes the value 1, and
`Parse` of `irmovl $0x0…01, %eax` returns no bytes but the mismatch error of a failed scan
(the number does not fit in the buffer of the scanner). -/
theorem immediate_base_agnostic_counterexample :
    isLiteral ('0' :: 'x' :: (List.replicate 65536 '0' ++ ['1'])) 1 ∧
    Parse asciiTables ("irmovl $".toList ++ ('0' :: 'x' :: (List.replicate 65536 '0' ++ ['1'])) ++
        ", %eax".toList) =
      some ([], some (.MismatchError "immediate number" "")) :=
  have hlit := isLiteral_zeros 65536 ['1'] 1 (by decide) (by decide)
  ⟨hlit, Parse_irmovl_long asciiTables [] _ ", %eax".toList (Or.inl rfl)
    (isLiteral_chars _ _ hlit).2.1 (zeros_length 65536 ['1'])⟩

end Asm

namespace Asm

/-- C4 (amended): negative immediates are encoded in 32-bit two's complement, for the
literals that the buffer of the scanner holds. For every literal of fewer than
`MaxScanTokenSize` (65536) characters that writes a magnitude `m` with `0 ≤ m ≤ 2^31` and
every register `r`, `Parse` of `irmovl $-LIT, %r` succeeds, and after `0x30` and
`0x80 | code(r)` its last four bytes are the little-endian bytes of `(2^32 - m) mod 2^32`. -/
theorem negative_immediate_twos_complement (T : RuneTables) (lit : List Char) (m : Nat)
    (r : String) (hlit : isLiteral lit m) (hm : m ≤ 2 ^ 31) (hr : r ∈ registerNames)
    (hfit : lit.length < MaxScanTokenSize) :
    Parse T ("irmovl $-".toList ++ lit ++ ", %".toList ++ r.data) =
      some ([0x30, 0x80 ||| registerCode r, (2 ^ 32 - m) % 2 ^ 32 % 256,
        (2 ^ 32 - m) % 2 ^ 32 / 256 % 256, (2 ^ 32 - m) % 2 ^ 32 / 65536 % 256,
        (2 ^ 32 - m) % 2 ^ 32 / 16777216 % 256], none) := by
  rw [Parse_irmovl_neg T lit m r hlit hr hfit, if_pos hm]

/-- The source `irmovl $-0x12345678, %ebx` gives `30 83 88 a9 cb ed`. -/
theorem negative_immediate_twos_complement_witness :
    (isLiteral "0x12345678".toList 0x12345678 ∧ 0x12345678 ≤ 2 ^ 31 ∧
      "ebx" ∈ registerNames ∧ "0x12345678".toList.length < MaxScanTokenSize) ∧
    Parse asciiTables "irmovl $-0x12345678, %ebx".toList =
      some ([0x30, 0x83, 0x88, 0xa9, 0xcb, 0xed], none) :=
  have h1 : isLiteral "0x12345678".toList 0x12345678 :=
    Or.inr (Or.inl ⟨"12345678".toList, rfl, by decide, by decide⟩)
  ⟨⟨h1, by decide, by decide, by decide⟩,
   negative_immediate_twos_complement asciiTables _ _ "ebx" h1 (by decide) (by decide)
     (by decide)⟩

/-- C4 as stated fails: the literal `0x0…01` with 65536 zeros writes the magnitude 1, and
`Parse` of `irmovl $-0x0…01, %eax` does not succeed: the scan of the number fails. -/
theorem negative_immediate_counterexample :
    isLiteral ('0' :: 'x' :: (List.replicate 65536 '0' ++ ['1'])) 1 ∧
    Parse asciiTables ("irmovl $-".toList ++
        ('0' :: 'x' :: (List.replicate 65536 '0' ++ ['1'])) ++ ", %eax".toList) =
      some ([], some (.MismatchError "immediate number" "")) :=
  have hlit := isLiteral_zeros 65536 ['1'] 1 (by decide) (by decide)
  ⟨hlit, Parse_irmovl_long asciiTables ['-'] _ ", %eax".toList (Or.inr rfl)
    (isLiteral_chars _ _ hlit).2.1 (zeros_length 65536 ['1'])⟩

/-- C10 (amended): immediates outside the signed 32-bit range are rejected. For every
literal that writes a value `m` and every register `r`, `irmovl $LIT, %r` fails when
`m > 2^31 - 1` and `irmovl $-LIT, %r` fails when `m > 2^31`, both with a `MismatchError`
that expects "immediate number" (it names the literal, or no token when the literal does
not fit in the buffer of the scanner) and without output bytes; the boundary values
`2^31 - 1` and `-2^31` are accepted when the literal has fewer than `MaxScanTokenSize`
(65536) characters. -/
theorem immediate_out_of_range_rejected (T : RuneTables) (lit : List Char) (m : Nat)
    (r : String) (hlit : isLiteral lit m) (hr : r ∈ registerNames) :
    (2 ^ 31 - 1 < m →
      Parse T ("irmovl $".toList ++ lit ++ ", %".toList ++ r.data) =
        some ([], some (.MismatchError "immediate number"
          (if lit.length < MaxScanTokenSize then String.mk lit else "")))) ∧
    (2 ^ 31 < m →
      Parse T ("irmovl $-".toList ++ lit ++ ", %".toList ++ r.data) =
        some ([], some (.MismatchError "immediate number"
          (if lit.length < MaxScanTokenSize then String.mk lit else "")))) ∧
    (lit.length < MaxScanTokenSize → m = 2 ^ 31 - 1 →
      Parse T ("irmovl $".toList ++ lit ++ ", %".toList ++ r.data) =
        some ([0x30, 0x80 ||| registerCode r, 0xff, 0xff, 0xff, 0x7f], none)) ∧
    (lit.length < MaxScanTokenSize → m = 2 ^ 31 →
      Parse T ("irmovl $-".toList ++ lit ++ ", %".toList ++ r.data) =
        some ([0x30, 0x80 ||| registerCode r, 0x00, 0x00, 0x00, 0x80], none)) := by
  have hw := (isLiteral_chars lit m hlit).2.1
  have hl1 := Parse_irmovl_long T [] lit (", %".toList ++ r.data) (Or.inl rfl) hw
  have hl2 := Parse_irmovl_long T ['-'] lit (", %".toList ++ r.data) (Or.inr rfl) hw
  have e1 : "irmovl $".toList ++ [] ++ lit ++ (", %".toList ++ r.data) =
      "irmovl $".toList ++ lit ++ ", %".toList ++ r.data := by simp
  have e2 : "irmovl $".toList ++ ['-'] ++ lit ++ (", %".toList ++ r.data) =
      "irmovl $-".toList ++ lit ++ ", %".toList ++ r.data := by simp [String.toList]
  rw [e1] at hl1
  rw [e2] at hl2
  refine ⟨?_, ?_, ?_, ?_⟩
  · intro h
    by_cases hfit : lit.length < MaxScanTokenSize
    · rw [Parse_irmovl T lit m r hlit hr hfit, if_neg (by omega), if_pos hfit]
    · rw [hl1 (by omega), if_neg hfit]
  · intro h
    by_cases hfit : lit.length < MaxScanTokenSize
    · rw [Parse_irmovl_neg T lit m r hlit hr hfit, if_neg (by omega), if_pos hfit]
    · rw [hl2 (by omega), if_neg hfit]
  · intro hfit h
    rw [Parse_irmovl T lit m r hlit hr hfit, if_pos (by omega)]
    subst h
    rfl
  · intro hfit h
    rw [Parse_irmovl_neg T lit m r hlit hr hfit, if_pos (by omega)]
    subst h
    rfl

/-- The source `irmovl $0x80000000, %eax` fails and `irmovl $-0x80000000, %eax` succeeds. -/
theorem immediate_out_of_range_rejected_witness :
    (isLiteral "0x80000000".toList 0x80000000 ∧ "eax" ∈ registerNames) ∧
    Parse asciiTables "irmovl $0x80000000, %eax".toList =
      some ([], some (.MismatchError "immediate number" "0x80000000")) ∧
    Parse asciiTables "irmovl $-0x80000000, %eax".toList =
      some ([0x30, 0x80, 0x00, 0x00, 0x00, 0x80], none) :=
  have h1 : isLiteral "0x80000000".toList 0x80000000 :=
    Or.inr (Or.inl ⟨"80000000".toList, rfl, by decide, by decide⟩)
  ⟨⟨h1, by decide⟩,
   (immediate_out_of_range_rejected asciiTables _ _ "eax" h1 (by decide)).1 (by decide),
   (immediate_out_of_range_rejected asciiTables _ _ "eax" h1 (by decide)).2.2.2 (by decide)
     (by decide)⟩

/-- C10 as stated fails: the literal `0x0…07fffffff` with 65536 zeros writes the boundary
value `2^31 - 1`, and `Parse` of `irmovl $0x0…07fffffff, %eax` rejects it. -/
theorem immediate_boundary_counterexample :
    isLiteral ('0' :: 'x' :: (List.replicate 65536 '0' ++ "7fffffff".toList)) (2 ^ 31 - 1) ∧
    Parse asciiTables ("irmovl $".toList ++
        ('0' :: 'x' :: (List.replicate 65536 '0' ++ "7fffffff".toList)) ++ ", %eax".toList) =
      some ([], some (.MismatchError "immediate number" "")) :=
  have hlit := isLiteral_zeros 65536 "7fffffff".toList (2 ^ 31 - 1) (by decide) (by decide)
  ⟨hlit, Parse_irmovl_long asciiTables [] _ ", %eax".toList (Or.inl rfl)
    (isLiteral_chars _ _ hlit).2.1 (zeros_length 65536 "7fffffff".toList)⟩

end Asm

/-! ## Claims on register operands -/

namespace Asm

theorem pack_registers : ∀ x < 8, ∀ y < 9, (x <<< 4) % 256 ||| y = 16 * x + y := by decide

/-- The operands ` %a, %b`, read by the two calls of `nextReadRegister` around the comma. -/
theorem read_register_pair (T : RuneTables) (t : String) (a b : String)
    (ha : a ∈ registerNames) (hb : b ∈ registerNames) :
    nextReadRegister T ⟨' ' :: '%' :: (a.data ++ (',' :: ' ' :: '%' :: b.data)), t⟩ =
      (.ok (registerCode a), ⟨',' :: ' ' :: '%' :: b.data, a⟩) ∧
    nextReadToken T ⟨',' :: ' ' :: '%' :: b.data, a⟩ "," = (true, ⟨' ' :: '%' :: b.data, ","⟩) ∧
    nextReadRegister T ⟨' ' :: '%' :: b.data, ","⟩ = (.ok (registerCode b), ⟨[], b⟩) := by
  refine ⟨?_, ?_, ?_⟩
  · have := nextReadRegister_ok T [' '] [] a (',' :: ' ' :: '%' :: b.data) t (by decide)
      (by simp) ha rfl (by decide) (by decide)
    simpa using this
  · exact nextReadToken_punct T [] ',' _ _ "," (by simp) (by decide) (by decide)
  · have := nextReadRegister_ok T [' '] [] b [] "," (by decide) (by simp) hb rfl (by decide) (by decide)
    simpa using this

/-- The operands ` %a %b` without the comma: the token after the first register is `%`. -/
theorem read_register_no_comma (T : RuneTables) (t : String) (a b : String)
    (ha : a ∈ registerNames) :
    nextReadRegister T ⟨' ' :: '%' :: (a.data ++ (' ' :: '%' :: b.data)), t⟩ =
      (.ok (registerCode a), ⟨' ' :: '%' :: b.data, a⟩) ∧
    nextReadToken T ⟨' ' :: '%' :: b.data, a⟩ "," = (false, ⟨b.data, "%"⟩) := by
  refine ⟨?_, ?_⟩
  · have := nextReadRegister_ok T [' '] [] a (' ' :: '%' :: b.data) t (by decide)
      (by simp) ha rfl (by decide) (by decide)
    simpa using this
  · exact nextReadToken_punct T [' '] '%' _ _ "," (by decide) (by decide) (by decide)

/-- `Parse` of `m %a, %b` for the five mnemonics that take two registers. -/
theorem Parse_pair (T : RuneTables) (m : String) (code : Nat) (a b : String)
    (hm : (m, code) ∈ pairOpcode) (ha : a ∈ registerNames) (hb : b ∈ registerNames) :
    Parse T (m.data ++ " %".toList ++ a.data ++ ", %".toList ++ b.data) =
      some ([code, 16 * registerCode a + registerCode b], none) := by
  have hsrc : m.data ++ " %".toList ++ a.data ++ ", %".toList ++ b.data =
      m.data ++ (' ' :: '%' :: (a.data ++ (',' :: ' ' :: '%' :: b.data))) := by
    simp [String.toList]
  rw [hsrc]
  obtain ⟨r1, r2, r3⟩ := read_register_pair T (String.mk m.data) a b ha hb
  have hpack := pack_registers (registerCode a) (registerNames_spec a ha).2.2.2
    (registerCode b) (by have := (registerNames_spec b hb).2.2.2; omega)
  simp only [pairOpcode, List.mem_cons, Prod.mk.injEq, List.mem_singleton, List.not_mem_nil,
    or_false] at hm
  have hword : (m.data ≠ [] ∧ ∀ c ∈ m.data, isAsciiWord c = true) ∧
      m.data.length < MaxScanTokenSize := by
    rcases hm with ⟨rfl, rfl⟩ | ⟨rfl, rfl⟩ | ⟨rfl, rfl⟩ | ⟨rfl, rfl⟩ | ⟨rfl, rfl⟩ <;> decide
  have hscan := Scan_mnemonic T m.data
    (' ' :: '%' :: (a.data ++ (',' :: ' ' :: '%' :: b.data))) hword.1 rfl hword.2
  have hres : ∃ handleFunc, instructionsMap (ToLower T (String.mk m.data)) = some handleFunc ∧
      handleFunc T 0 [] ⟨' ' :: '%' :: (a.data ++ (',' :: ' ' :: '%' :: b.data)),
        String.mk m.data⟩ =
      (.ok { opcode.new 0 code 2 .Register with Ra := registerCode a, Rb := registerCode b },
        [], ⟨[], b⟩) := by
    rcases hm with ⟨rfl, rfl⟩ | ⟨rfl, rfl⟩ | ⟨rfl, rfl⟩ | ⟨rfl, rfl⟩ | ⟨rfl, rfl⟩
    · refine ⟨rrmovl, rfl, ?_⟩
      unfold rrmovl
      simp only [r1, r2, r3]
    all_goals
      refine ⟨opl, rfl, ?_⟩
      unfold opl
      simp only [r1, r2, r3]
      rfl
  obtain ⟨handleFunc, hmap, hi⟩ := hres
  obtain ⟨_, p2⟩ := Parse_one T _ _ handleFunc hscan hmap
  rw [p2 _ (by rw [hi]) (by rw [hi]; simp only; rw [Scan_eof T [] b (by simp) (by decide)]), hi]
  simp only [Parse.phase2, encodeFunc.call, encodeRegisterOpCode, opcode.new,
    List.nil_append, hpack]

end Asm

namespace Asm

/-- `Parse` of `m %a` for `pushl` and `popl`. -/
theorem Parse_stack (T : RuneTables) (m : String) (code : Nat) (a : String)
    (hm : (m, code) ∈ stackOpcode) (ha : a ∈ registerNames) :
    Parse T (m.data ++ " %".toList ++ a.data) =
      some ([code, 16 * registerCode a + 8], none) := by
  have hsrc : m.data ++ " %".toList ++ a.data = m.data ++ (' ' :: '%' :: a.data) := by
    simp [String.toList]
  rw [hsrc]
  have r1 : nextReadRegister T ⟨' ' :: '%' :: a.data, String.mk m.data⟩ =
      (.ok (registerCode a), ⟨[], a⟩) := by
    have := nextReadRegister_ok T [' '] [] a [] (String.mk m.data) (by decide) (by simp) ha rfl (by decide) (by decide)
    simpa using this
  have hpack := pack_registers (registerCode a) (registerNames_spec a ha).2.2.2 8 (by decide)
  simp only [stackOpcode, List.mem_cons, Prod.mk.injEq, List.mem_singleton, List.not_mem_nil,
    or_false] at hm
  have hword : (m.data ≠ [] ∧ ∀ c ∈ m.data, isAsciiWord c = true) ∧
      m.data.length < MaxScanTokenSize := by
    rcases hm with ⟨rfl, rfl⟩ | ⟨rfl, rfl⟩ <;> decide
  have hscan := Scan_mnemonic T m.data (' ' :: '%' :: a.data) hword.1 rfl hword.2
  have hres : instructionsMap (ToLower T (String.mk m.data)) = some stack ∧
      stack T 0 [] ⟨' ' :: '%' :: a.data, String.mk m.data⟩ =
      (.ok { opcode.new 0 code 2 .Register with Ra := registerCode a, Rb := 8 },
        [], ⟨[], a⟩) := by
    rcases hm with ⟨rfl, rfl⟩ | ⟨rfl, rfl⟩
    all_goals
      refine ⟨rfl, ?_⟩
      unfold stack
      simp only [r1]
      rfl
  obtain ⟨hmap, hi⟩ := hres
  obtain ⟨_, p2⟩ := Parse_one T _ _ stack hscan hmap
  rw [p2 _ (by rw [hi]) (by rw [hi]; simp only; rw [Scan_eof T [] a (by simp) (by decide)]), hi]
  simp only [Parse.phase2, encodeFunc.call, encodeRegisterOpCode, opcode.new,
    List.nil_append, hpack]

/-- `Parse` of `m %a %b`, the comma missing, for the five mnemonics that take two
registers. -/
theorem Parse_pair_no_comma (T : RuneTables) (m : String) (code : Nat) (a b : String)
    (hm : (m, code) ∈ pairOpcode) (ha : a ∈ registerNames) :
    Parse T (m.data ++ " %".toList ++ a.data ++ " %".toList ++ b.data) =
      some ([], some (.MismatchError "','" "%")) := by
  have hsrc : m.data ++ " %".toList ++ a.data ++ " %".toList ++ b.data =
      m.data ++ (' ' :: '%' :: (a.data ++ (' ' :: '%' :: b.data))) := by
    simp [String.toList]
  rw [hsrc]
  obtain ⟨r1, r2⟩ := read_register_no_comma T (String.mk m.data) a b ha
  simp only [pairOpcode, List.mem_cons, Prod.mk.injEq, List.mem_singleton, List.not_mem_nil,
    or_false] at hm
  have hword : (m.data ≠ [] ∧ ∀ c ∈ m.data, isAsciiWord c = true) ∧
      m.data.length < MaxScanTokenSize := by
    rcases hm with ⟨rfl, rfl⟩ | ⟨rfl, rfl⟩ | ⟨rfl, rfl⟩ | ⟨rfl, rfl⟩ | ⟨rfl, rfl⟩ <;> decide
  have hscan := Scan_mnemonic T m.data
    (' ' :: '%' :: (a.data ++ (' ' :: '%' :: b.data))) hword.1 rfl hword.2
  have hres : ∃ handleFunc, instructionsMap (ToLower T (String.mk m.data)) = some handleFunc ∧
      (handleFunc T 0 [] ⟨' ' :: '%' :: (a.data ++ (' ' :: '%' :: b.data)),
        String.mk m.data⟩).1 = .error (.MismatchError "','" "%") := by
    rcases hm with ⟨rfl, rfl⟩ | ⟨rfl, rfl⟩ | ⟨rfl, rfl⟩ | ⟨rfl, rfl⟩ | ⟨rfl, rfl⟩
    · refine ⟨rrmovl, rfl, ?_⟩
      unfold rrmovl
      simp only [r1, r2]
    all_goals
      refine ⟨opl, rfl, ?_⟩
      unfold opl
      simp only [r1, r2]
  obtain ⟨handleFunc, hmap, hi⟩ := hres
  exact (Parse_one T _ _ handleFunc hscan hmap).1 _ hi

/-- C5: register-pair encoding. For `rrmovl`, `addl`, `subl`, `andl`, `xorl` (opcode bytes
`0x20`, `0x60`, `0x61`, `0x62`, `0x63`) and all register names `a`, `b`, `Parse` of
`m %a, %b` returns exactly `[opcode(m), 16*code(a) + code(b)]`; for `pushl` and `popl`
(opcode bytes `0xa0`, `0xb0`), `Parse` of `m %a` returns exactly
`[opcode(m), 16*code(a) + 8]`. The codes are `eax=0, ecx=1, edx=2, ebx=3, esp=4, ebp=5,
esi=6, edi=7`. -/
theorem register_pair_encoding (T : RuneTables) (a b : String)
    (ha : a ∈ registerNames) (hb : b ∈ registerNames) :
    (∀ m code, (m, code) ∈ pairOpcode →
      Parse T (m.data ++ " %".toList ++ a.data ++ ", %".toList ++ b.data) =
        some ([code, 16 * registerCode a + registerCode b], none)) ∧
    (∀ m code, (m, code) ∈ stackOpcode →
      Parse T (m.data ++ " %".toList ++ a.data) =
        some ([code, 16 * registerCode a + 8], none)) ∧
    registerNames.map registerCode = [0, 1, 2, 3, 4, 5, 6, 7] :=
  ⟨fun m code hm => Parse_pair T m code a b hm ha hb,
   fun m code hm => Parse_stack T m code a hm ha, by decide⟩

/-- The sources `rrmovl %eax, %ebx` and `pushl %ebx`. -/
theorem register_pair_encoding_witness :
    ("eax" ∈ registerNames ∧ "ebx" ∈ registerNames) ∧
    Parse asciiTables "rrmovl %eax, %ebx".toList = some ([0x20, 0x03], none) ∧
    Parse asciiTables "pushl %ebx".toList = some ([0xa0, 0x38], none) :=
  ⟨⟨by decide, by decide⟩,
   (register_pair_encoding asciiTables "eax" "ebx" (by decide) (by decide)).1
     "rrmovl" 0x20 (by decide),
   (register_pair_encoding asciiTables "ebx" "ebx" (by decide) (by decide)).2.1
     "pushl" 0xa0 (by decide)⟩

/-- C9: a missing comma is a grammar mismatch that names the comma. For `rrmovl`, `addl`,
`subl`, `andl`, `xorl` and all register names `a`, `b`, `Parse` of `m %a %b` returns no
bytes and a `MismatchError` whose `Expect` is `','` and whose `Actual` is the token found
in the place of the comma, `%`. -/
theorem missing_comma_mismatch (T : RuneTables) (m : String) (code : Nat) (a b : String)
    (hm : (m, code) ∈ pairOpcode) (ha : a ∈ registerNames) (_hb : b ∈ registerNames) :
    Parse T (m.data ++ " %".toList ++ a.data ++ " %".toList ++ b.data) =
      some ([], some (.MismatchError "','" "%")) :=
  Parse_pair_no_comma T m code a b hm ha

/-- The source `rrmovl %eax %ebx`. -/
theorem missing_comma_mismatch_witness :
    (("rrmovl", 0x20) ∈ pairOpcode ∧ "eax" ∈ registerNames ∧ "ebx" ∈ registerNames) ∧
    Parse asciiTables "rrmovl %eax %ebx".toList =
      some ([], some (.MismatchError "','" "%")) :=
  ⟨⟨by decide, by decide, by decide⟩,
   missing_comma_mismatch asciiTables "rrmovl" 0x20 "eax" "ebx" (by decide) (by decide)
     (by decide)⟩

end Asm

/-! ## Claims on memory moves -/

namespace Asm

/-- `nextReadNumber` on a number operand in the signed 32-bit range. -/
theorem nextReadNumber_number (T : RuneTables) (sp txt rest : List Char) (t : String)
    (d : Int) (hsp : ∀ c ∈ sp, isAsciiSpace c = true) (hd : isNumber txt d)
    (hend : wordEnds rest = true) (hfit : sp.length + txt.length < MaxScanTokenSize) :
    ∃ t1, nextReadNumber T ⟨sp ++ (txt ++ rest), t⟩ = (.ok d, ⟨rest, t1⟩) := by
  rcases hd with ⟨v, hlit, hv, rfl⟩ | ⟨lit, v, rfl, hlit, hv, rfl⟩
  · refine ⟨String.mk txt, ?_⟩
    rw [nextReadNumber_literal T sp txt rest t v hsp hlit hend hfit, if_pos hv]
  · refine ⟨String.mk lit, ?_⟩
    simp only [List.length_cons] at hfit
    have := nextReadNumber_neg_literal T sp [] lit rest t v hsp (by simp) hlit hend
      (by omega) (by simp only [List.length_nil]; omega)
    simp only [List.nil_append, if_pos hv] at this
    exact this

/-- `rmmvol` on ` %a, D(%b)`. -/
theorem rmmvol_ok (T : RuneTables) (addr : Nat) (labels : labelTable) (t : String)
    (a b : String) (D : List Char) (d : Int) (ha : a ∈ registerNames)
    (hb : b ∈ registerNames) (hD : isNumber D d) (hfit : D.length + 1 < MaxScanTokenSize) :
    rmmvol T addr labels
      ⟨' ' :: '%' :: (a.data ++ (',' :: ' ' :: (D ++ ('(' :: '%' :: (b.data ++ [')']))))), t⟩ =
      (.ok { opcode.new addr 0x40 6 .RegisterImmediate with
              Ra := registerCode a, Var := d, Rb := registerCode b }, labels, ⟨[], ")"⟩) := by
  have r1 : nextReadRegister T
      ⟨' ' :: '%' :: (a.data ++ (',' :: ' ' :: (D ++ ('(' :: '%' :: (b.data ++ [')']))))), t⟩ =
      (.ok (registerCode a), ⟨',' :: ' ' :: (D ++ ('(' :: '%' :: (b.data ++ [')']))), a⟩) := by
    have := nextReadRegister_ok T [' '] [] a
      (',' :: ' ' :: (D ++ ('(' :: '%' :: (b.data ++ [')'])))) t (by decide) (by simp) ha rfl
      (by decide) (by decide)
    simpa using this
  have r2 : nextReadToken T ⟨',' :: ' ' :: (D ++ ('(' :: '%' :: (b.data ++ [')']))), a⟩ "," =
      (true, ⟨' ' :: (D ++ ('(' :: '%' :: (b.data ++ [')']))), ","⟩) :=
    nextReadToken_punct T [] ',' _ _ "," (by simp) (by decide) (by decide)
  obtain ⟨t1, r3⟩ := nextReadNumber_number T [' '] D ('(' :: '%' :: (b.data ++ [')'])) ","
    d (by decide) hD rfl (by simp only [List.length_singleton]; omega)
  have r4 : nextReadToken T ⟨'(' :: '%' :: (b.data ++ [')']), t1⟩ "(" =
      (true, ⟨'%' :: (b.data ++ [')']), "("⟩) :=
    nextReadToken_punct T [] '(' _ _ "(" (by simp) (by decide) (by decide)
  have r5 : nextReadRegister T ⟨'%' :: (b.data ++ [')']), "("⟩ =
      (.ok (registerCode b), ⟨[')'], b⟩) := by
    have := nextReadRegister_ok T [] [] b [')'] "(" (by simp) (by simp) hb rfl (by decide) (by decide)
    simpa using this
  have r6 : nextReadToken T ⟨[')'], b⟩ ")" = (true, ⟨[], ")"⟩) :=
    nextReadToken_punct T [] ')' _ _ ")" (by simp) (by decide) (by decide)
  simp only [List.singleton_append, List.cons_append, List.nil_append] at r3
  unfold rmmvol
  simp only [r1, r2, r3, r4, r5, r6]

/-- `mrmovl` on ` D(%b), %a`. -/
theorem mrmovl_ok (T : RuneTables) (addr : Nat) (labels : labelTable) (t : String)
    (a b : String) (D : List Char) (d : Int) (ha : a ∈ registerNames)
    (hb : b ∈ registerNames) (hD : isNumber D d) (hfit : D.length + 1 < MaxScanTokenSize) :
    mrmovl T addr labels
      ⟨' ' :: (D ++ ('(' :: '%' :: (b.data ++ (')' :: ',' :: ' ' :: '%' :: a.data)))), t⟩ =
      (.ok { opcode.new addr 0x50 6 .RegisterImmediate with
              Var := d, Rb := registerCode b, Ra := registerCode a }, labels, ⟨[], a⟩) := by
  obtain ⟨t1, r1⟩ := nextReadNumber_number T [' '] D
    ('(' :: '%' :: (b.data ++ (')' :: ',' :: ' ' :: '%' :: a.data))) t d (by decide) hD rfl
    (by simp only [List.length_singleton]; omega)
  have r2 : nextReadToken T
      ⟨'(' :: '%' :: (b.data ++ (')' :: ',' :: ' ' :: '%' :: a.data)), t1⟩ "(" =
      (true, ⟨'%' :: (b.data ++ (')' :: ',' :: ' ' :: '%' :: a.data)), "("⟩) :=
    nextReadToken_punct T [] '(' _ _ "(" (by simp) (by decide) (by decide)
  have r3 : nextReadRegister T ⟨'%' :: (b.data ++ (')' :: ',' :: ' ' :: '%' :: a.data)), "("⟩ =
      (.ok (registerCode b), ⟨')' :: ',' :: ' ' :: '%' :: a.data, b⟩) := by
    have := nextReadRegister_ok T [] [] b (')' :: ',' :: ' ' :: '%' :: a.data) "("
      (by simp) (by simp) hb rfl (by decide) (by decide)
    simpa using this
  have r4 : nextReadToken T ⟨')' :: ',' :: ' ' :: '%' :: a.data, b⟩ ")" =
      (true, ⟨',' :: ' ' :: '%' :: a.data, ")"⟩) :=
    nextReadToken_punct T [] ')' _ _ ")" (by simp) (by decide) (by decide)
  have r5 : nextReadToken T ⟨',' :: ' ' :: '%' :: a.data, ")"⟩ "," =
      (true, ⟨' ' :: '%' :: a.data, ","⟩) :=
    nextReadToken_punct T [] ',' _ _ "," (by simp) (by decide) (by decide)
  have r6 : nextReadRegister T ⟨' ' :: '%' :: a.data, ","⟩ =
      (.ok (registerCode a), ⟨[], a⟩) := by
    have := nextReadRegister_ok T [' '] [] a [] "," (by decide) (by simp) ha rfl (by decide) (by decide)
    simpa using this
  simp only [List.singleton_append, List.cons_append, List.nil_append] at r1
  unfold mrmovl
  simp only [r1, r2, r3, r4, r5, r6]

end Asm

namespace Asm

/-- C6 (amended): memory moves keep the operand roles of the grammar. For every displacement
`D` of fewer than 65535 characters (with the space before it the buffer of the scanner holds
it) that denotes a value `d` in the signed 32-bit range and all registers `a`, `b`, `Parse` of
`rmmvol %a, D(%b)` returns `0x40`, `16*code(a) + code(b)` and the four little-endian bytes
of `d mod 2^32`, and `Parse` of `mrmovl D(%b), %a` returns `0x50`, `16*code(a) + code(b)`
and the same four bytes: the register inside the parentheses is `regB` (low nibble), the
other one is `regA` (high nibble). -/
theorem memory_move_encoding (T : RuneTables) (a b : String) (D : List Char) (d : Int)
    (ha : a ∈ registerNames) (hb : b ∈ registerNames) (hD : isNumber D d)
    (hfit : D.length + 1 < MaxScanTokenSize) :
    Parse T ("rmmvol %".toList ++ a.data ++ ", ".toList ++ D ++ "(%".toList ++ b.data ++
        ")".toList) =
      some ([0x40, 16 * registerCode a + registerCode b, (d % 2 ^ 32).toNat % 256,
        (d % 2 ^ 32).toNat / 256 % 256, (d % 2 ^ 32).toNat / 65536 % 256,
        (d % 2 ^ 32).toNat / 16777216 % 256], none) ∧
    Parse T ("mrmovl ".toList ++ D ++ "(%".toList ++ b.data ++ "), %".toList ++ a.data) =
      some ([0x50, 16 * registerCode a + registerCode b, (d % 2 ^ 32).toNat % 256,
        (d % 2 ^ 32).toNat / 256 % 256, (d % 2 ^ 32).toNat / 65536 % 256,
        (d % 2 ^ 32).toNat / 16777216 % 256], none) := by
  have hpack := pack_registers (registerCode a) (registerNames_spec a ha).2.2.2
    (registerCode b) (by have := (registerNames_spec b hb).2.2.2; omega)
  constructor
  · have hsrc : "rmmvol %".toList ++ a.data ++ ", ".toList ++ D ++ "(%".toList ++ b.data ++
        ")".toList = "rmmvol".toList ++
        (' ' :: '%' :: (a.data ++ (',' :: ' ' :: (D ++ ('(' :: '%' :: (b.data ++ [')'])))))) := by
      simp [String.toList]
    rw [hsrc]
    have hscan := Scan_mnemonic T "rmmvol".toList
      (' ' :: '%' :: (a.data ++ (',' :: ' ' :: (D ++ ('(' :: '%' :: (b.data ++ [')']))))))
      (by decide) rfl (by decide)
    obtain ⟨_, p2⟩ := Parse_one T _ _ rmmvol hscan rfl
    have hi := rmmvol_ok T 0 [] (String.mk "rmmvol".toList) a b D d ha hb hD hfit
    rw [p2 _ (by rw [hi]) (by rw [hi]; simp only; rw [Scan_eof T [] _ (by simp) (by decide)]), hi]
    simp only [Parse.phase2, encodeFunc.call, encodeRegisterImmediateOpCode, opcode.new,
      List.nil_append, hpack, PutUint32_eq, uint32]
    rfl
  · have hsrc : "mrmovl ".toList ++ D ++ "(%".toList ++ b.data ++ "), %".toList ++ a.data =
        "mrmovl".toList ++
        (' ' :: (D ++ ('(' :: '%' :: (b.data ++ (')' :: ',' :: ' ' :: '%' :: a.data))))) := by
      simp [String.toList]
    rw [hsrc]
    have hscan := Scan_mnemonic T "mrmovl".toList
      (' ' :: (D ++ ('(' :: '%' :: (b.data ++ (')' :: ',' :: ' ' :: '%' :: a.data)))))
      (by decide) rfl (by decide)
    obtain ⟨_, p2⟩ := Parse_one T _ _ mrmovl hscan rfl
    have hi := mrmovl_ok T 0 [] (String.mk "mrmovl".toList) a b D d ha hb hD hfit
    rw [p2 _ (by rw [hi]) (by rw [hi]; simp only; rw [Scan_eof T [] _ (by simp) (by decide)]), hi]
    simp only [Parse.phase2, encodeFunc.call, encodeRegisterImmediateOpCode, opcode.new,
      List.nil_append, hpack, PutUint32_eq, uint32]
    rfl

/-- The sources `rmmvol %eax, 0x12345678(%ebx)` and `mrmovl 0x12345678(%eax), %ebx`. -/
theorem memory_move_encoding_witness :
    ("eax" ∈ registerNames ∧ "ebx" ∈ registerNames ∧
      isNumber "0x12345678".toList 0x12345678 ∧
      "0x12345678".toList.length + 1 < MaxScanTokenSize) ∧
    Parse asciiTables "rmmvol %eax, 0x12345678(%ebx)".toList =
      some ([0x40, 0x03, 0x78, 0x56, 0x34, 0x12], none) ∧
    Parse asciiTables "mrmovl 0x12345678(%eax), %ebx".toList =
      some ([0x50, 0x30, 0x78, 0x56, 0x34, 0x12], none) :=
  have h1 : isNumber "0x12345678".toList 0x12345678 :=
    Or.inl ⟨0x12345678, Or.inr (Or.inl ⟨"12345678".toList, rfl, by decide, by decide⟩),
      by decide, rfl⟩
  ⟨⟨by decide, by decide, h1, by decide⟩,
   (memory_move_encoding asciiTables "eax" "ebx" _ _ (by decide) (by decide) h1
     (by decide)).1,
   (memory_move_encoding asciiTables "ebx" "eax" _ _ (by decide) (by decide) h1
     (by decide)).2⟩

theorem zeros_length_succ (n : Nat) (ds : List Char) :
    n ≤ ('0' :: 'x' :: (List.replicate n '0' ++ ds)).length + 1 :=
  Nat.le_succ_of_le (zeros_length n ds)

/-- `Parse` of `rmmvol %a, D…` with a displacement that, with the space before it, fills the
buffer of the scanner: the scan of the displacement fails and the mismatch error names no
token. -/
theorem Parse_rmmvol_long (T : RuneTables) (a : String) (D rest : List Char)
    (ha : a ∈ registerNames) (hw : ∀ c ∈ D, isAsciiWord c = true)
    (hfull : MaxScanTokenSize ≤ D.length + 1) :
    Parse T ("rmmvol %".toList ++ a.data ++ ", ".toList ++ D ++ rest) =
      some ([], some (.MismatchError "immediate number" "")) := by
  have hsrc : "rmmvol %".toList ++ a.data ++ ", ".toList ++ D ++ rest =
      "rmmvol".toList ++ (' ' :: '%' :: (a.data ++ (',' :: ' ' :: (D ++ rest)))) := by
    simp [String.toList]
  rw [hsrc]
  have hscan := Scan_mnemonic T "rmmvol".toList
    (' ' :: '%' :: (a.data ++ (',' :: ' ' :: (D ++ rest)))) (by decide) rfl (by decide)
  obtain ⟨p1, _⟩ := Parse_one T _ _ rmmvol hscan rfl
  apply p1
  have r1 : nextReadRegister T
      ⟨' ' :: '%' :: (a.data ++ (',' :: ' ' :: (D ++ rest))), String.mk "rmmvol".toList⟩ =
      (.ok (registerCode a), ⟨',' :: ' ' :: (D ++ rest), a⟩) := by
    have := nextReadRegister_ok T [' '] [] a (',' :: ' ' :: (D ++ rest))
      (String.mk "rmmvol".toList) (by decide) (by simp) ha rfl (by decide) (by decide)
    simpa using this
  have r2 : nextReadToken T ⟨',' :: ' ' :: (D ++ rest), a⟩ "," =
      (true, ⟨' ' :: (D ++ rest), ","⟩) :=
    nextReadToken_punct T [] ',' _ _ "," (by simp) (by decide) (by decide)
  have r3 : Scanner.Scan T ⟨' ' :: (D ++ rest), ","⟩ = (false, ⟨[], ""⟩) :=
    Scan_too_long T [' '] D rest "," (by decide) hw
      (by simp only [List.length_singleton]; omega)
  unfold rmmvol
  simp only [r1, r2]
  unfold nextReadNumber
  simp only [r3]

/-- C6 as stated fails: the displacement `0x0…01` with 65536 zeros denotes 1, and `Parse` of
`rmmvol %eax, 0x0…01(%ebx)` returns no bytes but the mismatch error of a failed scan. -/
theorem memory_move_counterexample :
    isNumber ('0' :: 'x' :: (List.replicate 65536 '0' ++ ['1'])) 1 ∧
    Parse asciiTables ("rmmvol %".toList ++ "eax".data ++ ", ".toList ++
        ('0' :: 'x' :: (List.replicate 65536 '0' ++ ['1'])) ++ "(%ebx)".toList) =
      some ([], some (.MismatchError "immediate number" "")) :=
  have hlit := isLiteral_zeros 65536 ['1'] 1 (by decide) (by decide)
  ⟨Or.inl ⟨1, hlit, by decide, rfl⟩,
   Parse_rmmvol_long asciiTables "eax" _ "(%ebx)".toList (by decide)
    (isLiteral_chars _ _ hlit).2.1 (zeros_length_succ 65536 ['1'])⟩

end Asm

/-! ## Claims on sizes and on redefined labels -/

namespace Asm

/-- C19, as the code has it: every opcode returned by an instruction parser has a size of
1, 2, 5 or 6 bytes (5 for the branch-shaped instructions), and that size is fixed by the
mnemonic alone, whatever the operands parsed. -/
theorem opcode_size_by_mnemonic (name : String) (handleFunc : instFunc)
    (hmap : instructionsMap name = some handleFunc) :
    ∃ size, mnemonicSize.lookup name = some size ∧
      (size = 1 ∨ size = 2 ∨ size = 5 ∨ size = 6) ∧
      ∀ (T : RuneTables) (address : Nat) (labels : labelTable) (scanner : Scanner)
        (op : opcode), (handleFunc T address labels scanner).1 = .ok op → op.Size = size := by
  unfold instructionsMap at hmap
  split at hmap <;> cases hmap
  all_goals
    refine ⟨_, rfl, by decide, ?_⟩
    intro T address labels scanner op h
    simp only [nop, halt, rrmovl, irmovl, rmmvol, mrmovl, opl, branch, ret, stack] at h
    repeat' split at h
    all_goals
      simp only [Except.ok.injEq, reduceCtorEq] at h
    all_goals
      subst h
      rfl

/-- The parser of `jmp` and the parser of `irmovl`. -/
theorem opcode_size_by_mnemonic_witness :
    instructionsMap "jmp" = some branch ∧
    ∃ size, mnemonicSize.lookup "jmp" = some size ∧
      (size = 1 ∨ size = 2 ∨ size = 5 ∨ size = 6) ∧
      ∀ (T : RuneTables) (address : Nat) (labels : labelTable) (scanner : Scanner)
        (op : opcode), (branch T address labels scanner).1 = .ok op → op.Size = size :=
  ⟨rfl, opcode_size_by_mnemonic "jmp" branch rfl⟩

/-- C19 as stated fails: the parser of `jmp` returns an opcode of size 5, which is none of
1, 2 and 6. -/
theorem opcode_size_counterexample :
    ∃ handleFunc op, instructionsMap "jmp" = some handleFunc ∧
      (handleFunc asciiTables 0 [] ⟨" loop".toList, "jmp"⟩).1 = .ok op ∧
      op.Size = 5 ∧ ¬(op.Size = 1 ∨ op.Size = 2 ∨ op.Size = 6) :=
  ⟨branch, ⟨0, 0x70, 5, 0, 0, 0, "loop", .Branching⟩, rfl, by decide!, by decide, by decide⟩

end Asm

namespace Asm

theorem last_occurrence_unique {α : Type} (x : α) (a b a1 b1 : List α)
    (h : a ++ x :: b = a1 ++ x :: b1) (hb : x ∉ b) (hb1 : x ∉ b1) : a = a1 := by
  induction a generalizing a1 with
  | nil =>
    cases a1 with
    | nil => rfl
    | cons y a1 =>
      simp only [List.nil_append, List.cons_append, List.cons.injEq] at h
      exact absurd (by rw [h.2]; simp) hb
  | cons z a ih =>
    cases a1 with
    | nil =>
      simp only [List.nil_append, List.cons_append, List.cons.injEq] at h
      exact absurd (by rw [← h.2]; simp) hb1
    | cons y a1 =>
      simp only [List.cons_append, List.cons.injEq] at h
      rw [h.1, ih a1 h.2]

/-- C18 (amended): redefining a label silently overwrites its address. When `Parse` succeeds
on a source from which it reads more than one definition of the label `L`, every branch or
call to `L` that it reads, wherever it stands among the instructions, is encoded with the
address of the last definition of `L` read, in source order: the sum of the sizes of the
instructions before it. What `Parse` reads (`sourceItems`) ends with the source, or where
white space, or white space and a word, fill the buffer of the scanner. -/
theorem redefinition_last_wins (T : RuneTables) (src : List Char) (bytes : List Nat)
    (h : Parse T src = some (bytes, none)) (L : String) (d1 d2 d3 : List Item)
    (hdefs : sourceItems T src = d1 ++ Item.label L :: (d2 ++ Item.label L :: d3))
    (hlast : Item.label L ∉ d3)
    (pre post : List Item) (m : String) (op : opcode) (code : Nat)
    (hitems : sourceItems T src = pre ++ Item.inst m op :: post)
    (hm : branchOpcode.lookup (ToLower T m) = some code) (hL : op.Label = L) :
    ∃ before after,
      bytes = before ++
        (code :: PutUint32 (uint32 (itemsSize (d1 ++ Item.label L :: d2) : Int))) ++ after ∧
      before.length = itemsSize pre := by
  obtain ⟨pre1, post1, e1, e2, before, after, e3, e4⟩ :=
    branch_bytes_at_offset T src bytes h pre post m op code hitems hm
  rw [hL] at e1 e2
  have hd : sourceItems T src = (d1 ++ Item.label L :: d2) ++ Item.label L :: d3 := by
    rw [hdefs]; simp
  have hpre : pre1 = d1 ++ Item.label L :: d2 :=
    last_occurrence_unique _ _ _ _ _ (e1.symm.trans hd) e2 hlast
  rw [hpre] at e3
  exact ⟨before, after, e3, e4⟩

/-- The source `a: nop a: jmp a` gives `00 70 01 00 00 00`: the jump goes to the second
definition of `a`, at address 1. -/
theorem redefinition_last_wins_witness :
    (Parse asciiTables "a: nop a: jmp a".toList = some ([0x00, 0x70, 0x01, 0, 0, 0], none) ∧
      sourceItems asciiTables "a: nop a: jmp a".toList =
        [] ++ Item.label "a" :: ([Item.inst "nop" ⟨0, 0, 1, 0, 0, 0, "", .Simple⟩] ++
          Item.label "a" :: [Item.inst "jmp" ⟨1, 0x70, 5, 0, 0, 0, "a", .Branching⟩]) ∧
      Item.label "a" ∉ [Item.inst "jmp" ⟨1, 0x70, 5, 0, 0, 0, "a", .Branching⟩]) ∧
    ∃ before after,
      [0x00, 0x70, 0x01, 0, 0, 0] = before ++
        (0x70 :: PutUint32 (uint32 (itemsSize ([] ++ Item.label "a" ::
          [Item.inst "nop" ⟨0, 0, 1, 0, 0, 0, "", .Simple⟩]) : Int))) ++ after ∧
      before.length = itemsSize [Item.label "a", Item.inst "nop" ⟨0, 0, 1, 0, 0, 0, "", .Simple⟩,
        Item.label "a"] :=
  ⟨⟨by decide!, by decide!, by decide⟩,
   redefinition_last_wins asciiTables "a: nop a: jmp a".toList [0x00, 0x70, 0x01, 0, 0, 0]
     (by decide!) "a" [] [Item.inst "nop" ⟨0, 0, 1, 0, 0, 0, "", .Simple⟩]
     [Item.inst "jmp" ⟨1, 0x70, 5, 0, 0, 0, "a", .Branching⟩] (by decide!) (by decide)
     [Item.label "a", Item.inst "nop" ⟨0, 0, 1, 0, 0, 0, "", .Simple⟩, Item.label "a"] []
     "jmp" ⟨1, 0x70, 5, 0, 0, 0, "a", .Branching⟩ 0x70 (by decide!) (by decide!) rfl⟩

end Asm

/-! ## Claim on the base of a literal -/

namespace Asm

theorem digitOf_octal (c : Char) (d : Nat) (h : digitOf c = some d) (hd : d < 8) :
    (lower c.toNat == 98) = false ∧ (lower c.toNat == 111) = false ∧
    (lower c.toNat == 120) = false ∧ c ≠ '-' ∧ c ≠ '+' := by
  unfold digitOf at h
  split at h <;> simp only [Option.some.injEq, reduceCtorEq] at h <;> subst h <;>
    first | decide | omega

theorem isHexRune_digitOf (c : Char) (h : isHexRune c = true) : ∃ d, digitOf c = some d := by
  have hc : c = Char.ofNat c.toNat := (Char.ofNat_toNat c).symm
  unfold isHexRune at h
  simp only [Bool.or_eq_true, Bool.and_eq_true, decide_eq_true_eq] at h
  generalize c.toNat = n at hc h
  subst hc
  have h1 : 48 ≤ n := by omega
  have h2 : n ≤ 102 := by omega
  interval_cases n <;> first | (exact ⟨_, rfl⟩) | omega

theorem digitsWrite_none (base : Nat) (ds : List Char) (n : Nat)
    (h : digitsWrite base ds n = none) :
    ∃ c ∈ ds, ∀ d, digitOf c = some d → base ≤ d := by
  induction ds generalizing n with
  | nil => simp [digitsWrite] at h
  | cons c ds ih =>
    unfold digitsWrite at h
    split at h
    · rename_i d hd
      split at h
      · obtain ⟨c1, h1, h2⟩ := ih _ h
        exact ⟨c1, List.mem_cons_of_mem _ h1, h2⟩
      · refine ⟨c, List.mem_cons_self _ _, ?_⟩
        intro d1 hd1
        rw [hd] at hd1
        simp only [Option.some.injEq] at hd1
        omega
    · rename_i hd
      refine ⟨c, List.mem_cons_self _ _, ?_⟩
      intro d1 hd1
      rw [hd] at hd1
      simp at hd1

/-- The digit loop of `ParseUint` fails on hexadecimal characters one of which is not a
digit of the base. -/
theorem ParseUint.loop_fails (base cutoff maxVal : Nat) (ds : List Char) (n : Nat)
    (hhex : ∀ c ∈ ds, isHexRune c = true)
    (hbad : ∃ c ∈ ds, ∀ d, digitOf c = some d → base ≤ d) :
    ParseUint.loop base cutoff maxVal ds n false = .error (0, .ErrSyntax) ∨
    ParseUint.loop base cutoff maxVal ds n false = .error (maxVal, .ErrRange) := by
  induction ds generalizing n with
  | nil => simp at hbad
  | cons c ds ih =>
    obtain ⟨d, hd⟩ := isHexRune_digitOf c (hhex c (List.mem_cons_self _ _))
    obtain ⟨h1, _, _, _, _, h6⟩ := digitOf_spec c d hd
    have hc : (c == '_') = false := by simpa using h1
    unfold ParseUint.loop
    simp only [hc, Bool.false_eq_true, if_false, h6]
    by_cases hdb : d ≥ base
    · simp [hdb]
    · simp only [hdb, if_false]
      split
      · right; rfl
      · split
        · right; rfl
        · apply ih _ (fun c1 h1 => hhex c1 (List.mem_cons_of_mem _ h1))
          obtain ⟨c1, hc1, hc2⟩ := hbad
          simp only [List.mem_cons] at hc1
          rcases hc1 with rfl | hc1
          · exact absurd (hc2 d hd) hdb
          · exact ⟨c1, hc1, hc2⟩

end Asm

namespace Asm

theorem isAsciiWord_not_sign (c : Char) (h : isAsciiWord c = true) : c ≠ '-' ∧ c ≠ '+' := by
  constructor <;> (intro h0; subst h0; simp [isAsciiWord] at h)

/-- `nextReadNumber` on a text that starts with one word token: the token is tested by
`regNumber` and converted by `ParseInt`. -/
theorem nextReadNumber_token (T : RuneTables) (sp lit rest : List Char) (t : String)
    (hsp : ∀ c ∈ sp, isAsciiSpace c = true) (hne : lit ≠ [])
    (hw : ∀ c ∈ lit, isAsciiWord c = true) (hend : wordEnds rest = true)
    (hfit : sp.length + lit.length < MaxScanTokenSize) :
    nextReadNumber T ⟨sp ++ (lit ++ rest), t⟩ =
      (if regNumber (String.mk lit) = true then
        (match ParseInt lit 32 with
          | (_, some _) => .error (.MismatchError "immediate number" (String.mk lit))
          | (num, none) => .ok num)
       else .error (.MismatchError "immediate number" (String.mk lit)),
       ⟨rest, String.mk lit⟩) := by
  have h1 : ∃ c t, lit = c :: t ∧ c ≠ '-' ∧ c ≠ '+' := by
    obtain ⟨c, t1, rfl⟩ := List.exists_cons_of_ne_nil hne
    exact ⟨c, t1, rfl, isAsciiWord_not_sign c (hw c (List.mem_cons_self _ _))⟩
  unfold nextReadNumber
  rw [Scan_token T sp lit rest t hsp (Or.inr ⟨hne, hw, hend⟩) hfit]
  simp only [String_mk_ne_minus lit h1, Bool.false_eq_true, if_false]
  by_cases hreg : regNumber (String.mk lit) = true
  · simp only [hreg, Bool.not_true, Bool.false_eq_true, if_false, if_true]
    split <;> rename_i heq <;> simp only [heq]
  · simp only [hreg, Bool.not_false, if_true, if_false]
    simp

theorem ParseInt_unsigned_head (c : Char) (t : List Char) (hs1 : c ≠ '-') (hs2 : c ≠ '+') :
    (∀ n, ParseUint (c :: t) 32 = (n, some .ErrSyntax) →
      ParseInt (c :: t) 32 = (0, some .ErrSyntax)) ∧
    (∀ n, ParseUint (c :: t) 32 = (n, some .ErrRange) → 2 ^ 31 ≤ n →
      ParseInt (c :: t) 32 = (2 ^ 31 - 1, some .ErrRange)) ∧
    (∀ n, ParseUint (c :: t) 32 = (n, none) → n < 2 ^ 31 →
      ParseInt (c :: t) 32 = ((n : Int), none)) := by
  refine ⟨?_, ?_, ?_⟩
  · intro n h
    unfold ParseInt
    simp [hs1, hs2, h]
  · intro n h hn
    unfold ParseInt
    simp only [List.isEmpty_cons, Bool.false_eq_true, if_false, hs1, hs2, List.cons.injEq,
      false_and, imp_false, not_false_eq_true, implies_true, h]
    norm_num
    omega
  · intro n h hn
    unfold ParseInt
    simp only [List.isEmpty_cons, Bool.false_eq_true, if_false, hs1, hs2, List.cons.injEq,
      false_and, imp_false, not_false_eq_true, implies_true, h]
    norm_num
    omega

/-- `ParseInt` on a token that starts with `0` and goes on with octal digits: the digits
are read in base 8. -/
theorem ParseInt_leading_zero (ds : List Char) (v : Nat) (hne : ds ≠ [])
    (hw : digitsWrite 8 ds 0 = some v) (hv : v < 2 ^ 31) :
    ParseInt ('0' :: ds) 32 = ((v : Int), none) ∧ regNumber (String.mk ('0' :: ds)) = true := by
  obtain ⟨p, t, rfl⟩ := List.exists_cons_of_ne_nil hne
  have hp : ∃ d, digitOf p = some d ∧ d < 8 := by
    unfold digitsWrite at hw
    split at hw
    · rename_i d hd
      split at hw
      · exact ⟨d, hd, by assumption⟩
      · simp at hw
    · simp at hw
  obtain ⟨d, hd, hd8⟩ := hp
  obtain ⟨o1, o2, o3, _, _⟩ := digitOf_octal p d hd hd8
  have hU : ParseUint ('0' :: p :: t) 32 = (v, none) := by
    unfold ParseUint
    simp only [List.isEmpty_cons, Bool.false_eq_true, if_false, o1, o2, o3, Bool.and_false]
    rw [ParseUint.loop_digits 8 (by simp) (p :: t) 0 v (by norm_num) hw]
    rw [if_pos (by omega)]
    simp
  constructor
  · exact (ParseInt_unsigned_head '0' (p :: t) (by decide) (by decide)).2.2 v hU hv
  · have hc := digitsWrite_chars 8 (p :: t) 0 v hw
    have : isHexRun ('0' :: p :: t) = true := by
      unfold isHexRun
      simp only [List.isEmpty_cons, Bool.not_false, Bool.true_and, List.all_eq_true]
      intro c1 h1
      simp only [List.mem_cons] at h1
      rcases h1 with rfl | h1
      · decide
      · exact (hc c1 (by simpa using h1)).2.1
    simp [regNumber, this]

/-- `ParseInt` rejects a token of `regNumber` that does not start with `0` and is not a
number of base 10. -/
theorem ParseInt_not_decimal (c : Char) (t : List Char) (hc0 : c ≠ '0')
    (hcw : isAsciiWord c = true) (hreg : regNumber (String.mk (c :: t)) = true)
    (hnot : digitsWrite 10 (c :: t) 0 = none) :
    ∃ n err, ParseInt (c :: t) 32 = (n, some err) := by
  obtain ⟨hs1, hs2⟩ := isAsciiWord_not_sign c hcw
  have hhex : ∀ c1 ∈ c :: t, isHexRune c1 = true := by
    unfold regNumber isHexRun at hreg
    simp only [hc0, List.cons.injEq, false_and, imp_false, not_false_eq_true, implies_true,
      Bool.or_false, List.isEmpty_cons, Bool.not_false, Bool.true_and, List.all_eq_true] at hreg
    exact hreg
  have hU : ParseUint (c :: t) 32 = (0, some .ErrSyntax) ∨
      ParseUint (c :: t) 32 = (2 ^ 32 - 1, some .ErrRange) := by
    unfold ParseUint
    simp only [List.isEmpty_cons, Bool.false_eq_true, if_false, hc0, List.cons.injEq,
      false_and, imp_false, not_false_eq_true, implies_true]
    rcases ParseUint.loop_fails 10 ((2 ^ 64 - 1) / 10 + 1) (2 ^ 32 - 1) (c :: t) 0 hhex
      (digitsWrite_none 10 _ 0 hnot) with h | h
    · left; simp only [h]
    · right; simp only [h]
  obtain ⟨k1, k2, _⟩ := ParseInt_unsigned_head c t hs1 hs2
  rcases hU with h | h
  · exact ⟨_, _, k1 _ h⟩
  · exact ⟨_, _, k2 _ h (by norm_num)⟩

end Asm

namespace Asm

/-- C11, as the code has it: the base of a literal token is selected by its prefix, and a
leading `0` is one of the prefixes. On a token that the scanner delivers (with the white
space before it, it has fewer than `MaxScanTokenSize` characters), a literal with `0x`, `0b` or `0o` is read in base 16, 2
or 8 and a token of decimal digits that does not start with `0` (or is `0` itself) is read
in base 10; a longer token that starts with `0` and goes on with octal digits is read in
base 8; a token that does not start with `0` and is not a number of base 10 is
rejected. The values are those below `2^31`. -/
theorem literal_base_selection (T : RuneTables) (sp lit rest : List Char) (t : String)
    (hsp : ∀ c ∈ sp, isAsciiSpace c = true) (hend : wordEnds rest = true)
    (hfit : sp.length + lit.length < MaxScanTokenSize) :
    (∀ v, isLiteral lit v → v < 2 ^ 31 →
      nextReadNumber T ⟨sp ++ (lit ++ rest), t⟩ = (.ok (v : Int), ⟨rest, String.mk lit⟩)) ∧
    (∀ ds v, lit = '0' :: ds → ds ≠ [] → digitsWrite 8 ds 0 = some v → v < 2 ^ 31 →
      nextReadNumber T ⟨sp ++ (lit ++ rest), t⟩ = (.ok (v : Int), ⟨rest, String.mk lit⟩)) ∧
    (∀ c tl, lit = c :: tl → c ≠ '0' → (∀ c1 ∈ lit, isAsciiWord c1 = true) →
      digitsWrite 10 lit 0 = none →
      nextReadNumber T ⟨sp ++ (lit ++ rest), t⟩ =
        (.error (.MismatchError "immediate number" (String.mk lit)),
          ⟨rest, String.mk lit⟩)) := by
  refine ⟨?_, ?_, ?_⟩
  · intro v hlit hv
    rw [nextReadNumber_literal T sp lit rest t v hsp hlit hend hfit, if_pos hv]
  · intro ds v hl hne hw hv
    subst hl
    obtain ⟨h1, h2⟩ := ParseInt_leading_zero ds v hne hw hv
    have hc := digitsWrite_chars 8 ds 0 v hw
    rw [nextReadNumber_token T sp ('0' :: ds) rest t hsp (by simp) (by
      intro c1 hc1
      simp only [List.mem_cons] at hc1
      rcases hc1 with rfl | hc1
      · decide
      · exact (hc c1 hc1).2.2) hend hfit]
    simp only [h2, if_true, h1]
  · intro c tl hl hc0 hw hnot
    subst hl
    rw [nextReadNumber_token T sp (c :: tl) rest t hsp (by simp) hw hend hfit]
    by_cases hreg : regNumber (String.mk (c :: tl)) = true
    · obtain ⟨n, err, he⟩ := ParseInt_not_decimal c tl hc0 (hw c (List.mem_cons_self _ _))
        hreg hnot
      simp only [hreg, if_true, he]
    · simp only [hreg, if_false]
      simp

/-- The token `010` is read as 8 and the token `12ab` is rejected. -/
theorem literal_base_selection_witness :
    ((∀ c ∈ ([] : List Char), isAsciiSpace c = true) ∧ wordEnds [','] = true ∧
      ([] : List Char).length + "010".toList.length < MaxScanTokenSize) ∧
    nextReadNumber asciiTables ⟨[] ++ ("010".toList ++ [',']), ""⟩ =
      (.ok 8, ⟨[','], "010"⟩) ∧
    nextReadNumber asciiTables ⟨[] ++ ("12ab".toList ++ [',']), ""⟩ =
      (.error (.MismatchError "immediate number" "12ab"), ⟨[','], "12ab"⟩) :=
  ⟨⟨by simp, by decide, by decide⟩,
   (literal_base_selection asciiTables [] "010".toList [','] "" (by simp) (by decide)
     (by decide)).2.1
     "10".toList 8 rfl (by decide) (by decide) (by decide),
   (literal_base_selection asciiTables [] "12ab".toList [','] "" (by simp) (by decide)
     (by decide)).2.2
     '1' "2ab".toList rfl (by decide) (by decide) (by decide)⟩

/-- C11 as stated fails: `irmovl $010, %eax` loads 8, not the base-10 value 10, and
`irmovl $08, %eax` is rejected although `08` is a token of decimal digits. -/
theorem literal_base_counterexample :
    Parse asciiTables "irmovl $010, %eax".toList = some ([0x30, 0x80, 8, 0, 0, 0], none) ∧
    Parse asciiTables "irmovl $08, %eax".toList =
      some ([], some (.MismatchError "immediate number" "08")) := by
  constructor <;> decide!

end Asm

/-! ## The first loop, one iteration at a time -/

namespace Asm

/-- More fuel does not change a result of the first loop of `Parse`. -/
theorem Parse.phase1_mono (T : RuneTables) (n m : Nat) (hnm : n ≤ m) (opCodes : List opcode)
    (labels : labelTable) (address : Nat) (scanner : Scanner)
    (r : Except Error (List opcode × labelTable × Nat))
    (h : Parse.phase1 T n opCodes labels address scanner = some r) :
    Parse.phase1 T m opCodes labels address scanner = some r := by
  induction n generalizing m opCodes labels address scanner with
  | zero => simp [Parse.phase1] at h
  | succ n ih =>
    obtain ⟨m1, rfl⟩ : ∃ m1, m = m1 + 1 := ⟨m - 1, by omega⟩
    unfold Parse.phase1 at h ⊢
    split at h
    · exact h
    · split at h
      · split at h
        · exact h
        · exact ih m1 (by omega) _ _ _ _ h
      · rename_i sc hscan _ hmap
        by_cases hreg : regLabel sc.Text = true
        · rw [if_pos hreg] at h ⊢
          simp only at h ⊢
          split at h
          · exact h
          · exact ih m1 (by omega) _ _ _ _ h
        · rw [if_neg hreg] at h ⊢
          exact h

/-- The result of the first loop with the fuel of `Parse` is its result with any fuel that
gives one. -/
theorem Parse_of_phase1 (T : RuneTables) (src : List Char) (n : Nat)
    (r : Except Error (List opcode × labelTable × Nat))
    (h : Parse.phase1 T n [] [] 0 (NewScanner src) = some r) :
    Parse.phase1 T (src.length + 1) [] [] 0 (NewScanner src) = some r := by
  obtain ⟨r1, h1⟩ := Parse.phase1_total T (src.length + 1) [] [] 0 (NewScanner src)
    (by simp [NewScanner])
  rcases Nat.le_total n (src.length + 1) with hle | hle
  · exact Parse.phase1_mono T _ _ hle _ _ _ _ _ h
  · have := Parse.phase1_mono T _ _ hle _ _ _ _ _ h1
    rw [h] at this
    rw [h1, Option.some.inj this]

/-- The first loop ends when `Scan` returns false. -/
theorem Parse.phase1_stop (T : RuneTables) (n : Nat) (opCodes : List opcode)
    (labels : labelTable) (address : Nat) (s s1 : Scanner)
    (hscan : Scanner.Scan T s = (false, s1)) :
    Parse.phase1 T (n + 1) opCodes labels address s = some (.ok (opCodes, labels, address)) := by
  unfold Parse.phase1
  simp only [hscan]

/-- One iteration of the first loop on an instruction that its parser accepts. -/
theorem Parse.phase1_inst (T : RuneTables) (n : Nat) (opCodes : List opcode)
    (labels labels1 : labelTable) (address : Nat) (s sc sc1 : Scanner)
    (handleFunc : instFunc) (op : opcode)
    (hscan : Scanner.Scan T s = (true, sc))
    (hmap : instructionsMap (ToLower T sc.Text) = some handleFunc)
    (hh : handleFunc T address labels sc = (.ok op, labels1, sc1)) :
    Parse.phase1 T (n + 1) opCodes labels address s =
      Parse.phase1 T n (opCodes ++ [op]) labels1 (address + op.Size) sc1 := by
  rw [Parse.phase1]
  simp only [hscan, hmap, hh]

/-- One iteration of the first loop on an instruction that its parser rejects. -/
theorem Parse.phase1_reject (T : RuneTables) (n : Nat) (opCodes : List opcode)
    (labels labels1 : labelTable) (address : Nat) (s sc sc1 : Scanner)
    (handleFunc : instFunc) (err : Error)
    (hscan : Scanner.Scan T s = (true, sc))
    (hmap : instructionsMap (ToLower T sc.Text) = some handleFunc)
    (hh : handleFunc T address labels sc = (.error err, labels1, sc1)) :
    Parse.phase1 T (n + 1) opCodes labels address s = some (.error err) := by
  rw [Parse.phase1]
  simp only [hscan, hmap, hh]

/-- One iteration of the first loop on a label definition. -/
theorem Parse.phase1_label (T : RuneTables) (n : Nat) (opCodes : List opcode)
    (labels : labelTable) (address : Nat) (s sc sc1 : Scanner)
    (hscan : Scanner.Scan T s = (true, sc))
    (hmap : instructionsMap (ToLower T sc.Text) = none)
    (hreg : regLabel sc.Text = true)
    (hcolon : nextReadToken T sc ":" = (true, sc1)) :
    Parse.phase1 T (n + 1) opCodes labels address s =
      Parse.phase1 T n opCodes ((sc.Text, some address) :: labels) address sc1 := by
  rw [Parse.phase1]
  simp only [hscan, hmap, hreg, if_true, hcolon]

/-- `Parse` from a result of the first loop, whatever the fuel that gave it. -/
theorem Parse_of_loop (T : RuneTables) (src : List Char) (n : Nat) (opCodes : List opcode)
    (labels : labelTable) (address : Nat)
    (h : Parse.phase1 T n [] [] 0 (NewScanner src) = some (.ok (opCodes, labels, address))) :
    Parse T src = some (Parse.phase2 labels opCodes []) := by
  unfold Parse
  rw [Parse_of_phase1 T src n _ h]

/-- A run of spaces is white space. -/
theorem spaces_isAsciiSpace (n : Nat) : ∀ c ∈ List.replicate n ' ', isAsciiSpace c = true := by
  intro c hc
  rw [List.eq_of_mem_replicate hc]
  rfl

/-- A text that goes on with a space ends the word before it. -/
theorem wordEnds_spaces (n : Nat) (rest : List Char) :
    wordEnds (List.replicate (n + 1) ' ' ++ rest) = true := rfl

/-- `Scan` on a run of spaces that fills the buffer: the scan stops, whatever follows. -/
theorem Scan_spaces (T : RuneTables) (n : Nat) (rest : List Char) (t : String)
    (hn : MaxScanTokenSize ≤ n) :
    Scanner.Scan T ⟨List.replicate n ' ' ++ rest, t⟩ = (false, ⟨[], ""⟩) := by
  have := Scan_too_long T (List.replicate n ' ') [] rest t (spaces_isAsciiSpace n)
    (by simp) (by simpa using hn)
  simpa using this

end Asm

/-! ## Sources in which a run of white space fills the buffer of the scanner -/

namespace Asm

/-- `Parse` of `x: nop`, a run of spaces that fills the buffer of the scanner, and any text:
the first loop ends at the run of spaces and the text after it is not read. -/
theorem Parse_stops_after_nop (T : RuneTables) (n : Nat) (hn : MaxScanTokenSize ≤ n)
    (tail : List Char) :
    Parse T ("x: nop".toList ++ (List.replicate n ' ' ++ tail)) = some ([0x00], none) := by
  obtain ⟨k, rfl⟩ : ∃ k, n = k + 1 := ⟨n - 1, by unfold MaxScanTokenSize at hn; omega⟩
  have hs1 : Scanner.Scan T (NewScanner ("x: nop".toList ++ (List.replicate (k + 1) ' ' ++ tail))) =
      (true, ⟨':' :: ' ' :: 'n' :: 'o' :: 'p' :: (List.replicate (k + 1) ' ' ++ tail), "x"⟩) :=
    Scan_token T [] ['x'] _ "" (by simp) (Or.inr ⟨by simp, by decide, rfl⟩) (by decide)
  have hc : nextReadToken T
      ⟨':' :: ' ' :: 'n' :: 'o' :: 'p' :: (List.replicate (k + 1) ' ' ++ tail), "x"⟩ ":" =
      (true, ⟨' ' :: 'n' :: 'o' :: 'p' :: (List.replicate (k + 1) ' ' ++ tail), ":"⟩) :=
    nextReadToken_punct T [] ':' _ _ ":" (by simp) (by decide) (by decide)
  have hs2 : Scanner.Scan T
      ⟨' ' :: 'n' :: 'o' :: 'p' :: (List.replicate (k + 1) ' ' ++ tail), ":"⟩ =
      (true, ⟨List.replicate (k + 1) ' ' ++ tail, "nop"⟩) :=
    Scan_token T [' '] "nop".toList _ _ (by decide)
      (Or.inr ⟨by decide, by decide, wordEnds_spaces k tail⟩) (by decide)
  have hs3 := Scan_spaces T (k + 1) tail "nop" hn
  refine (Parse_of_loop T _ (1 + 1 + 1) [opcode.new 0 0 1 .Simple] [("x", some 0)] 1 ?_).trans
    rfl
  rw [Parse.phase1_label T (1 + 1) [] [] 0 _ _ _ hs1 rfl rfl hc]
  rw [Parse.phase1_inst T 1 [] _ _ 0 _ _ _ nop _ hs2 rfl rfl]
  exact Parse.phase1_stop T 0 _ _ _ _ _ hs3

/-- The parser of `jmp` on ` a` and a run of spaces. -/
theorem branch_before_spaces (T : RuneTables) (k : Nat) (tail : List Char)
    (labels : labelTable) (address : Nat) :
    branch T address labels ⟨' ' :: 'a' :: (List.replicate (k + 1) ' ' ++ tail), "jmp"⟩ =
      (.ok { opcode.new address 0 5 .Branching with Code := 0x70, Label := "a" },
        (if (labels.lookup "a").isSome then labels else ("a", none) :: labels),
        ⟨List.replicate (k + 1) ' ' ++ tail, "a"⟩) := by
  have h1 : nextReadRegExp T ⟨' ' :: 'a' :: (List.replicate (k + 1) ' ' ++ tail), "jmp"⟩
      regLabel = (true, ⟨List.replicate (k + 1) ' ' ++ tail, "a"⟩) :=
    nextReadRegExp_token T [' '] ['a'] _ _ regLabel (by decide)
      (Or.inr ⟨by simp, by decide, wordEnds_spaces k tail⟩) (by decide)
  unfold branch
  simp only [h1]
  rfl

/-- The first loop on `jmp a`, a run of spaces that fills the buffer of the scanner, and any
text: the loop ends without error at the run of spaces. -/
theorem loop_stops_after_jmp (T : RuneTables) (n : Nat) (hn : MaxScanTokenSize ≤ n)
    (tail : List Char) :
    Parse.phase1 T (("jmp a".toList ++ (List.replicate n ' ' ++ tail)).length + 1) [] [] 0
        (NewScanner ("jmp a".toList ++ (List.replicate n ' ' ++ tail))) =
      some (.ok ([{ opcode.new 0 0 5 .Branching with Code := 0x70, Label := "a" }],
        [("a", none)], 5)) := by
  obtain ⟨k, rfl⟩ : ∃ k, n = k + 1 := ⟨n - 1, by unfold MaxScanTokenSize at hn; omega⟩
  have hs1 : Scanner.Scan T (NewScanner ("jmp a".toList ++ (List.replicate (k + 1) ' ' ++ tail))) =
      (true, ⟨' ' :: 'a' :: (List.replicate (k + 1) ' ' ++ tail), "jmp"⟩) :=
    Scan_token T [] "jmp".toList _ "" (by simp) (Or.inr ⟨by decide, by decide, rfl⟩) (by decide)
  have hs3 := Scan_spaces T (k + 1) tail "a" hn
  apply Parse_of_phase1 T _ (1 + 1)
  rw [Parse.phase1_inst T 1 [] _ _ 0 _ _ _ branch _ hs1 rfl (branch_before_spaces T k tail [] 0)]
  exact Parse.phase1_stop T 0 _ _ _ _ _ hs3

/-- `Parse` of `jmp a`, a run of spaces that fills the buffer of the scanner, and any text:
the text after the run of spaces is not read, so that a label defined there is not
resolved. -/
theorem Parse_stops_after_jmp (T : RuneTables) (n : Nat) (hn : MaxScanTokenSize ≤ n)
    (tail : List Char) :
    Parse T ("jmp a".toList ++ (List.replicate n ' ' ++ tail)) =
      some ([], some (.Errorf "unsolved reference: a")) := by
  unfold Parse
  rw [loop_stops_after_jmp T n hn tail]
  rfl

/-- `Parse` of `a: jmp a`, a run of spaces that fills the buffer of the scanner, and any
text: the jump is encoded with the address of the definition before it, whatever the text
after the run of spaces defines. -/
theorem Parse_stops_after_loop (T : RuneTables) (n : Nat) (hn : MaxScanTokenSize ≤ n)
    (tail : List Char) :
    Parse T ("a: jmp a".toList ++ (List.replicate n ' ' ++ tail)) =
      some ([0x70, 0, 0, 0, 0], none) := by
  obtain ⟨k, rfl⟩ : ∃ k, n = k + 1 := ⟨n - 1, by unfold MaxScanTokenSize at hn; omega⟩
  have hs1 : Scanner.Scan T
      (NewScanner ("a: jmp a".toList ++ (List.replicate (k + 1) ' ' ++ tail))) =
      (true, ⟨':' :: ' ' :: 'j' :: 'm' :: 'p' :: ' ' :: 'a' ::
        (List.replicate (k + 1) ' ' ++ tail), "a"⟩) :=
    Scan_token T [] ['a'] _ "" (by simp) (Or.inr ⟨by simp, by decide, rfl⟩) (by decide)
  have hc : nextReadToken T
      ⟨':' :: ' ' :: 'j' :: 'm' :: 'p' :: ' ' :: 'a' :: (List.replicate (k + 1) ' ' ++ tail),
        "a"⟩ ":" =
      (true, ⟨' ' :: 'j' :: 'm' :: 'p' :: ' ' :: 'a' :: (List.replicate (k + 1) ' ' ++ tail),
        ":"⟩) :=
    nextReadToken_punct T [] ':' _ _ ":" (by simp) (by decide) (by decide)
  have hs2 : Scanner.Scan T
      ⟨' ' :: 'j' :: 'm' :: 'p' :: ' ' :: 'a' :: (List.replicate (k + 1) ' ' ++ tail), ":"⟩ =
      (true, ⟨' ' :: 'a' :: (List.replicate (k + 1) ' ' ++ tail), "jmp"⟩) :=
    Scan_token T [' '] "jmp".toList _ _ (by decide)
      (Or.inr ⟨by decide, by decide, rfl⟩) (by decide)
  have hs3 := Scan_spaces T (k + 1) tail "a" hn
  refine (Parse_of_loop T _ (1 + 1 + 1)
    [{ opcode.new 0 0 5 .Branching with Code := 0x70, Label := "a" }] [("a", some 0)] 5 ?_).trans
    rfl
  rw [Parse.phase1_label T (1 + 1) [] [] 0 _ _ _ hs1 rfl rfl hc]
  rw [Parse.phase1_inst T 1 [] _ _ 0 _ _ _ branch _ hs2 rfl
    (branch_before_spaces T k tail [("a", some 0)] 0)]
  exact Parse.phase1_stop T 0 _ _ _ _ _ hs3

end Asm

namespace Asm

/-- C1 as stated fails: on `x: nop`, 65536 spaces and `jmp x`, `Parse` succeeds and returns
the single byte of `nop`; the instruction `jmp x` of the source is not encoded, because the
scanner stops at the run of spaces that fills its buffer. -/
theorem branch_encodes_label_address_counterexample :
    Parse asciiTables ("x: nop".toList ++ (List.replicate 65536 ' ' ++ "jmp x".toList)) =
      some ([0x00], none) ∧
    ¬ ∃ before after, [0x00] = before ++ (0x70 :: PutUint32 (uint32 0)) ++ after :=
  ⟨Parse_stops_after_nop asciiTables 65536 (by decide) "jmp x".toList, by
    rintro ⟨before, after, h⟩
    have := congrArg List.length h
    simp [PutUint32] at this
    omega⟩

/-- C7 as stated fails: on `jmp a`, 65536 spaces and `a:`, the first loop succeeds and the
source defines the label `a`, yet `Parse` returns the error of an unresolved reference: the
scanner stops at the run of spaces that fills its buffer and the definition is not read. -/
theorem unresolved_reference_counterexample :
    (∃ r, Parse.phase1 asciiTables
        (("jmp a".toList ++ (List.replicate 65536 ' ' ++ "a:".toList)).length + 1) [] [] 0
        (NewScanner ("jmp a".toList ++ (List.replicate 65536 ' ' ++ "a:".toList))) =
      some (.ok r)) ∧
    Parse asciiTables ("jmp a".toList ++ (List.replicate 65536 ' ' ++ "a:".toList)) =
      some ([], some (.Errorf "unsolved reference: a")) :=
  ⟨⟨_, loop_stops_after_jmp asciiTables 65536 (by decide) "a:".toList⟩,
   Parse_stops_after_jmp asciiTables 65536 (by decide) "a:".toList⟩

/-- C18 as stated fails: on `a: jmp a`, 65536 spaces and `a: nop`, `Parse` succeeds and
encodes the jump with the address 0 of the first definition of `a`; the last definition of
`a` in the source, at address 5, is not read. -/
theorem redefinition_counterexample :
    Parse asciiTables ("a: jmp a".toList ++ (List.replicate 65536 ' ' ++ "a: nop".toList)) =
      some ([0x70, 0, 0, 0, 0], none) :=
  Parse_stops_after_loop asciiTables 65536 (by decide) "a: nop".toList

end Asm

/-! ## The instruction parsers on well-formed operands, whatever text follows -/

namespace Asm

end Asm

/-! ## The first loop, one source line at a time -/

namespace Asm

/-- A mnemonic of the instruction set is a word of lower-case letters. -/
theorem mnemonic_word (m : String) (h : m ∈ mnemonicSize.map Prod.fst) :
    (m.data ≠ [] ∧ ∀ c ∈ m.data, isAsciiWord c = true) ∧ m.data.length < MaxScanTokenSize := by
  simp only [mnemonicSize, List.map_cons, List.map_nil, List.mem_cons, List.mem_singleton,
    List.not_mem_nil, or_false] at h
  rcases h with rfl | rfl | rfl | rfl | rfl | rfl | rfl | rfl | rfl | rfl | rfl | rfl | rfl |
    rfl | rfl | rfl | rfl | rfl | rfl | rfl | rfl <;> decide

end Asm

/-! ## Claim on the program of `TestParse` -/

namespace Asm

end Asm

/-! ## Claim on the instructions without operands -/

namespace Asm

end Asm

namespace Asm

end Asm

/-! ## What every call of `Scan` keeps, every instruction parser keeps -/

namespace Asm

section Invariant

variable {T : RuneTables} {P : Scanner → Prop}

end Invariant

end Asm

/-! ## Characters that are in no class of the lexer: the split function -/

namespace Asm

end Asm

namespace Asm

end Asm

/-! ## The scanner on an input that its buffer holds: the rule of the specification -/

namespace Asm

end Asm


/-! ## The rule of the specification, token by token -/

namespace Asm

theorem skipSpaces_take (T : RuneTables) (data : List Char) :
    ∀ c ∈ data.take (skipSpaces T data), IsSpace T c = true := by
  induction data with
  | nil => simp
  | cons r data ih =>
    simp only [skipSpaces]
    split
    · rename_i hr
      intro c hc
      simp only [List.take_succ_cons, List.mem_cons] at hc
      rcases hc with rfl | hc
      · exact hr
      · exact ih c hc
    · simp

/-- The rule finds the end of the stream only in a text of white space. -/
theorem nextToken_none (T : RuneTables) (data : List Char) (h : nextToken T data = none) :
    ∀ c ∈ data, IsSpace T c = true := by
  unfold nextToken at h
  split at h
  · rename_i hd
    have hk := skipSpaces_take T data
    have hlen := congrArg List.length hd
    simp only [List.length_drop, List.length_nil] at hlen
    rw [List.take_of_length_le (by omega)] at hk
    exact hk
  · split at h <;> simp at h

/-- The text that the rule leaves is the end of the text. -/
theorem nextToken_drop (T : RuneTables) (data token rest : List Char)
    (h : nextToken T data = some (token, rest)) : ∃ n, rest = data.drop n := by
  unfold nextToken at h
  split at h
  · simp at h
  · rename_i r tail hd
    split at h
    · simp only [Option.some.injEq, Prod.mk.injEq] at h
      refine ⟨skipSpaces T data + 1, ?_⟩
      rw [← h.2, ← List.drop_drop, hd]
      rfl
    · simp only [Option.some.injEq, Prod.mk.injEq] at h
      refine ⟨skipSpaces T data + scanWord T (r :: tail), ?_⟩
      rw [← h.2, ← hd, List.drop_drop]

end Asm


namespace Asm

end Asm


namespace Asm

/-- A token of the split function is the token of the rule of the specification. -/
theorem splitFunc_nextToken (T : RuneTables) (data : List Char) (atEOF : Bool)
    (advance : Nat) (token : List Char)
    (h : splitFunc T data atEOF = (advance, some token)) :
    nextToken T data = some (token, data.drop advance) := by
  unfold splitFunc at h
  unfold nextToken
  simp only at h
  split at h
  · simp at h
  · rename_i hlt
    cases hd : data.drop (skipSpaces T data) with
    | nil =>
      have := congrArg List.length hd
      simp only [List.length_drop, List.length_nil] at this
      omega
    | cons r tail =>
      rw [hd] at h
      simp only at h ⊢
      by_cases hp : isPunct r = true
      · rw [if_pos hp] at h ⊢
        simp only [Prod.mk.injEq, Option.some.injEq] at h
        rw [← h.1, ← h.2, ← List.drop_drop, hd]
        rfl
      · rw [if_neg hp] at h ⊢
        have hlen : (r :: tail).length = data.length - skipSpaces T data := by
          rw [← hd]; simp
        have hj := scanWord_le T (r :: tail)
        have hdrop : data.drop (skipSpaces T data + scanWord T (r :: tail)) =
            (r :: tail).drop (scanWord T (r :: tail)) := by
          rw [← hd, List.drop_drop]
        split at h
        · simp only [Prod.mk.injEq, Option.some.injEq] at h
          rw [← h.1, ← h.2, hdrop, Nat.add_sub_cancel_left]
        · split at h
          · simp only [Prod.mk.injEq, Option.some.injEq] at h
            rw [← h.1, ← h.2, hdrop]
            have hfull : scanWord T (r :: tail) = (r :: tail).length := by omega
            rw [hfull, List.take_length]
          · simp at h

end Asm


namespace Asm

/-- What fits the buffer in a text fits it in the end of the text. -/
theorem Fits.drop {T : RuneTables} {data : List Char} (h : Fits T data) (n : Nat)
    {rest : List Char} (hd : rest = data.drop n) : Fits T rest := by
  intro m
  have := h (n + m)
  simp only [hd, List.drop_drop] at this ⊢
  exact this

end Asm

namespace Asm

end Asm


/-! ## Claim on the characters that are in no class of the lexer -/

namespace Asm

end Asm

namespace Asm

end Asm

/-! ## White space around a punctuation character: the tokens of the rule -/

namespace Asm

/-- The word scan of a text does not go on into a text that starts with no letter, digit or
underscore. -/
theorem scanWord_append_stop (T : RuneTables) (data more : List Char)
    (h : ∀ c ∈ more.head?, isWordRune T c = false) :
    scanWord T (data ++ more) = scanWord T data := by
  induction data with
  | nil =>
    cases more with
    | nil => rfl
    | cons c tl =>
      have := h c (by simp)
      simp [scanWord, this]
  | cons r data ih =>
    rw [List.cons_append]
    simp only [scanWord, ih]

/-- The rule skips the white space at the front of a text. -/
theorem nextToken_spaces (T : RuneTables) (sp data : List Char)
    (hsp : ∀ c ∈ sp, IsSpace T c = true) : nextToken T (sp ++ data) = nextToken T data := by
  induction sp with
  | nil => rfl
  | cons c sp ih =>
    have hc := hsp c (List.mem_cons_self _ _)
    rw [← ih (fun x hx => hsp x (List.mem_cons_of_mem _ hx)), List.cons_append]
    unfold nextToken
    simp only [skipSpaces, hc, if_true, List.drop_succ_cons]

end Asm

/-! ## The result of `Parse` depends on the tokens only -/

namespace Asm

/-- After a call of `Scan` that returned false the cursor is at the end, without a token. -/
theorem Scan_false (T : RuneTables) (s : Scanner) (h : (s.Scan T).1 = false) :
    (s.Scan T).2 = ⟨[], ""⟩ := by
  unfold Scanner.Scan at h ⊢
  split
  · rename_i heq
    rw [heq] at h
    simp at h
  · rename_i heq
    split
    · rfl
    · rename_i hlt
      rw [heq] at h
      simp only [if_neg hlt] at h
      split
      · rename_i heq2
        rw [heq2] at h
        simp at h
      · rfl

section Simulation

variable {T : RuneTables} {R : Scanner → Scanner → Prop}

end Simulation

end Asm

namespace Asm

section Simulation

variable {T : RuneTables} {R : Scanner → Scanner → Prop}

end Simulation

end Asm

/-! ## Claim on the white space around punctuation -/

namespace Asm

end Asm

/-! ## The scanner on texts whose runes are in the same classes -/

namespace Asm

theorem skipSpaces_sim (T : RuneTables) {x y : List Char}
    (h : List.Forall₂ (sameClass T) x y) : skipSpaces T x = skipSpaces T y := by
  induction h with
  | nil => rfl
  | cons hc _ ih =>
    simp only [skipSpaces, hc.2.1, ih]

theorem scanWord_sim (T : RuneTables) {x y : List Char}
    (h : List.Forall₂ (sameClass T) x y) : scanWord T x = scanWord T y := by
  induction h with
  | nil => rfl
  | cons hc _ ih =>
    simp only [scanWord, hc.2.2.2, ih]

theorem byteLen_sim (T : RuneTables) {x y : List Char}
    (h : List.Forall₂ (sameClass T) x y) : byteLen x = byteLen y := by
  induction h with
  | nil => rfl
  | cons hc _ ih =>
    simp only [byteLen, hc.1, ih]

theorem buffered_sim (T : RuneTables) {x y : List Char}
    (h : List.Forall₂ (sameClass T) x y) (room : Nat) :
    List.Forall₂ (sameClass T) (buffered room x) (buffered room y) := by
  induction h generalizing room with
  | nil => exact List.Forall₂.nil
  | cons hc _ ih =>
    simp only [buffered, hc.1]
    split
    · exact List.Forall₂.cons hc (ih _)
    · exact List.Forall₂.nil

/-- The split function finds a token in both of two texts whose runes are in the same
classes, or in none, and with the same advance. -/
theorem splitFunc_sim (T : RuneTables) {x y : List Char}
    (h : List.Forall₂ (sameClass T) x y) (atEOF : Bool) :
    (splitFunc T x atEOF).1 = (splitFunc T y atEOF).1 ∧
    (splitFunc T x atEOF).2.isSome = (splitFunc T y atEOF).2.isSome := by
  have hlen := h.length_eq
  have hk := skipSpaces_sim T h
  have hd := List.forall₂_drop (skipSpaces T x) h
  unfold splitFunc
  simp only [← hk, ← hlen]
  by_cases hlt : skipSpaces T x ≥ x.length
  · simp only [hlt, if_true, and_self]
  · simp only [hlt, if_false]
    revert hd
    generalize List.drop (skipSpaces T x) x = dx
    generalize List.drop (skipSpaces T x) y = dy
    intro hd
    cases hd with
    | nil => simp
    | cons hc htl =>
      rename_i r r1 tail tail1
      simp only
      have hj : scanWord T (r :: tail) = scanWord T (r1 :: tail1) :=
        scanWord_sim T (List.Forall₂.cons hc htl)
      rw [← hc.2.2.1, ← hj]
      by_cases hp : isPunct r = true
      · simp only [hp, if_true, Option.isSome_some, and_self]
      · simp only [hp, Bool.false_eq_true, if_false]
        by_cases hend : skipSpaces T x + scanWord T (r :: tail) < x.length
        · simp only [hend, if_true, Option.isSome_some, and_self]
        · simp only [hend, if_false]
          cases atEOF <;> simp

/-- Whether `Scan` returns a token. -/
theorem Scan_fst (T : RuneTables) (s : Scanner) :
    (s.Scan T).1 = ((splitFunc T (buffered MaxScanTokenSize s.rest) false).2.isSome ||
      (decide (byteLen s.rest < MaxScanTokenSize) && (splitFunc T s.rest true).2.isSome)) := by
  unfold Scanner.Scan
  split
  · rename_i heq
    simp [heq]
  · rename_i heq
    simp only [heq, Option.isSome_none, Bool.false_or]
    split
    · rename_i hlt
      have : ¬ byteLen s.rest < MaxScanTokenSize := by omega
      simp [this]
    · rename_i hlt
      have : byteLen s.rest < MaxScanTokenSize := by omega
      simp only [this, decide_True, Bool.true_and]
      split
      · rename_i heq2
        simp [heq2]
      · rename_i heq2
        simp [heq2]

/-- `Scan` returns a token from both of two texts whose runes are in the same classes, or
from none. -/
theorem Scan_sim (T : RuneTables) (s s1 : Scanner)
    (h : List.Forall₂ (sameClass T) s.rest s1.rest) : (s.Scan T).1 = (s1.Scan T).1 := by
  rw [Scan_fst, Scan_fst, (splitFunc_sim T (buffered_sim T h _) false).2,
    (splitFunc_sim T h true).2, byteLen_sim T h]

/-- `Scan` reads the unread input only. -/
theorem Scan_rest (T : RuneTables) (s s1 : Scanner) (h : s.rest = s1.rest) :
    s.Scan T = s1.Scan T := by
  unfold Scanner.Scan
  rw [h]

end Asm

/-! ## The scanner on two texts that differ in the letters of one word -/

namespace Asm

/-- A token that `Scan` returns is the token of the rule of the specification, whatever the
buffer holds. -/
theorem Scan_true_nextToken (T : RuneTables) (s x : Scanner) (h : s.Scan T = (true, x)) :
    nextToken T s.rest = some (x.Text.data, x.rest) := by
  unfold Scanner.Scan at h
  split at h
  · rename_i advance token heq
    have h1 := splitFunc_more T _ (s.rest.drop (buffered MaxScanTokenSize s.rest).length)
      advance token heq
    rw [buffered_append_drop] at h1
    simp only [Prod.mk.injEq, true_and] at h
    rw [← h]
    exact splitFunc_nextToken T _ _ _ _ h1
  · split at h
    · simp at h
    · split at h
      · rename_i advance token heq
        simp only [Prod.mk.injEq, true_and] at h
        rw [← h]
        exact splitFunc_nextToken T _ _ _ _ heq
      · simp at h

theorem scanWord_all (T : RuneTables) (w : List Char) (h : ∀ c ∈ w, isWordRune T c = true) :
    scanWord T w = w.length := by
  induction w with
  | nil => rfl
  | cons c w ih =>
    simp only [scanWord, h c (List.mem_cons_self _ _), if_true, List.length_cons,
      ih (fun x hx => h x (List.mem_cons_of_mem _ hx))]

/-- The word scan of a text that ends with a rune that is no letter, digit or underscore
ends inside the text. -/
theorem scanWord_lt_of_last (T : RuneTables) (l : List Char) (hne : l ≠ [])
    (h : ∀ c ∈ l.getLast?, isWordRune T c = false) : scanWord T l < l.length := by
  induction l with
  | nil => exact absurd rfl hne
  | cons c l ih =>
    simp only [scanWord]
    split
    · rename_i hc
      cases l with
      | nil =>
        have := h c (by simp)
        rw [hc] at this
        exact absurd this (by decide)
      | cons d l =>
        have := ih (by simp) (fun x hx => h x (by simpa [List.getLast?_cons_cons] using hx))
        simp only [List.length_cons] at this ⊢
        omega
    · simp

theorem mem_getLast?_drop (l : List Char) (n : Nat) (c : Char)
    (h : c ∈ (l.drop n).getLast?) : c ∈ l.getLast? := by
  induction l generalizing n with
  | nil => simp at h
  | cons d l ih =>
    cases n with
    | zero => exact h
    | succ n =>
      simp only [List.drop_succ_cons] at h
      have h1 := ih n h
      cases l with
      | nil => simp at h1
      | cons e l => simpa [List.getLast?_cons_cons] using h1

/-- The token that the rule finds in a text that ends with a rune that is no letter, digit
or underscore is the token that it finds when the text goes on. -/
theorem nextToken_append_last (T : RuneTables) (data more token rest : List Char)
    (h : nextToken T data = some (token, rest))
    (hlast : ∀ c ∈ data.getLast?, isWordRune T c = false) :
    nextToken T (data ++ more) = some (token, rest ++ more) := by
  unfold nextToken at h ⊢
  have hk := skipSpaces_le T data
  cases hd : data.drop (skipSpaces T data) with
  | nil => rw [hd] at h; simp at h
  | cons r tail =>
    rw [hd] at h
    have hlen : (r :: tail).length = data.length - skipSpaces T data := by
      rw [← hd]; simp
    have hlt : skipSpaces T data < data.length := by
      simp only [List.length_cons] at hlen
      omega
    rw [skipSpaces_more T data more hlt, List.drop_append_of_le_length hk, hd,
      List.cons_append]
    simp only at h ⊢
    by_cases hp : isPunct r = true
    · rw [if_pos hp] at h ⊢
      simp only [Option.some.injEq, Prod.mk.injEq] at h ⊢
      exact ⟨h.1, by rw [← h.2]⟩
    · rw [if_neg hp] at h ⊢
      simp only [Option.some.injEq, Prod.mk.injEq] at h ⊢
      have hj := scanWord_le T (r :: tail)
      have hw := scanWord_more T (r :: tail) more
        (scanWord_lt_of_last T (r :: tail) (by simp)
          (fun c hc => hlast c (mem_getLast?_drop data _ c (by rw [hd]; exact hc))))
      rw [List.cons_append] at hw
      rw [hw, ← List.cons_append, List.take_append_of_le_length hj,
        List.drop_append_of_le_length hj]
      exact ⟨h.1, by rw [← h.2]⟩

/-- The rule before a word that stands between a text that ends with a rune that is no
letter, digit or underscore and a text that starts with none: the token found in the text
before the word, or the word when that text is white space. -/
theorem nextToken_before (T : RuneTables) (a v post : List Char)
    (hlast : ∀ c ∈ a.getLast?, isWordRune T c = false)
    (hne : v ≠ [])
    (hv : ∀ c ∈ v, isWordRune T c = true ∧ IsSpace T c = false ∧ isPunct c = false)
    (hpost : ∀ c ∈ post.head?, isWordRune T c = false) :
    nextToken T (a ++ (v ++ post)) =
      match nextToken T a with
      | some (token, a1) => some (token, a1 ++ (v ++ post))
      | none => some (v, post) := by
  cases hn : nextToken T a with
  | none =>
    simp only
    rw [nextToken_spaces T a _ (nextToken_none T a hn)]
    obtain ⟨c, w, rfl⟩ := List.exists_cons_of_ne_nil hne
    have hc := hv c (List.mem_cons_self _ _)
    have hw := scanWord_append_stop T (c :: w) post hpost
    rw [scanWord_all T (c :: w) (fun x hx => (hv x hx).1)] at hw
    unfold nextToken
    rw [List.cons_append] at hw ⊢
    simp only [skipSpaces, hc.2.1, Bool.false_eq_true, if_false, List.drop_zero, hc.2.2, hw]
    rw [← List.cons_append, List.take_left, List.drop_left]
  | some q =>
    obtain ⟨token, a1⟩ := q
    exact nextToken_append_last T a _ token a1 hn hlast

/-- The relation of the two cursors is kept by `Scan`, which returns a token from both or
from none. -/
theorem Scanner.Variant.scan_step {T : RuneTables} {v1 v2 post : List Char} {s s1 : Scanner}
    (hsame : List.Forall₂ (sameClass T) v1 v2)
    (hne : v1 ≠ [] ∧ v2 ≠ [])
    (hv1 : ∀ c ∈ v1, isWordRune T c = true ∧ IsSpace T c = false ∧ isPunct c = false)
    (hv2 : ∀ c ∈ v2, isWordRune T c = true ∧ IsSpace T c = false ∧ isPunct c = false)
    (hpost : ∀ c ∈ post.head?, isWordRune T c = false)
    (h : Scanner.Variant T v1 v2 post s s1) :
    (s.Scan T).1 = (s1.Scan T).1 ∧ Scanner.Variant T v1 v2 post (s.Scan T).2 (s1.Scan T).2 := by
  rcases h with rfl | ⟨_, a, e1, e2, hlast⟩ | ⟨e1, e2, _, _⟩
  · exact ⟨rfl, Or.inl rfl⟩
  · have hrel : List.Forall₂ (sameClass T) s.rest s1.rest := by
      rw [e1, e2]
      have hrefl : ∀ l : List Char, List.Forall₂ (sameClass T) l l :=
        fun l => List.forall₂_same.2 (fun _ _ => ⟨rfl, rfl, rfl, rfl⟩)
      exact List.rel_append (hrefl a) (List.rel_append hsame (hrefl post))
    have hb := Scan_sim T s s1 hrel
    have hf := Scan_false T s
    have hf1 := Scan_false T s1
    have hn := Scan_true_nextToken T s
    have hn1 := Scan_true_nextToken T s1
    rcases hs : s.Scan T with ⟨b, x⟩
    rcases hs1 : s1.Scan T with ⟨b1, x1⟩
    rw [hs] at hb hf hn
    rw [hs1] at hb hf1 hn1
    simp only at hb
    subst hb
    refine ⟨rfl, ?_⟩
    cases b
    · have k := hf rfl
      have k1 := hf1 rfl
      simp only at k k1
      rw [k, k1]
      exact Or.inl rfl
    · have k := hn x rfl
      have k1 := hn1 x1 rfl
      rw [e1, nextToken_before T a v1 post hlast hne.1 hv1 hpost] at k
      rw [e2, nextToken_before T a v2 post hlast hne.2 hv2 hpost] at k1
      cases hna : nextToken T a with
      | none =>
        rw [hna] at k k1
        simp only [Option.some.injEq, Prod.mk.injEq] at k k1
        exact Or.inr (Or.inr ⟨k.2.symm, k1.2.symm, by rw [k.1], by rw [k1.1]⟩)
      | some q =>
        obtain ⟨token, a1⟩ := q
        rw [hna] at k k1
        simp only [Option.some.injEq, Prod.mk.injEq] at k k1
        obtain ⟨n, hd⟩ := nextToken_drop T _ _ _ hna
        refine Or.inr (Or.inl ⟨?_, a1, k.2.symm, k1.2.symm, ?_⟩)
        · have : x.Text.data = x1.Text.data := by rw [← k.1, ← k1.1]
          exact String.ext this
        · intro c hc
          rw [hd] at hc
          exact hlast c (mem_getLast?_drop a n c hc)
  · rw [Scan_rest T s s1 (e1.trans e2.symm)]
    exact ⟨rfl, Or.inl rfl⟩

end Asm

/-! ## The token readers on two texts that differ in the case of one mnemonic -/

namespace Asm

section Variants

variable {T : RuneTables} {v1 v2 post : List Char}

theorem CaseVariants.scan_var (H : CaseVariants T v1 v2 post) {s s1 : Scanner}
    (h : Scanner.Variant T v1 v2 post s s1) :
    (s.Scan T).1 = (s1.Scan T).1 ∧ Scanner.Variant T v1 v2 post (s.Scan T).2 (s1.Scan T).2 :=
  Scanner.Variant.scan_step H.same
    ⟨fun h0 => by have := H.len.1; rw [h0] at this; simp at this,
     fun h0 => by have := H.len.2; rw [h0] at this; simp at this⟩
    H.word1 H.word2 H.post h

/-- The tokens of two related cursors are equal, or they are the two spellings. -/
theorem Scanner.Variant.text {s s1 : Scanner} (h : Scanner.Variant T v1 v2 post s s1) :
    s.Text = s1.Text ∨ (s.Text = String.mk v1 ∧ s1.Text = String.mk v2) := by
  rcases h with rfl | ⟨h, _⟩ | ⟨_, _, h1, h2⟩
  · exact Or.inl rfl
  · exact Or.inl h
  · exact Or.inr ⟨h1, h2⟩

theorem CaseVariants.ne_token (H : CaseVariants T v1 v2 post) (token : String)
    (htok : token.length = 1) :
    (String.mk v1 == token) = false ∧ (String.mk v2 == token) = false := by
  have h1 := H.len.1
  have h2 := H.len.2
  constructor <;>
  · simp only [beq_eq_false_iff_ne, ne_eq]
    intro h0
    rw [← h0] at htok
    simp only [String.length] at htok
    omega

theorem nextReadToken_var (H : CaseVariants T v1 v2 post) {s s1 x : Scanner}
    (hr : Scanner.Variant T v1 v2 post s s1) {token : String} {b : Bool}
    (h : nextReadToken T s token = (b, x)) (htok : token.length = 1) :
    ∃ x1, nextReadToken T s1 token = (b, x1) ∧ Scanner.Variant T v1 v2 post x x1 := by
  obtain ⟨k1, k2⟩ := H.scan_var hr
  obtain ⟨n1, n2⟩ := H.ne_token token htok
  unfold nextReadToken at h ⊢
  rcases hs : s.Scan T with ⟨b0, y⟩
  rcases hs1 : s1.Scan T with ⟨b1, y1⟩
  rw [hs, hs1] at k1 k2
  simp only at k1 k2
  subst k1
  have k3 := k2.text
  rw [hs] at h
  cases b0 <;> simp only [Prod.mk.injEq] at h ⊢ <;> obtain ⟨rfl, rfl⟩ := h
  · exact ⟨y1, ⟨rfl, rfl⟩, k2⟩
  · refine ⟨y1, ⟨?_, rfl⟩, k2⟩
    rcases k3 with k3 | ⟨k3, k4⟩
    · rw [k3]
    · rw [k3, k4, n1, n2]

theorem nextReadRegExp_var (H : CaseVariants T v1 v2 post) {s s1 x : Scanner}
    (hr : Scanner.Variant T v1 v2 post s s1) {reg : String → Bool} {b : Bool}
    (h : nextReadRegExp T s reg = (b, x)) (hreg : reg = regRegister ∨ reg = regLabel) :
    ∃ x1, nextReadRegExp T s1 reg = (b, x1) ∧ Scanner.Variant T v1 v2 post x x1 ∧
      (b = true → reg = regRegister → x.Text = x1.Text) := by
  obtain ⟨k1, k2⟩ := H.scan_var hr
  unfold nextReadRegExp at h ⊢
  rcases hs : s.Scan T with ⟨b0, y⟩
  rcases hs1 : s1.Scan T with ⟨b1, y1⟩
  rw [hs, hs1] at k1 k2
  simp only at k1 k2
  subst k1
  have k3 := k2.text
  rw [hs] at h
  cases b0 <;> simp only [Prod.mk.injEq] at h ⊢ <;> obtain ⟨rfl, rfl⟩ := h
  · exact ⟨y1, ⟨rfl, rfl⟩, k2, fun h0 => absurd h0 (by decide)⟩
  · rcases k3 with k3 | ⟨k3, k4⟩
    · exact ⟨y1, ⟨by rw [k3], rfl⟩, k2, fun _ _ => k3⟩
    · refine ⟨y1, ⟨?_, rfl⟩, k2, ?_⟩
      · rcases hreg with rfl | rfl
        · rw [k3, k4, H.register.1, H.register.2]
        · rw [k3, k4, H.label.1, H.label.2]
      · intro h0 h1
        rw [h1, k3, H.register.1] at h0
        exact absurd h0 (by decide)

theorem nextReadRegister_var (H : CaseVariants T v1 v2 post) {s s1 x : Scanner}
    (hr : Scanner.Variant T v1 v2 post s s1) {r : Except Error Nat}
    (h : nextReadRegister T s = (r, x)) :
    ∃ r1 x1, nextReadRegister T s1 = (r1, x1) ∧ Scanner.Variant T v1 v2 post x x1 ∧
      ((∃ e e1, r = .error e ∧ r1 = .error e1) ∨ (∃ n, r = .ok n ∧ r1 = .ok n)) := by
  unfold nextReadRegister at h ⊢
  rcases h1 : nextReadToken T s "%" with ⟨b, y⟩
  obtain ⟨y1, e1, r1⟩ := nextReadToken_var H hr h1 rfl
  rw [h1] at h
  rw [e1]
  cases b
  · simp only [Prod.mk.injEq] at h ⊢
    obtain ⟨rfl, rfl⟩ := h
    exact ⟨_, _, ⟨rfl, rfl⟩, r1, Or.inl ⟨_, _, rfl, rfl⟩⟩
  · simp only at h ⊢
    rcases h2 : nextReadRegExp T y regRegister with ⟨b2, z⟩
    obtain ⟨z1, e2, r2, t2⟩ := nextReadRegExp_var H r1 h2 (Or.inl rfl)
    rw [h2] at h
    rw [e2]
    cases b2 <;> simp only [Prod.mk.injEq] at h ⊢ <;> obtain ⟨rfl, rfl⟩ := h
    · exact ⟨_, _, ⟨rfl, rfl⟩, r2, Or.inl ⟨_, _, rfl, rfl⟩⟩
    · exact ⟨_, _, ⟨rfl, rfl⟩, r2, Or.inr ⟨_, rfl, by rw [t2 rfl rfl]⟩⟩

theorem nextReadRegister_var_ok (H : CaseVariants T v1 v2 post) {s s1 x : Scanner}
    (hr : Scanner.Variant T v1 v2 post s s1) {n : Nat}
    (h : nextReadRegister T s = (.ok n, x)) :
    ∃ x1, nextReadRegister T s1 = (.ok n, x1) ∧ Scanner.Variant T v1 v2 post x x1 := by
  obtain ⟨r1, x1, e, hv, hres⟩ := nextReadRegister_var H hr h
  rcases hres with ⟨_, _, h0, _⟩ | ⟨m, h0, rfl⟩
  · cases h0
  · cases h0
    exact ⟨x1, e, hv⟩

theorem nextReadRegister_var_err (H : CaseVariants T v1 v2 post) {s s1 x : Scanner}
    (hr : Scanner.Variant T v1 v2 post s s1) {err : Error}
    (h : nextReadRegister T s = (.error err, x)) :
    ∃ err1 x1, nextReadRegister T s1 = (.error err1, x1) ∧
      Scanner.Variant T v1 v2 post x x1 := by
  obtain ⟨r1, x1, e, hv, hres⟩ := nextReadRegister_var H hr h
  rcases hres with ⟨_, e1, _, rfl⟩ | ⟨m, h0, _⟩
  · exact ⟨e1, x1, e, hv⟩
  · cases h0

theorem nextReadNumber_var (H : CaseVariants T v1 v2 post) {s s1 x : Scanner}
    (hr : Scanner.Variant T v1 v2 post s s1) {r : Except Error Int}
    (h : nextReadNumber T s = (r, x)) :
    ∃ r1 x1, nextReadNumber T s1 = (r1, x1) ∧ Scanner.Variant T v1 v2 post x x1 ∧
      ((∃ e e1, r = .error e ∧ r1 = .error e1) ∨ (∃ n, r = .ok n ∧ r1 = .ok n)) := by
  obtain ⟨k1, k2⟩ := H.scan_var hr
  obtain ⟨m1, m2⟩ := H.ne_token "-" rfl
  unfold nextReadNumber at h ⊢
  rcases hs : s.Scan T with ⟨b0, y⟩
  rcases hs1 : s1.Scan T with ⟨b1, y1⟩
  rw [hs, hs1] at k1 k2
  simp only at k1 k2
  subst k1
  rw [hs] at h
  cases b0
  · simp only [Prod.mk.injEq] at h ⊢
    obtain ⟨rfl, rfl⟩ := h
    exact ⟨_, _, ⟨rfl, rfl⟩, k2, Or.inl ⟨_, _, rfl, rfl⟩⟩
  · simp only at h ⊢
    have hneg : (y1.Text == "-") = (y.Text == "-") := by
      rcases k2.text with k3 | ⟨k3, k4⟩
      · rw [k3]
      · rw [k3, k4, m1, m2]
    rw [hneg]
    have hnext : ∀ b z, (if (y.Text == "-") = true then y.Scan T else (true, y)) = (b, z) →
        ∃ z1, (if (y.Text == "-") = true then y1.Scan T else (true, y1)) = (b, z1) ∧
          Scanner.Variant T v1 v2 post z z1 := by
      intro b z hz
      by_cases hn : (y.Text == "-") = true
      · rw [if_pos hn] at hz ⊢
        obtain ⟨q1, q2⟩ := H.scan_var k2
        rw [hz] at q1 q2
        simp only at q1 q2
        exact ⟨(y1.Scan T).2, Prod.ext q1.symm rfl, q2⟩
      · rw [if_neg hn] at hz ⊢
        simp only [Prod.mk.injEq] at hz
        obtain ⟨rfl, rfl⟩ := hz
        exact ⟨y1, rfl, k2⟩
    rcases h2 : (if (y.Text == "-") = true then y.Scan T else (true, y)) with ⟨b2, z⟩
    obtain ⟨z1, e2, r2⟩ := hnext b2 z h2
    rw [h2] at h
    rw [e2]
    cases b2
    · simp only [Prod.mk.injEq] at h ⊢
      obtain ⟨rfl, rfl⟩ := h
      exact ⟨_, _, ⟨rfl, rfl⟩, r2, Or.inl ⟨_, _, rfl, rfl⟩⟩
    · simp only at h ⊢
      rcases r2.text with t2 | ⟨t2, t3⟩
      · rw [← t2]
        by_cases hreg : (!regNumber z.Text) = true
        · rw [if_pos hreg] at h ⊢
          simp only [Prod.mk.injEq] at h
          obtain ⟨rfl, rfl⟩ := h
          exact ⟨_, _, rfl, r2, Or.inl ⟨_, _, rfl, rfl⟩⟩
        · rw [if_neg hreg] at h ⊢
          rcases hp : ParseInt (if (y.Text == "-") = true then "-" ++ z.Text
            else z.Text).data 32 with ⟨n, e⟩
          rw [hp] at h
          cases e <;> simp only [Prod.mk.injEq] at h ⊢ <;> obtain ⟨rfl, rfl⟩ := h
          · exact ⟨_, _, ⟨rfl, rfl⟩, r2, Or.inr ⟨_, rfl, rfl⟩⟩
          · exact ⟨_, _, ⟨rfl, rfl⟩, r2, Or.inl ⟨_, _, rfl, rfl⟩⟩
      · have g1 : (!regNumber z.Text) = true := by rw [t2, H.number.1]; rfl
        have g2 : (!regNumber z1.Text) = true := by rw [t3, H.number.2]; rfl
        rw [if_pos g1] at h
        rw [if_pos g2]
        simp only [Prod.mk.injEq] at h
        obtain ⟨rfl, rfl⟩ := h
        exact ⟨_, _, rfl, r2, Or.inl ⟨_, _, rfl, rfl⟩⟩

theorem nextReadNumber_var_ok (H : CaseVariants T v1 v2 post) {s s1 x : Scanner}
    (hr : Scanner.Variant T v1 v2 post s s1) {n : Int}
    (h : nextReadNumber T s = (.ok n, x)) :
    ∃ x1, nextReadNumber T s1 = (.ok n, x1) ∧ Scanner.Variant T v1 v2 post x x1 := by
  obtain ⟨r1, x1, e, hv, hres⟩ := nextReadNumber_var H hr h
  rcases hres with ⟨_, _, h0, _⟩ | ⟨m, h0, rfl⟩
  · cases h0
  · cases h0
    exact ⟨x1, e, hv⟩

theorem nextReadNumber_var_err (H : CaseVariants T v1 v2 post) {s s1 x : Scanner}
    (hr : Scanner.Variant T v1 v2 post s s1) {err : Error}
    (h : nextReadNumber T s = (.error err, x)) :
    ∃ err1 x1, nextReadNumber T s1 = (.error err1, x1) ∧
      Scanner.Variant T v1 v2 post x x1 := by
  obtain ⟨r1, x1, e, hv, hres⟩ := nextReadNumber_var H hr h
  rcases hres with ⟨_, e1, _, rfl⟩ | ⟨m, h0, _⟩
  · exact ⟨e1, x1, e, hv⟩
  · cases h0

theorem nextReadImmediateNumber_var (H : CaseVariants T v1 v2 post) {s s1 x : Scanner}
    (hr : Scanner.Variant T v1 v2 post s s1) {r : Except Error Int}
    (h : nextReadImmediateNumber T s = (r, x)) :
    ∃ r1 x1, nextReadImmediateNumber T s1 = (r1, x1) ∧ Scanner.Variant T v1 v2 post x x1 ∧
      ((∃ e e1, r = .error e ∧ r1 = .error e1) ∨ (∃ n, r = .ok n ∧ r1 = .ok n)) := by
  unfold nextReadImmediateNumber at h ⊢
  rcases h1 : nextReadToken T s "$" with ⟨b, y⟩
  obtain ⟨y1, e1, r1⟩ := nextReadToken_var H hr h1 rfl
  rw [h1] at h
  rw [e1]
  cases b
  · simp only [Prod.mk.injEq] at h ⊢
    obtain ⟨rfl, rfl⟩ := h
    exact ⟨_, _, ⟨rfl, rfl⟩, r1, Or.inl ⟨_, _, rfl, rfl⟩⟩
  · simp only at h ⊢
    exact nextReadNumber_var H r1 h

theorem nextReadImmediateNumber_var_ok (H : CaseVariants T v1 v2 post) {s s1 x : Scanner}
    (hr : Scanner.Variant T v1 v2 post s s1) {n : Int}
    (h : nextReadImmediateNumber T s = (.ok n, x)) :
    ∃ x1, nextReadImmediateNumber T s1 = (.ok n, x1) ∧
      Scanner.Variant T v1 v2 post x x1 := by
  obtain ⟨r1, x1, e, hv, hres⟩ := nextReadImmediateNumber_var H hr h
  rcases hres with ⟨_, _, h0, _⟩ | ⟨m, h0, rfl⟩
  · cases h0
  · cases h0
    exact ⟨x1, e, hv⟩

theorem nextReadImmediateNumber_var_err (H : CaseVariants T v1 v2 post) {s s1 x : Scanner}
    (hr : Scanner.Variant T v1 v2 post s s1) {err : Error}
    (h : nextReadImmediateNumber T s = (.error err, x)) :
    ∃ err1 x1, nextReadImmediateNumber T s1 = (.error err1, x1) ∧
      Scanner.Variant T v1 v2 post x x1 := by
  obtain ⟨r1, x1, e, hv, hres⟩ := nextReadImmediateNumber_var H hr h
  rcases hres with ⟨_, e1, _, rfl⟩ | ⟨m, h0, _⟩
  · exact ⟨e1, x1, e, hv⟩
  · cases h0

end Variants

end Asm

namespace Asm

section Variants

variable {T : RuneTables} {v1 v2 post : List Char}

end Variants

end Asm

/-! ## The first loop of `Parse` on two texts that differ in the case of one mnemonic -/

namespace Asm

section Variants

variable {T : RuneTables} {v1 v2 post : List Char}

end Variants

end Asm

/-! ## Claim on the case of the letters of a mnemonic -/

namespace Asm

end Asm

namespace Asm

end Asm
